import Mathlib

/-!
# MMKV encrypted read path `CodedInputDataCrypt` and the ARMv8 CRC-32

A shallow embedding of `src/Core/CodedInputDataCrypt.cpp` and of
`src/Core/crc32/crc32_armv8.cpp`, followed by the properties of the specification that concern
them.

Conventions of the embedding

* `size_t` is a 64-bit word: every `size_t` addition, subtraction and multiplication of the
  source is taken modulo `2^64` (`szAdd`, `szSub`, `szMul`).
* `uint8_t` is `Fin 256`; `int8_t`, `int32_t` and `int64_t` values are `Int`, and the
  bitwise operators act on their two's-complement bit patterns (`and32`, `or32`, `shl32`, ...),
  a left shift keeping the low 32 (resp. 64) bits.
* The pair `(m_ptr, m_decrypter)` is the oracle `m_plain`: decrypting `length` bytes at the
  cipher cursor `m_decryptPosition` yields `m_plain m_decryptPosition, ...`.
* The staging buffer is the memory function `m_decryptBuffer` together with its allocated
  size `m_decryptBufferSize`; `malloc` and `realloc` always succeed, memory keeps its content
  across `realloc`, and `assert` is the release-build no-op.
* A C++ exception is the `Outcome.fail` result; it carries the state of the reader at the
  throw, because the object survives the exception.
* `readFloat` and `readDouble` reinterpret the result of `readRawLittleEndian32` and
  `readRawLittleEndian64` as floating point and are not embedded.
* For the CRC, memory is a function from addresses to bytes, a pointer is an address, and the
  multi-byte loads are little-endian; the `uint32_t` checksum is a `Nat` kept below `2^32`.
-/

namespace mmkv

/-- The cipher block length `AES_KEY_LEN`. -/
def AES_KEY_LEN : Nat := 16

/-- The modulus of `size_t` arithmetic, `2^64`. -/
def SIZE_MOD : Nat := 18446744073709551616

/-- Addition of two `size_t` values. -/
def szAdd (a b : Nat) : Nat := (a + b) % SIZE_MOD

/-- Subtraction of two `size_t` values (wraps below zero). -/
def szSub (a b : Nat) : Nat := (a + SIZE_MOD - b % SIZE_MOD) % SIZE_MOD

/-- Multiplication of two `size_t` values. -/
def szMul (a b : Nat) : Nat := (a * b) % SIZE_MOD

/-- A `uint8_t`. -/
abbrev UByte := Fin 256

/-- The cast `(int8_t) b` of a byte. -/
def toInt8 (b : UByte) : Int := if b.val < 128 then (b.val : Int) else (b.val : Int) - 256

/-- The 32-bit pattern of an `int` (also the cast to `uint32_t`). -/
def toU32 (x : Int) : Nat := (x % 4294967296).toNat

/-- The `int32_t` with a given 32-bit pattern. -/
def toInt32 (n : Nat) : Int :=
  if n % 4294967296 < 2147483648 then ((n % 4294967296 : Nat) : Int)
  else ((n % 4294967296 : Nat) : Int) - 4294967296

/-- The 64-bit pattern of an `int64_t` (also the cast to `uint64_t`). -/
def toU64 (x : Int) : Nat := (x % 18446744073709551616).toNat

/-- The `int64_t` with a given 64-bit pattern. -/
def toInt64 (n : Nat) : Int :=
  if n % 18446744073709551616 < 9223372036854775808 then ((n % 18446744073709551616 : Nat) : Int)
  else ((n % 18446744073709551616 : Nat) : Int) - 18446744073709551616

/-- The operator `&` on two `int` values. -/
def and32 (a b : Int) : Int := toInt32 (toU32 a &&& toU32 b)

/-- The operator `|` on two `int` values. -/
def or32 (a b : Int) : Int := toInt32 (toU32 a ||| toU32 b)

/-- The operator `<<` on an `int`, keeping the low 32 bits. -/
def shl32 (a : Int) (k : Nat) : Int := toInt32 (toU32 a <<< k)

/-- The operator `&` on two `int64_t` values. -/
def and64 (a b : Int) : Int := toInt64 (toU64 a &&& toU64 b)

/-- The operator `|` on two `int64_t` values. -/
def or64 (a b : Int) : Int := toInt64 (toU64 a ||| toU64 b)

/-- The operator `<<` on an `int64_t`, keeping the low 64 bits. -/
def shl64 (a : Int) (k : Nat) : Int := toInt64 (toU64 a <<< k)

/-- The exceptions thrown by the reader: `out_of_range("OutOfSpace")`,
`out_of_range("reach end ...")`, `invalid_argument("... malformed ...")`,
`length_error("... negativeSize")`, `out_of_range("... truncatedMessage")`. -/
inductive Error where
  | outOfSpace
  | endOfStream
  | malformedVarint
  | negativeSize
  | truncatedMessage
  deriving DecidableEq, Repr

/-- The fields of `CodedInputDataCrypt`. -/
structure CodedInputDataCrypt where
  m_plain : Nat → UByte
  m_size : Nat
  m_position : Nat
  m_decryptPosition : Nat
  m_decryptBuffer : Nat → UByte
  m_decryptBufferSize : Nat
  m_decryptBufferPosition : Nat
  m_decryptBufferDecryptPosition : Nat
  m_decryptBufferDiscardPosition : Nat

/-- The result of a member function: a returned value, or a thrown exception, each with the
state of the reader afterwards. -/
inductive Outcome (α : Type) where
  | ok (val : α) (s : CodedInputDataCrypt)
  | fail (e : Error) (s : CodedInputDataCrypt)

/-- Sequencing of two steps; an exception of the first step propagates. -/
def Outcome.bind {α β : Type} (o : Outcome α) (f : α → CodedInputDataCrypt → Outcome β) :
    Outcome β :=
  match o with
  | .ok a s => f a s
  | .fail e s => .fail e s

/-- The state of the reader after the call. -/
def Outcome.state {α : Type} : Outcome α → CodedInputDataCrypt
  | .ok _ s => s
  | .fail _ s => s

/-- The returned value, when the call returned. -/
def Outcome.val? {α : Type} : Outcome α → Option α
  | .ok a _ => some a
  | .fail _ _ => none

/-- The thrown exception, when the call threw. -/
def Outcome.err? {α : Type} : Outcome α → Option Error
  | .ok _ _ => none
  | .fail e _ => some e

/-- Modelled from the spec: the decrypt engine `decrypt(src, dst, length)`, which is not in the
source tree. It continues the chain across calls, so the bytes written to `dst` are the source
plaintext starting at the cipher cursor `srcPos`. -/
def decrypt (plain : Nat → UByte) (srcPos : Nat) (buf : Nat → UByte) (dstPos length : Nat) :
    Nat → UByte :=
  fun i => if dstPos ≤ i ∧ i < dstPos + length then plain (srcPos + (i - dstPos)) else buf i

/-- The library call `memmove(buf + dst, buf + src, n)`. -/
def memmove (buf : Nat → UByte) (dst src n : Nat) : Nat → UByte :=
  fun i => if dst ≤ i ∧ i < dst + n then buf (src + (i - dst)) else buf i

/-- The bytes `buf[pos], ..., buf[pos + n - 1]`, as copied out by the `std::string` and
`MMBuffer` constructors. -/
def copyOut (buf : Nat → UByte) (pos : Nat) : Nat → List UByte
  | 0 => []
  | n + 1 => buf pos :: copyOut buf (pos + 1) n

/-- The constructor `CodedInputDataCrypt(oData, length, crypt)`. -/
def construct (plain : Nat → UByte) (length : Nat) : CodedInputDataCrypt :=
  { m_plain := plain
    m_size := length
    m_position := 0
    m_decryptPosition := 0
    m_decryptBuffer := fun _ => 0
    m_decryptBufferSize := szMul AES_KEY_LEN 2
    m_decryptBufferPosition := 0
    m_decryptBufferDecryptPosition := 0
    m_decryptBufferDiscardPosition := 0 }

/-- The member function `seek`. -/
def seek (addedSize : Nat) (s : CodedInputDataCrypt) : Outcome Unit :=
  let s := { s with m_position := szAdd s.m_position addedSize }
  if s.m_position > s.m_size then .fail .outOfSpace s else .ok () s

/-- The first statement of `consumeBytes`: the discard mark moves to the read position. -/
def markDiscard (discardPreData : Bool) (s : CodedInputDataCrypt) : CodedInputDataCrypt :=
  if discardPreData then
    { s with m_decryptBufferDiscardPosition := s.m_decryptBufferPosition }
  else s

/-- The block "try move some space" of `consumeBytes`; it returns the state and the local
`bytesLeftInBuffer`. -/
def compact (length bytesLeftInBuffer : Nat) (s : CodedInputDataCrypt) :
    CodedInputDataCrypt × Nat :=
  if bytesLeftInBuffer < length ∧ s.m_decryptBufferDiscardPosition > 0 then
    let posToMove := szMul (s.m_decryptBufferDiscardPosition / AES_KEY_LEN) AES_KEY_LEN
    if posToMove ≠ 0 then
      let sizeToMove := szSub s.m_decryptBufferDecryptPosition posToMove
      let s :=
        { s with
          m_decryptBuffer := memmove s.m_decryptBuffer 0 posToMove sizeToMove
          m_decryptBufferPosition := szSub s.m_decryptBufferPosition posToMove
          m_decryptBufferDecryptPosition := szSub s.m_decryptBufferDecryptPosition posToMove
          m_decryptBufferDiscardPosition := 0 }
      (s, szSub s.m_decryptBufferSize s.m_decryptBufferDecryptPosition)
    else (s, bytesLeftInBuffer)
  else (s, bytesLeftInBuffer)

/-- The block "still not enough space, try realloc" of `consumeBytes`. -/
def grow (length bytesLeftInBuffer : Nat) (s : CodedInputDataCrypt) : CodedInputDataCrypt :=
  if bytesLeftInBuffer < length then
    { s with m_decryptBufferSize := szAdd s.m_decryptBufferSize length }
  else s

/-- The last three statements of `consumeBytes`: decrypt `length` bytes to the buffer tail. -/
def fill (length : Nat) (s : CodedInputDataCrypt) : CodedInputDataCrypt :=
  { s with
    m_decryptBuffer :=
      decrypt s.m_plain s.m_decryptPosition s.m_decryptBuffer s.m_decryptBufferDecryptPosition
        length
    m_decryptPosition := szAdd s.m_decryptPosition length
    m_decryptBufferDecryptPosition := szAdd s.m_decryptBufferDecryptPosition length }

/-- The length that `consumeBytes` decrypts when it leaves the fast path: what is missing,
rounded up to whole blocks and clamped to the bytes left in the source. -/
def fillLength (length : Nat) (s : CodedInputDataCrypt) : Nat :=
  let decryptedBytesLeft := szSub s.m_decryptBufferDecryptPosition s.m_decryptBufferPosition
  let length := szSub length decryptedBytesLeft
  let length := szMul (szSub (szAdd length AES_KEY_LEN) 1 / AES_KEY_LEN) AES_KEY_LEN
  let bytesLeftInSrc := szSub s.m_size s.m_decryptPosition
  min bytesLeftInSrc length

/-- The member function `consumeBytes`. -/
def consumeBytes (length : Nat) (discardPreData : Bool) (s : CodedInputDataCrypt) :
    CodedInputDataCrypt :=
  let s := markDiscard discardPreData s
  let decryptedBytesLeft := szSub s.m_decryptBufferDecryptPosition s.m_decryptBufferPosition
  if decryptedBytesLeft ≥ length then s
  else
    let length := fillLength length s
    let bytesLeftInBuffer := szSub s.m_decryptBufferSize s.m_decryptBufferDecryptPosition
    let moved := compact length bytesLeftInBuffer s
    let s := grow length moved.2 moved.1
    fill length s

/-- The body of the loop of `skipBytes`, run `total` times: one block is decrypted to the
start of the buffer and the cipher cursor moves one block on. -/
def skipLoop : Nat → CodedInputDataCrypt → CodedInputDataCrypt
  | 0, s => s
  | total + 1, s =>
    skipLoop total
      { s with
        m_decryptBuffer := decrypt s.m_plain s.m_decryptPosition s.m_decryptBuffer 0 AES_KEY_LEN
        m_decryptPosition := szAdd s.m_decryptPosition AES_KEY_LEN }

/-- The member function `skipBytes`. -/
def skipBytes (length : Nat) (s : CodedInputDataCrypt) : CodedInputDataCrypt :=
  let decryptedBytesLeft := szSub s.m_decryptBufferDecryptPosition s.m_decryptBufferPosition
  if decryptedBytesLeft ≥ length then
    { s with m_decryptBufferPosition := szAdd s.m_decryptBufferPosition length }
  else
    let length := szSub length decryptedBytesLeft
    let s := skipLoop (szSub (szAdd length AES_KEY_LEN) 1 / AES_KEY_LEN) s
    { s with
      m_decryptBufferPosition := length % AES_KEY_LEN
      m_decryptBufferDecryptPosition := AES_KEY_LEN }

/-- The member function `readRawByte`. -/
def readRawByte (s : CodedInputDataCrypt) : Outcome Int :=
  if s.m_position = s.m_size then .fail .endOfStream s
  else
    .ok (toInt8 (s.m_decryptBuffer s.m_decryptBufferPosition))
      { s with
        m_position := szAdd s.m_position 1
        m_decryptBufferPosition := szAdd s.m_decryptBufferPosition 1 }

/-- The loop "discard upper 32 bits" of `readRawVarint32`, with `n` rounds left. -/
def discardUpper : Nat → Int → CodedInputDataCrypt → Outcome Int
  | 0, _, s => .fail .malformedVarint s
  | n + 1, result, s =>
    (readRawByte s).bind fun b s =>
      if b ≥ 0 then .ok result s else discardUpper n result s

/-- The statements of `readRawVarint32` after its call of `consumeBytes`. -/
def readRawVarint32Body (s : CodedInputDataCrypt) : Outcome Int :=
  (readRawByte s).bind fun tmp s =>
    if tmp ≥ 0 then .ok tmp s
    else
      let result := and32 tmp 0x7f
      (readRawByte s).bind fun tmp s =>
        if tmp ≥ 0 then .ok (or32 result (shl32 tmp 7)) s
        else
          let result := or32 result (shl32 (and32 tmp 0x7f) 7)
          (readRawByte s).bind fun tmp s =>
            if tmp ≥ 0 then .ok (or32 result (shl32 tmp 14)) s
            else
              let result := or32 result (shl32 (and32 tmp 0x7f) 14)
              (readRawByte s).bind fun tmp s =>
                if tmp ≥ 0 then .ok (or32 result (shl32 tmp 21)) s
                else
                  let result := or32 result (shl32 (and32 tmp 0x7f) 21)
                  (readRawByte s).bind fun tmp s =>
                    let result := or32 result (shl32 tmp 28)
                    if tmp < 0 then discardUpper 5 result s else .ok result s

/-- The member function `readRawVarint32`. -/
def readRawVarint32 (discardPreData : Bool) (s : CodedInputDataCrypt) : Outcome Int :=
  readRawVarint32Body (consumeBytes 10 discardPreData s)

/-- The member function `readRawLittleEndian32`. -/
def readRawLittleEndian32 (s : CodedInputDataCrypt) : Outcome Int :=
  let s := consumeBytes 4 false s
  (readRawByte s).bind fun b1 s =>
  (readRawByte s).bind fun b2 s =>
  (readRawByte s).bind fun b3 s =>
  (readRawByte s).bind fun b4 s =>
    .ok (or32 (or32 (or32 (and32 b1 0xff) (shl32 (and32 b2 0xff) 8))
      (shl32 (and32 b3 0xff) 16)) (shl32 (and32 b4 0xff) 24)) s

/-- The member function `readRawLittleEndian64`. -/
def readRawLittleEndian64 (s : CodedInputDataCrypt) : Outcome Int :=
  let s := consumeBytes 8 false s
  (readRawByte s).bind fun b1 s =>
  (readRawByte s).bind fun b2 s =>
  (readRawByte s).bind fun b3 s =>
  (readRawByte s).bind fun b4 s =>
  (readRawByte s).bind fun b5 s =>
  (readRawByte s).bind fun b6 s =>
  (readRawByte s).bind fun b7 s =>
  (readRawByte s).bind fun b8 s =>
    .ok (or64 (or64 (or64 (or64 (or64 (or64 (or64 (and64 b1 0xff) (shl64 (and64 b2 0xff) 8))
      (shl64 (and64 b3 0xff) 16)) (shl64 (and64 b4 0xff) 24)) (shl64 (and64 b5 0xff) 32))
      (shl64 (and64 b6 0xff) 40)) (shl64 (and64 b7 0xff) 48)) (shl64 (and64 b8 0xff) 56)) s

/-- The loop of `readInt64`. The first argument bounds the number of rounds; ten rounds
exhaust the condition `shift < 64` (see `readInt64Loop_fuel`). -/
def readInt64Loop : Nat → Nat → Int → CodedInputDataCrypt → Outcome Int
  | 0, _, _, s => .fail .malformedVarint s
  | fuel + 1, shift, result, s =>
    if shift < 64 then
      (readRawByte s).bind fun b s =>
        let result := or64 result (shl64 (and32 b 0x7f) shift)
        if and32 b 0x80 = 0 then .ok result s
        else readInt64Loop fuel (shift + 7) result s
    else .fail .malformedVarint s

/-- The member function `readInt64`. -/
def readInt64 (s : CodedInputDataCrypt) : Outcome Int :=
  let s := consumeBytes 10 false s
  readInt64Loop 10 0 0 s

/-- The member function `readUInt64`. -/
def readUInt64 (s : CodedInputDataCrypt) : Outcome Nat :=
  (readInt64 s).bind fun v s => .ok (toU64 v) s

/-- The member function `readInt32`. -/
def readInt32 (s : CodedInputDataCrypt) : Outcome Int :=
  readRawVarint32 false s

/-- The member function `readUInt32`. -/
def readUInt32 (s : CodedInputDataCrypt) : Outcome Nat :=
  (readRawVarint32 false s).bind fun v s => .ok (toU32 v) s

/-- The member function `readFixed32`. -/
def readFixed32 (s : CodedInputDataCrypt) : Outcome Int :=
  readRawLittleEndian32 s

/-- The member function `readBool`. -/
def readBool (s : CodedInputDataCrypt) : Outcome Bool :=
  (readRawVarint32 false s).bind fun v s => .ok (v != 0) s

/-- The part of `readString` and `readData` after the size has been decoded. -/
def readBody (size : Int) (s : CodedInputDataCrypt) : Outcome (List UByte) :=
  if size < 0 then .fail .negativeSize s
  else
    let s_size := toU64 size
    if s_size ≤ szSub s.m_size s.m_position then
      let s := consumeBytes s_size false s
      .ok (copyOut s.m_decryptBuffer s.m_decryptBufferPosition s_size)
        { s with
          m_position := szAdd s.m_position s_size
          m_decryptBufferPosition := szAdd s.m_decryptBufferPosition s_size }
    else .fail .truncatedMessage s

/-- The member function `readString()`. -/
def readString (s : CodedInputDataCrypt) : Outcome (List UByte) :=
  (readRawVarint32 false s).bind readBody

/-- The member function `readData()`. -/
def readData (s : CodedInputDataCrypt) : Outcome (List UByte) :=
  (readRawVarint32 false s).bind readBody

/-- The two values of `KeyValueHolderType` that the reader assigns. -/
inductive KeyValueHolderType where
  | Direct
  | Offset
  deriving DecidableEq, Repr

/-- Modelled from the spec: `AESCryptStatus`, declared outside the source tree, the snapshot
that the decrypt engine's `statusBeforeDecrypt(src, dst, rollbackBytes, status)` produces: a
resumable state positioned `rollbackSize` bytes behind the cipher cursor `cursor`. -/
structure AESCryptStatus where
  cursor : Nat
  rollbackSize : Nat
  deriving DecidableEq, Repr

/-- Modelled from the spec: `KeyValueHolderCrypt`, declared outside the source tree. The fields
are those the reader assigns (`type`, `pbKeyValueSize : uint8_t`, `keySize : uint16_t`,
`valueSize : uint32_t`, `offset : uint32_t`, the crypt status) and, for a Direct entry, the
inline copy of the value bytes. -/
structure KeyValueHolderCrypt where
  type : KeyValueHolderType
  pbKeyValueSize : Nat
  keySize : Nat
  valueSize : Nat
  offset : Nat
  cryptStatus : AESCryptStatus
  value : List UByte
  deriving DecidableEq, Repr

/-- Modelled from the spec: the constructor `KeyValueHolderCrypt(ptr, size)`, declared outside
the source tree; a Direct entry is an inline copy of the value bytes. -/
def KeyValueHolderCrypt.ofBytes (bytes : List UByte) : KeyValueHolderCrypt :=
  { type := .Direct
    pbKeyValueSize := 0
    keySize := 0
    valueSize := 0
    offset := 0
    cryptStatus := { cursor := 0, rollbackSize := 0 }
    value := bytes }

/-- Modelled from the spec: `pbRawVarint32Size` of `PBUtility.h`, not in the source tree; the
byte count (1 to 5) that the varint encoding of an unsigned 32-bit magnitude occupies. -/
def pbRawVarint32Size (value : Nat) : Nat :=
  if value < 128 then 1
  else if value < 16384 then 2
  else if value < 2097152 then 3
  else if value < 268435456 then 4
  else 5

/-- The member function `statusBeforeDecrypt`; the result is the status written through the
reference parameter. -/
def statusBeforeDecrypt (rollbackSize : Nat) (s : CodedInputDataCrypt) : AESCryptStatus :=
  let rollbackSize :=
    szAdd rollbackSize (szSub s.m_decryptBufferDecryptPosition s.m_decryptBufferPosition)
  { cursor := s.m_decryptPosition, rollbackSize := rollbackSize }

/-- The member function `readString(KeyValueHolderCrypt &)`; the first component is the holder
after the call. -/
def readStringKV (kvHolder : KeyValueHolderCrypt) (s : CodedInputDataCrypt) :
    KeyValueHolderCrypt × Outcome (List UByte) :=
  let kvHolder := { kvHolder with offset := s.m_position % 4294967296 }
  match readRawVarint32 true s with
  | .fail e s => (kvHolder, .fail e s)
  | .ok size s =>
    if size < 0 then (kvHolder, .fail .negativeSize s)
    else
      let s_size := toU64 size
      if s_size ≤ szSub s.m_size s.m_position then
        let s := consumeBytes s_size false s
        let kvHolder := { kvHolder with keySize := s_size % 65536 }
        (kvHolder,
          .ok (copyOut s.m_decryptBuffer s.m_decryptBufferPosition s_size)
            { s with
              m_position := szAdd s.m_position s_size
              m_decryptBufferPosition := szAdd s.m_decryptBufferPosition s_size })
      else (kvHolder, .fail .truncatedMessage s)

/-- The member function `readData(KeyValueHolderCrypt &)`; `sizeofKV` is
`sizeof(KeyValueHolderCrypt)`, and the first component is the holder after the call. -/
def readDataKV (sizeofKV : Nat) (kvHolder : KeyValueHolderCrypt) (s : CodedInputDataCrypt) :
    KeyValueHolderCrypt × Outcome Unit :=
  match readRawVarint32 false s with
  | .fail e s => (kvHolder, .fail e s)
  | .ok size s =>
    if size < 0 then (kvHolder, .fail .negativeSize s)
    else
      let s_size := toU64 size
      if s_size ≤ szSub s.m_size s.m_position then
        if s_size > szMul sizeofKV 2 then
          let kvHolder := { kvHolder with type := .Offset }
          let kvHolder := { kvHolder with valueSize := s_size % 4294967296 }
          let kvHolder :=
            { kvHolder with
              pbKeyValueSize :=
                ((pbRawVarint32Size kvHolder.valueSize + pbRawVarint32Size kvHolder.keySize)
                  % 4294967296) % 256 }
          let rollbackSize := szAdd kvHolder.pbKeyValueSize kvHolder.keySize
          let kvHolder := { kvHolder with cryptStatus := statusBeforeDecrypt rollbackSize s }
          let s := skipBytes s_size s
          (kvHolder, .ok () { s with m_position := szAdd s.m_position s_size })
        else
          let s := consumeBytes s_size false s
          (KeyValueHolderCrypt.ofBytes (copyOut s.m_decryptBuffer s.m_decryptBufferPosition s_size),
            .ok ()
              { s with
                m_position := szAdd s.m_position s_size
                m_decryptBufferPosition := szAdd s.m_decryptBufferPosition s_size })
      else (kvHolder, .fail .truncatedMessage s)

/-- Coherence of a reader state: the source is shorter than `2^62` bytes, the logical position
and the cipher cursor are within it, the cipher cursor is ahead of the logical position by
exactly the staged unread bytes, the staging cursors are ordered
(`discard ≤ read ≤ decrypted end ≤ size`), the buffer has grown by no more than was decrypted,
and the staged unread bytes are the source plaintext from the logical position on.
The constructor establishes it (`construct_coherent`), and `consumeBytes` and the reads of
staged bytes preserve it (`consumeBytes_spec`, `advance_coherent`). -/
structure Coherent (s : CodedInputDataCrypt) : Prop where
  size_lt : s.m_size < 4611686018427387904
  pos_le : s.m_position ≤ s.m_size
  lockstep : s.m_position + (s.m_decryptBufferDecryptPosition - s.m_decryptBufferPosition)
    = s.m_decryptPosition
  dec_le : s.m_decryptPosition ≤ s.m_size
  discard_le : s.m_decryptBufferDiscardPosition ≤ s.m_decryptBufferPosition
  read_le : s.m_decryptBufferPosition ≤ s.m_decryptBufferDecryptPosition
  end_le : s.m_decryptBufferDecryptPosition ≤ s.m_decryptBufferSize
  cap_le : s.m_decryptBufferSize ≤ 32 + s.m_decryptPosition
  mirror : ∀ i, s.m_decryptBufferPosition ≤ i → i < s.m_decryptBufferDecryptPosition →
    s.m_decryptBuffer i = s.m_plain (s.m_position + (i - s.m_decryptBufferPosition))

/-- Same source, same logical position. -/
def SameView (s t : CodedInputDataCrypt) : Prop :=
  t.m_plain = s.m_plain ∧ t.m_size = s.m_size ∧ t.m_position = s.m_position

/-- The state after `n` further staged bytes have been consumed. -/
def advance (n : Nat) (s : CodedInputDataCrypt) : CodedInputDataCrypt :=
  { s with
    m_position := s.m_position + n
    m_decryptBufferPosition := s.m_decryptBufferPosition + n }

/-- The plaintext byte `i` places after the logical position. -/
def byteAt (s : CodedInputDataCrypt) (i : Nat) : Nat := (s.m_plain (s.m_position + i)).val

/-- The number of staged unread bytes. -/
def staged (s : CodedInputDataCrypt) : Nat :=
  s.m_decryptBufferDecryptPosition - s.m_decryptBufferPosition

/-- The value that `readRawVarint32` assembles from five continuation-flagged bytes. -/
def assemble5 (s : CodedInputDataCrypt) : Int :=
  toInt32 (byteAt s 0 % 128 + byteAt s 1 % 128 * 2 ^ 7 + byteAt s 2 % 128 * 2 ^ 14
    + byteAt s 3 % 128 * 2 ^ 21 + byteAt s 4 % 16 * 2 ^ 28)

/-- The value carried by the low 7 bits of the first `k` bytes of a byte sequence. -/
def varintSum (B : Nat → Nat) (k : Nat) : Nat :=
  Finset.sum (Finset.range k) fun i => B i % 128 * 2 ^ (7 * i)

/-- The byte with value `n mod 256`. -/
def ubyte (n : Nat) : UByte := ⟨n % 256, Nat.mod_lt n (by decide)⟩

/-- Modelled from the spec: the encoder is outside the source tree; this is the wire layout
the reader decodes, a base-128 little-endian varint with continuation bit `0x80`, of at most
`fuel` bytes. -/
def encodeVarint : Nat → Nat → List UByte
  | 0, _ => []
  | fuel + 1, v =>
    if v < 128 then [ubyte v] else ubyte (v % 128 + 128) :: encodeVarint fuel (v / 128)

/-- Modelled from the spec: the canonical 1-to-5-byte varint of an unsigned 32-bit value. -/
def encodeVarint32 (v : Nat) : List UByte := encodeVarint 5 v

/-- Modelled from the spec: the canonical 1-to-10-byte varint of an unsigned 64-bit value. -/
def encodeVarint64 (v : Nat) : List UByte := encodeVarint 10 v

/-- Modelled from the spec: a raw little-endian fixed32 field. -/
def encodeFixed32 (v : Nat) : List UByte :=
  [ubyte v, ubyte (v / 2 ^ 8), ubyte (v / 2 ^ 16), ubyte (v / 2 ^ 24)]

/-- Modelled from the spec: a raw little-endian fixed64 field. -/
def encodeFixed64 (v : Nat) : List UByte :=
  [ubyte v, ubyte (v / 2 ^ 8), ubyte (v / 2 ^ 16), ubyte (v / 2 ^ 24), ubyte (v / 2 ^ 32),
    ubyte (v / 2 ^ 40), ubyte (v / 2 ^ 48), ubyte (v / 2 ^ 56)]

/-- Modelled from the spec: a length-delimited field, `[varint length][length raw bytes]`. -/
def encodeData (b : List UByte) : List UByte := encodeVarint32 b.length ++ b

/-- The source plaintext continues, at the logical position, with the bytes `l`. -/
def PlainAt (s : CodedInputDataCrypt) (l : List UByte) : Prop :=
  ∀ i, i < l.length → s.m_plain (s.m_position + i) = l.getD i 0

/-- The logical position is within a source of machine-representable size `N`. -/
def InSource (N : Nat) (s : CodedInputDataCrypt) : Prop :=
  s.m_size = N ∧ s.m_position ≤ s.m_size ∧ N < 18446744073709551616

/-- The oracle of a concrete plaintext: byte `i` of the list, and zero beyond it. -/
def listSource (l : List Nat) : Nat → UByte := fun i => ubyte (l.getD i 0)

/-- A fresh reader over a concrete plaintext. -/
def readerOf (l : List Nat) : CodedInputDataCrypt := construct (listSource l) l.length

/-- A holder before any read. -/
def emptyHolder : KeyValueHolderCrypt := KeyValueHolderCrypt.ofBytes []

/-- A plaintext of two records: a 14-byte key with a 5-byte value, then an 8-byte key with a
3-byte value, followed by padding. -/
def twoRecords : List Nat :=
  [14, 100, 101, 102, 103, 104, 105, 106, 107, 108, 109, 110, 111, 112, 113,
    5, 1, 2, 3, 4, 5,
    8, 50, 51, 52, 53, 54, 55, 56, 57,
    3, 9, 9, 9,
    7, 7, 7, 7, 7, 7, 7, 7, 7, 7, 7, 7, 7, 7, 7, 7, 7, 7, 7, 7, 7, 7, 7, 7, 7, 7, 7, 7, 7, 7]

/-- The reader over `twoRecords` after `readString(kvHolder)`, `readData()` and
`readString(kvHolder)`: it stands at the length prefix `3` of the second value. -/
def afterSecondKey : CodedInputDataCrypt :=
  (readStringKV emptyHolder
    (readData (readStringKV emptyHolder (readerOf twoRecords)).2.state).state).2.state

/-- The size checks of a length-delimited read, for the decoded size `size` and the state `s1`
after the length prefix: NegativeSize exactly for a negative size, TruncatedMessage exactly
for a non-negative size above the source bytes left, and success otherwise. -/
def SizeChecked (err : Option Error) (size : Int) (s1 : CodedInputDataCrypt) : Prop :=
  (err = some Error.negativeSize ↔ size < 0) ∧
  (err = some Error.truncatedMessage ↔
    0 ≤ size ∧ size > (s1.m_size : Int) - (s1.m_position : Int)) ∧
  (err = none ↔ 0 ≤ size ∧ size ≤ (s1.m_size : Int) - (s1.m_position : Int))

/-- A plaintext of one record body whose 158-byte value is followed by the length-delimited
field `02 4D 4E`. -/
def offsetRecord : List Nat :=
  [158, 1] ++ List.replicate 142 99 ++ [1] ++ List.replicate 15 99 ++ [2, 77, 78]

/-- The reader over `offsetRecord` after `readData(kvHolder)` has taken the Offset branch
(with `sizeof(KeyValueHolderCrypt) = 32`). -/
def afterOffsetValue : CodedInputDataCrypt :=
  (readDataKV 32 emptyHolder (readerOf offsetRecord)).2.state

/-- A value written to the stream, tagged with the typed read that matches it. -/
inductive Item where
  | int32 (v : Int)
  | uint32 (v : Nat)
  | int64 (v : Int)
  | fixed32 (v : Int)
  | fixed64 (v : Int)
  | data (b : List UByte)
  | string (b : List UByte)

/-- A value returned by a typed read. -/
inductive Value where
  | int (v : Int)
  | nat (v : Nat)
  | bytes (b : List UByte)
  deriving DecidableEq

/-- The value is representable in its wire type. -/
def Item.Valid : Item → Prop
  | .int32 v => -2147483648 ≤ v ∧ v < 2147483648
  | .uint32 v => v < 4294967296
  | .int64 v => -9223372036854775808 ≤ v ∧ v < 9223372036854775808
  | .fixed32 v => -2147483648 ≤ v ∧ v < 2147483648
  | .fixed64 v => -9223372036854775808 ≤ v ∧ v < 9223372036854775808
  | .data b => b.length < 2147483648
  | .string b => b.length < 2147483648

/-- Modelled from the spec: the canonical encoder, which is outside the source tree. A
non-negative `int32` and a `uint32` are 1-to-5-byte varints, a negative `int32` is the varint
of its sign extension to 64 bits, an `int64` is the varint of its 64-bit pattern, fixed32 and
fixed64 are little-endian, and bytes and strings are length-delimited. -/
def Item.encode : Item → List UByte
  | .int32 v => if 0 ≤ v then encodeVarint32 (toU32 v) else encodeVarint64 (toU64 v)
  | .uint32 v => encodeVarint32 v
  | .int64 v => encodeVarint64 (toU64 v)
  | .fixed32 v => encodeFixed32 (toU32 v)
  | .fixed64 v => encodeFixed64 (toU64 v)
  | .data b => encodeData b
  | .string b => encodeData b

/-- The value that the matching read is expected to return. -/
def Item.value : Item → Value
  | .int32 v => .int v
  | .uint32 v => .nat v
  | .int64 v => .int v
  | .fixed32 v => .int v
  | .fixed64 v => .int v
  | .data b => .bytes b
  | .string b => .bytes b

/-- The typed read that matches the item: `readInt32`, `readUInt32`, `readInt64`,
`readFixed32`, `readRawLittleEndian64`, `readData`, `readString`. -/
def Item.read : Item → CodedInputDataCrypt → Outcome Value
  | .int32 _, s => (readInt32 s).bind fun v s => .ok (.int v) s
  | .uint32 _, s => (readUInt32 s).bind fun v s => .ok (.nat v) s
  | .int64 _, s => (readInt64 s).bind fun v s => .ok (.int v) s
  | .fixed32 _, s => (readFixed32 s).bind fun v s => .ok (.int v) s
  | .fixed64 _, s => (readRawLittleEndian64 s).bind fun v s => .ok (.int v) s
  | .data _, s => (readData s).bind fun v s => .ok (.bytes v) s
  | .string _, s => (readString s).bind fun v s => .ok (.bytes v) s

/-- The stream written for a sequence of items. -/
def encodeAll : List Item → List UByte
  | [] => []
  | it :: rest => it.encode ++ encodeAll rest

/-- The matching reads performed in order; the first exception stops the sequence. -/
def readAll : List Item → CodedInputDataCrypt → Outcome (List Value)
  | [], s => .ok [] s
  | it :: rest, s =>
    (it.read s).bind fun v s => (readAll rest s).bind fun vs s => .ok (v :: vs) s

/-- The oracle of a plaintext given as bytes. -/
def bytesSource (l : List UByte) : Nat → UByte := fun i => l.getD i 0

/-- The staging cursors are ordered: discard mark, read position, decrypted end, buffer
size. -/
def CursorsOrdered (s : CodedInputDataCrypt) : Prop :=
  s.m_decryptBufferDiscardPosition ≤ s.m_decryptBufferPosition ∧
  s.m_decryptBufferPosition ≤ s.m_decryptBufferDecryptPosition ∧
  s.m_decryptBufferDecryptPosition ≤ s.m_decryptBufferSize

/-- The state `t` is the post-`consumeBytes` state `s1` after `k` staged bytes have been
consumed, all of them inside the source. -/
def Consumed (s1 : CodedInputDataCrypt) (k : Nat) (t : CodedInputDataCrypt) : Prop :=
  t = advance k s1 ∧ k ≤ s1.m_size - s1.m_position

/-- What a successful read leaves: a coherent state over the same source, further on. -/
def Stepped (s s' : CodedInputDataCrypt) : Prop :=
  Coherent s' ∧ s'.m_plain = s.m_plain ∧ s'.m_size = s.m_size ∧ s.m_position ≤ s'.m_position


/-- The reader states reached from construction over a source shorter than `2^62` bytes by
successful reads: the typed reads, `readString`, `readData`, `readString(kvHolder)`, and
`readData(kvHolder)` when it takes the Direct branch. -/
inductive Reached : CodedInputDataCrypt → Prop
  | fresh (plain : Nat → UByte) (n : Nat) (h : n < 4611686018427387904) :
      Reached (construct plain n)
  | rawVarint32 (d : Bool) (s : CodedInputDataCrypt) (v : Int) (s' : CodedInputDataCrypt) :
      Reached s → readRawVarint32 d s = .ok v s' → Reached s'
  | rawLittleEndian32 (s : CodedInputDataCrypt) (v : Int) (s' : CodedInputDataCrypt) :
      Reached s → readRawLittleEndian32 s = .ok v s' → Reached s'
  | rawLittleEndian64 (s : CodedInputDataCrypt) (v : Int) (s' : CodedInputDataCrypt) :
      Reached s → readRawLittleEndian64 s = .ok v s' → Reached s'
  | int32 (s : CodedInputDataCrypt) (v : Int) (s' : CodedInputDataCrypt) :
      Reached s → readInt32 s = .ok v s' → Reached s'
  | uint32 (s : CodedInputDataCrypt) (v : Nat) (s' : CodedInputDataCrypt) :
      Reached s → readUInt32 s = .ok v s' → Reached s'
  | int64 (s : CodedInputDataCrypt) (v : Int) (s' : CodedInputDataCrypt) :
      Reached s → readInt64 s = .ok v s' → Reached s'
  | uint64 (s : CodedInputDataCrypt) (v : Nat) (s' : CodedInputDataCrypt) :
      Reached s → readUInt64 s = .ok v s' → Reached s'
  | fixed32 (s : CodedInputDataCrypt) (v : Int) (s' : CodedInputDataCrypt) :
      Reached s → readFixed32 s = .ok v s' → Reached s'
  | bool (s : CodedInputDataCrypt) (v : Bool) (s' : CodedInputDataCrypt) :
      Reached s → readBool s = .ok v s' → Reached s'
  | string (s : CodedInputDataCrypt) (v : List UByte) (s' : CodedInputDataCrypt) :
      Reached s → readString s = .ok v s' → Reached s'
  | data (s : CodedInputDataCrypt) (v : List UByte) (s' : CodedInputDataCrypt) :
      Reached s → readData s = .ok v s' → Reached s'
  | stringKV (kv : KeyValueHolderCrypt) (s : CodedInputDataCrypt) (v : List UByte)
      (s' : CodedInputDataCrypt) :
      Reached s → (readStringKV kv s).2 = .ok v s' → Reached s'
  | dataKVDirect (K : Nat) (kv : KeyValueHolderCrypt) (s : CodedInputDataCrypt) (size : Int)
      (s1 s' : CodedInputDataCrypt) :
      Reached s → readRawVarint32 false s = .ok size s1 → ¬ toU64 size > szMul K 2 →
      (readDataKV K kv s).2 = .ok () s' → Reached s'

/-- The lockstep relation of the three cursors: logical position plus staged unread bytes is
the cipher cursor. -/
def Lockstep (s : CodedInputDataCrypt) : Prop :=
  s.m_position + (s.m_decryptBufferDecryptPosition - s.m_decryptBufferPosition)
    = s.m_decryptPosition

/-- A plaintext of two records and a trailing field: a 7-byte key with a 7-byte value (16
bytes in all), then a 1-byte key with a 159-byte value, then a length-delimited field of 40
bytes. -/
def staleMarkRecords : List Nat :=
  [7] ++ List.replicate 7 65 ++ [7] ++ List.replicate 7 66 ++ [1, 67, 159, 1]
    ++ List.replicate 159 68 ++ [40] ++ List.replicate 40 69

/-- The reader over `staleMarkRecords` after the first record has been read with
`readString(kvHolder)` and `readData(kvHolder)` (Direct branch) and the key of the second with
`readString(kvHolder)`, with `sizeof(KeyValueHolderCrypt) = 32`. -/
def beforeStaleMark : CodedInputDataCrypt :=
  (readStringKV emptyHolder
    (readDataKV 32 emptyHolder
      (readStringKV emptyHolder (readerOf staleMarkRecords)).2.state).2.state).2.state

/-- The reader `beforeStaleMark` after `readData(kvHolder)` has taken the Offset branch for the
159-byte value. -/
def afterStaleMark : CodedInputDataCrypt :=
  (readDataKV 32 emptyHolder beforeStaleMark).2.state

/-- A plaintext that is one value of 159 bytes behind its two-byte length prefix; the value
ends at the end of the source. -/
def tailValue : List Nat := [159, 1] ++ List.replicate 159 68
/-- The holder and the outcome of `readData(kvHolder)` called on the holder and the state that
`readString(kvHolder)` left: one record read the way the claims describe it. -/
def readKeyThenValue (sizeofKV : Nat) (kvHolder : KeyValueHolderCrypt)
    (s : CodedInputDataCrypt) : KeyValueHolderCrypt × Outcome Unit :=
  readDataKV sizeofKV (readStringKV kvHolder s).1 (readStringKV kvHolder s).2.state

/-- The state in which `readData(kvHolder)` captures the cipher status during
`readKeyThenValue`: the key and the length prefix of the value have been read. -/
def atValueBody (kvHolder : KeyValueHolderCrypt) (s : CodedInputDataCrypt) :
    CodedInputDataCrypt :=
  (readRawVarint32 false (readStringKV kvHolder s).2.state).state

/-- A source of 65741 bytes holding one record: the key-length prefix `80 80 04` (65536), a
key of 65536 zero bytes, the value-length prefix `C8 01` (200) and a value of 200 zero
bytes. -/
def longKeySource : Nat → UByte := fun i =>
  if i = 0 then ubyte 128 else if i = 1 then ubyte 128 else if i = 2 then ubyte 4
  else if i = 65539 then ubyte 200 else if i = 65540 then ubyte 1 else ubyte 0
/-- The read position relative to the discard mark when `c` bytes of the current record have
been consumed: the mark still stands at the start of the record, or compaction has reset it
and moved the start of the record into the first block of the buffer. -/
def RecordMark (c : Nat) (s : CodedInputDataCrypt) : Prop :=
  s.m_decryptBufferPosition = s.m_decryptBufferDiscardPosition + c ∨
  (s.m_decryptBufferDiscardPosition = 0 ∧ s.m_decryptBufferPosition ≤ 15 + c)

/-- The reader states at the start of a record during a scan, with
`sizeof(KeyValueHolderCrypt) = K`, of a source shorter than `2^62` bytes made of records of at
most `R` encoded bytes: each record is read by a successful `readString(kvHolder)` followed by
a successful `readData(kvHolder)` whose decoded size is Direct-sized (not above `2 * K`). -/
inductive RecordStart (K R : Nat) : CodedInputDataCrypt → Prop
  | fresh (plain : Nat → UByte) (n : Nat) (h : n < 4611686018427387904) :
      RecordStart K R (construct plain n)
  | next (kv kv' : KeyValueHolderCrypt) (s s1 t s2 : CodedInputDataCrypt) (key : List UByte)
      (size : Int) :
      RecordStart K R s → (readStringKV kv s).2 = .ok key s1 →
      readRawVarint32 false s1 = .ok size t → ¬ toU64 size > szMul K 2 →
      (readDataKV K kv' s1).2 = .ok () s2 → s2.m_position ≤ s.m_position + R →
      RecordStart K R s2

/-- The points of such a scan: the start of a record, the state between the key and the value
of a record, and the state inside `readData(kvHolder)` after the length prefix of the value. -/
inductive ScanPoint (K R : Nat) : CodedInputDataCrypt → Prop
  | start (s : CodedInputDataCrypt) : RecordStart K R s → ScanPoint K R s
  | afterKey (kv kv' : KeyValueHolderCrypt) (s s1 t s2 : CodedInputDataCrypt)
      (key : List UByte) (size : Int) :
      RecordStart K R s → (readStringKV kv s).2 = .ok key s1 →
      readRawVarint32 false s1 = .ok size t → ¬ toU64 size > szMul K 2 →
      (readDataKV K kv' s1).2 = .ok () s2 → s2.m_position ≤ s.m_position + R →
      ScanPoint K R s1
  | afterValueLength (kv kv' : KeyValueHolderCrypt) (s s1 t s2 : CodedInputDataCrypt)
      (key : List UByte) (size : Int) :
      RecordStart K R s → (readStringKV kv s).2 = .ok key s1 →
      readRawVarint32 false s1 = .ok size t → ¬ toU64 size > szMul K 2 →
      (readDataKV K kv' s1).2 = .ok () s2 → s2.m_position ≤ s.m_position + R →
      ScanPoint K R t

/-- Modelled from the spec: one bit step of the reflected CRC-32 with polynomial `0xEDB88320`,
the step inside the builtins `__builtin_arm_crc32b/h/w/d`, which are not in the source
tree. -/
def crcShift (c : Nat) : Nat := if c % 2 = 1 then (c / 2) ^^^ 0xEDB88320 else c / 2

/-- Modelled from the spec: `__crc32b(a, b)`, the wrapper of `__builtin_arm_crc32b`: the bitwise
reflected CRC-32 update of the 32-bit value `a` over the byte `b`. -/
def crc32b (a b : Nat) : Nat :=
  crcShift (crcShift (crcShift (crcShift (crcShift (crcShift (crcShift (crcShift
    ((a % 4294967296) ^^^ (b % 256)))))))))

/-- Modelled from the spec: the CRC-32 update over the `k` little-endian bytes of the word
`w`. -/
def crcWord : Nat → Nat → Nat → Nat
  | 0, a, _ => a
  | k + 1, a, w => crcWord k (crc32b a (w % 256)) (w / 256)

/-- Modelled from the spec: `__crc32h(a, b)`, the update over the 2 little-endian bytes of
`b`. -/
def crc32h (a b : Nat) : Nat := crcWord 2 a b

/-- Modelled from the spec: `__crc32w(a, b)`, the update over the 4 little-endian bytes of
`b`. -/
def crc32w (a b : Nat) : Nat := crcWord 4 a b

/-- Modelled from the spec: `__crc32d(a, b)`, the update over the 8 little-endian bytes of
`b`. -/
def crc32d (a b : Nat) : Nat := crcWord 8 a b

/-- The little-endian load of `k` bytes at address `p`: the pointer casts
`*(const uint16_t *) buf`, `*(const uint32_t *) buf` and `*ptr64` on AArch64. -/
def load (mem : Nat → UByte) (p : Nat) : Nat → Nat
  | 0 => 0
  | k + 1 => (mem p).val + 256 * load mem (p + 1) k

/-- The function `armv8_crc32_small`; `mem` is the memory, `buf` an address. -/
def armv8_crc32_small (mem : Nat → UByte) (crc buf len : Nat) : Nat :=
  let r4 := if len ≥ 4 then (crc32w crc (load mem buf 4), buf + 4, len - 4) else (crc, buf, len)
  let r2 :=
    if r4.2.2 ≥ 2 then (crc32h r4.1 (load mem r4.2.1 2), r4.2.1 + 2, r4.2.2 - 2) else r4
  if r2.2.2 ≥ 1 then crc32b r2.1 (load mem r2.2.1 1) else r2.1

/-- The prologue of `armv8_crc32` under the comment "roundup to 8 byte pointer": it returns
`crc`, `buf` and `len` after `offset = min(len, buf & 7)` bytes have been folded. -/
def armv8_crc32_prologue (mem : Nat → UByte) (crc buf len : Nat) : Nat × Nat × Nat :=
  let offset := min len (buf % 8)
  if offset ≠ 0 then (armv8_crc32_small mem crc buf offset, buf + offset, len - offset)
  else (crc, buf, len)

/-- The loop of `armv8_crc32` unrolled to 8 * 8 bytes, run at most `fuel` times; it returns
`crc`, `ptr64` and `len`. -/
def bulk64 (mem : Nat → UByte) : Nat → Nat → Nat → Nat → Nat × Nat × Nat
  | 0, crc, ptr64, len => (crc, ptr64, len)
  | fuel + 1, crc, ptr64, len =>
    if len ≥ 64 then
      let crc := crc32d crc (load mem ptr64 8)
      let crc := crc32d crc (load mem (ptr64 + 8) 8)
      let crc := crc32d crc (load mem (ptr64 + 16) 8)
      let crc := crc32d crc (load mem (ptr64 + 24) 8)
      let crc := crc32d crc (load mem (ptr64 + 32) 8)
      let crc := crc32d crc (load mem (ptr64 + 40) 8)
      let crc := crc32d crc (load mem (ptr64 + 48) 8)
      let crc := crc32d crc (load mem (ptr64 + 56) 8)
      bulk64 mem fuel crc (ptr64 + 64) (len - 64)
    else (crc, ptr64, len)

/-- The loop of `armv8_crc32` over single 8-byte words, run at most `fuel` times; it returns
`crc`, `ptr64` and `len`. -/
def bulk8 (mem : Nat → UByte) : Nat → Nat → Nat → Nat → Nat × Nat × Nat
  | 0, crc, ptr64, len => (crc, ptr64, len)
  | fuel + 1, crc, ptr64, len =>
    if len ≥ 8 then bulk8 mem fuel (crc32d crc (load mem ptr64 8)) (ptr64 + 8) (len - 8)
    else (crc, ptr64, len)

/-- The function `armv8_crc32`; `mem` is the memory and `buf` the start address. Each loop gets
`len` rounds, which it cannot exhaust (see `bulk64_spec` and `bulk8_spec`). -/
def armv8_crc32 (mem : Nat → UByte) (crc buf len : Nat) : Nat :=
  let crc := (crc ^^^ 0xffffffff) % 4294967296
  let p := armv8_crc32_prologue mem crc buf len
  if p.2.2 = 0 then (p.1 ^^^ 0xffffffff) % 4294967296
  else
    let q := bulk64 mem p.2.2 p.1 p.2.1 p.2.2
    let r := bulk8 mem q.2.2 q.1 q.2.1 q.2.2
    let crc := if r.2.2 ≠ 0 then armv8_crc32_small mem r.1 r.2.1 r.2.2 else r.1
    (crc ^^^ 0xffffffff) % 4294967296

/-- The bytes `mem[p], ..., mem[p + n - 1]`. -/
def bytesAt (mem : Nat → UByte) (p : Nat) : Nat → List UByte
  | 0 => []
  | n + 1 => mem p :: bytesAt mem (p + 1) n

/-- The byte-at-a-time CRC-32 update of `crc` over a byte sequence. -/
def crcBytes (crc : Nat) (bytes : List UByte) : Nat :=
  bytes.foldl (fun c b => crc32b c b.val) crc

/-- Modelled from the spec: the portable reference, the bitwise byte-at-a-time CRC-32 of the
bytes with the given seed and the all-ones complement before and after; the fallback
implementation is not in the source tree. -/
def crc32Reference (seed : Nat) (bytes : List UByte) : Nat :=
  (crcBytes ((seed ^^^ 0xffffffff) % 4294967296) bytes ^^^ 0xffffffff) % 4294967296

/-- The memory `mem` holds the byte sequence `bytes` at address `a`. -/
def HoldsAt (mem : Nat → UByte) (a : Nat) (bytes : List UByte) : Prop :=
  ∀ i, i < bytes.length → mem (a + i) = bytes.getD i 0

/-- The memory that holds `bytes` at address `a` and zero elsewhere. -/
def memoryOf (a : Nat) (bytes : List Nat) : Nat → UByte := fun p =>
  if a ≤ p then ubyte (bytes.getD (p - a) 0) else ubyte 0

theorem or_shift (a c k : Nat) (h : a < 2 ^ k) : a ||| (c <<< k) = a + c * 2 ^ k := by
  rw [Nat.lor_comm, Nat.shiftLeft_eq, Nat.mul_comm c, ← Nat.mul_add_lt_is_or h, Nat.add_comm]

theorem toU32_toInt32 (n : Nat) : toU32 (toInt32 n) = n % 4294967296 := by
  unfold toU32 toInt32
  split <;> omega

theorem toU64_toInt64 (n : Nat) : toU64 (toInt64 n) = n % 18446744073709551616 := by
  unfold toU64 toInt64
  split <;> omega

theorem toInt32_congr {a b : Nat} (h : a % 4294967296 = b % 4294967296) :
    toInt32 a = toInt32 b := by
  unfold toInt32
  rw [h]

theorem toInt64_congr {a b : Nat} (h : a % 18446744073709551616 = b % 18446744073709551616) :
    toInt64 a = toInt64 b := by
  unfold toInt64
  rw [h]

theorem or_mod_two_pow (a b n : Nat) : (a ||| b) % 2 ^ n = a % 2 ^ n ||| b % 2 ^ n := by
  apply Nat.eq_of_testBit_eq
  intro i
  simp only [Nat.testBit_mod_two_pow, Nat.testBit_or]
  cases decide (i < n) <;> simp

theorem or32_shl32 (S : Nat) (x : Int) (k : Nat) (h : S < 2 ^ k) :
    or32 (toInt32 S) (shl32 x k) = toInt32 (S + toU32 x * 2 ^ k) := by
  unfold or32 shl32
  rw [toU32_toInt32, toU32_toInt32]
  apply toInt32_congr
  have e : (4294967296 : Nat) = 2 ^ 32 := by norm_num
  rw [e, ← or_mod_two_pow, Nat.mod_mod, or_shift S _ k h]

theorem or64_shl64 (S : Nat) (x : Int) (k : Nat) (h : S < 2 ^ k) :
    or64 (toInt64 S) (shl64 x k) = toInt64 (S + toU64 x * 2 ^ k) := by
  unfold or64 shl64
  rw [toU64_toInt64, toU64_toInt64]
  apply toInt64_congr
  have e : (18446744073709551616 : Nat) = 2 ^ 64 := by norm_num
  rw [e, ← or_mod_two_pow, Nat.mod_mod, or_shift S _ k h]

theorem toU32_toInt8 (b : UByte) :
    toU32 (toInt8 b) = if b.val < 128 then b.val else b.val + 4294967040 := by
  unfold toU32 toInt8
  split <;> omega

theorem toU64_toInt8 (b : UByte) :
    toU64 (toInt8 b) = if b.val < 128 then b.val else b.val + 18446744073709551360 := by
  unfold toU64 toInt8
  split <;> omega

theorem and32_7f (b : UByte) : and32 (toInt8 b) 0x7f = toInt32 (b.val % 128) := by
  unfold and32
  apply toInt32_congr
  have e : toU32 127 = 2 ^ 7 - 1 := by decide
  rw [e, Nat.and_pow_two_sub_one_eq_mod, toU32_toInt8]
  split <;> omega

theorem and32_ff (b : UByte) : and32 (toInt8 b) 0xff = toInt32 b.val := by
  unfold and32
  apply toInt32_congr
  have e : toU32 255 = 2 ^ 8 - 1 := by decide
  rw [e, Nat.and_pow_two_sub_one_eq_mod, toU32_toInt8]
  split <;> omega

theorem and64_ff (b : UByte) : and64 (toInt8 b) 0xff = toInt64 b.val := by
  unfold and64
  apply toInt64_congr
  have e : toU64 255 = 2 ^ 8 - 1 := by decide
  rw [e, Nat.and_pow_two_sub_one_eq_mod, toU64_toInt8]
  split <;> omega

theorem and32_80 (b : UByte) : and32 (toInt8 b) 0x80 = 0 ↔ b.val < 128 := by
  unfold and32
  have e : toU32 128 = 2 ^ 7 := by decide
  rw [e, Nat.and_two_pow, toU32_toInt8]
  have hb := b.isLt
  by_cases h : b.val < 128
  · have : (b.val).testBit 7 = false := by
      apply Nat.testBit_eq_false_of_lt
      simpa using h
    simp [h, this, toInt32]
  · have : (b.val + 4294967040).testBit 7 = true := by
      rw [Nat.testBit_to_div_mod]
      simp
      omega
    simp [h, this, toInt32]

theorem toInt8_nonneg (b : UByte) : toInt8 b ≥ 0 ↔ b.val < 128 := by
  unfold toInt8
  split <;> omega

theorem toInt8_eq (b : UByte) (h : b.val < 128) : toInt8 b = toInt32 b.val := by
  unfold toInt8 toInt32
  split <;> split <;> omega

theorem construct_coherent (plain : Nat → UByte) (n : Nat) (h : n < 4611686018427387904) :
    Coherent (construct plain n) := by
  refine ⟨h, ?_, ?_, ?_, ?_, ?_, ?_, ?_, ?_⟩
  all_goals simp only [construct, szMul, AES_KEY_LEN, SIZE_MOD]
  all_goals omega

theorem markDiscard_coherent (d : Bool) (s : CodedInputDataCrypt) (h : Coherent s) :
    Coherent (markDiscard d s) := by
  unfold markDiscard
  cases d
  · simpa using h
  · obtain ⟨h1, h2, h3, h4, h5, h6, h7, h8, h9⟩ := h
    exact ⟨h1, h2, h3, h4, Nat.le_refl _, h6, h7, h8, h9⟩

theorem compact_spec (L bl : Nat) (s : CodedInputDataCrypt) (h : Coherent s)
    (hbl : bl = s.m_decryptBufferSize - s.m_decryptBufferDecryptPosition) :
    Coherent (compact L bl s).1 ∧
    (compact L bl s).2 = (compact L bl s).1.m_decryptBufferSize
      - (compact L bl s).1.m_decryptBufferDecryptPosition ∧
    (compact L bl s).1.m_plain = s.m_plain ∧
    (compact L bl s).1.m_size = s.m_size ∧
    (compact L bl s).1.m_position = s.m_position ∧
    (compact L bl s).1.m_decryptPosition = s.m_decryptPosition ∧
    (compact L bl s).1.m_decryptBufferDecryptPosition - (compact L bl s).1.m_decryptBufferPosition
      = s.m_decryptBufferDecryptPosition - s.m_decryptBufferPosition := by
  obtain ⟨h1, h2, h3, h4, h5, h6, h7, h8, h9⟩ := h
  simp only [compact]
  split_ifs with hc hpm
  · simp only [szMul, AES_KEY_LEN, SIZE_MOD] at hpm
    refine ⟨⟨h1, h2, ?_, h4, ?_, ?_, ?_, ?_, ?_⟩, ?_, rfl, rfl, rfl, rfl, ?_⟩
    all_goals simp only [szMul, szSub, SIZE_MOD, AES_KEY_LEN]
    all_goals try omega
    intro i hi1 hi2
    simp only [memmove]
    rw [if_pos (by omega), h9 _ (by omega) (by omega)]
    congr 1
    omega
  · exact ⟨⟨h1, h2, h3, h4, h5, h6, h7, h8, h9⟩, hbl, rfl, rfl, rfl, rfl, rfl⟩
  · exact ⟨⟨h1, h2, h3, h4, h5, h6, h7, h8, h9⟩, hbl, rfl, rfl, rfl, rfl, rfl⟩

theorem grow_fill_spec (L bl : Nat) (s : CodedInputDataCrypt) (h : Coherent s)
    (hbl : bl = s.m_decryptBufferSize - s.m_decryptBufferDecryptPosition)
    (hL : L ≤ s.m_size - s.m_decryptPosition) :
    Coherent (fill L (grow L bl s)) ∧ SameView s (fill L (grow L bl s)) ∧
    (fill L (grow L bl s)).m_decryptBufferDecryptPosition
      - (fill L (grow L bl s)).m_decryptBufferPosition
      = s.m_decryptBufferDecryptPosition - s.m_decryptBufferPosition + L := by
  obtain ⟨h1, h2, h3, h4, h5, h6, h7, h8, h9⟩ := h
  simp only [fill, grow]
  split_ifs with hg
  all_goals
    refine ⟨⟨h1, h2, ?_, ?_, h5, ?_, ?_, ?_, ?_⟩, ⟨rfl, rfl, rfl⟩, ?_⟩
    all_goals simp only [szAdd, SIZE_MOD]
    all_goals try omega
    intro i hi1 hi2
    simp only [decrypt]
    by_cases hi : i < s.m_decryptBufferDecryptPosition
    · rw [if_neg (by omega), h9 i hi1 hi]
    · rw [if_pos (by omega)]
      congr 1
      omega

theorem fillLength_spec (n : Nat) (s : CodedInputDataCrypt) (h : Coherent s)
    (hn : n < 4611686018427387904)
    (hav : s.m_decryptBufferDecryptPosition - s.m_decryptBufferPosition < n) :
    fillLength n s ≤ s.m_size - s.m_decryptPosition ∧
    min (n - (s.m_decryptBufferDecryptPosition - s.m_decryptBufferPosition))
      (s.m_size - s.m_decryptPosition) ≤ fillLength n s := by
  obtain ⟨h1, h2, h3, h4, h5, h6, h7, h8, h9⟩ := h
  simp only [fillLength, szAdd, szSub, szMul, SIZE_MOD, AES_KEY_LEN]
  omega

theorem consumeBytes_spec (n : Nat) (d : Bool) (s : CodedInputDataCrypt) (h : Coherent s)
    (hn : n < 4611686018427387904) :
    Coherent (consumeBytes n d s) ∧ SameView s (consumeBytes n d s) ∧
    min n (s.m_size - s.m_position) ≤
      (consumeBytes n d s).m_decryptBufferDecryptPosition
        - (consumeBytes n d s).m_decryptBufferPosition := by
  have hm := markDiscard_coherent d s h
  have hv : SameView s (markDiscard d s) ∧
      (markDiscard d s).m_decryptBufferDecryptPosition = s.m_decryptBufferDecryptPosition ∧
      (markDiscard d s).m_decryptBufferPosition = s.m_decryptBufferPosition ∧
      (markDiscard d s).m_decryptPosition = s.m_decryptPosition := by
    unfold markDiscard SameView; cases d <;> simp
  simp only [consumeBytes]
  generalize markDiscard d s = m at hm hv
  obtain ⟨⟨hv1, hv2, hv3⟩, hv4, hv5, hv6⟩ := hv
  have hm' := hm
  obtain ⟨h1, h2, h3, h4, h5, h6, h7, h8, h9⟩ := hm'
  split_ifs with hfast
  · refine ⟨hm, ⟨hv1, hv2, hv3⟩, ?_⟩
    simp only [szSub, SIZE_MOD] at hfast
    omega
  · have hav : m.m_decryptBufferDecryptPosition - m.m_decryptBufferPosition < n := by
      simp only [szSub, SIZE_MOD] at hfast
      omega
    obtain ⟨hL1, hL2⟩ := fillLength_spec n m hm hn hav
    generalize fillLength n m = L at hL1 hL2
    have hbl : szSub m.m_decryptBufferSize m.m_decryptBufferDecryptPosition
        = m.m_decryptBufferSize - m.m_decryptBufferDecryptPosition := by
      simp only [szSub, SIZE_MOD]
      omega
    obtain ⟨c1, c2, c3, c4, c5, c6, c7⟩ := compact_spec L _ m hm hbl
    generalize compact L (szSub m.m_decryptBufferSize m.m_decryptBufferDecryptPosition) m = r
      at c1 c2 c3 c4 c5 c6 c7
    obtain ⟨g1, ⟨g2, g3, g4⟩, g5⟩ := grow_fill_spec L r.2 r.1 c1 c2 (by rw [c4, c6]; exact hL1)
    refine ⟨g1, ⟨by rw [g2, c3, hv1], by rw [g3, c4, hv2], by rw [g4, c5, hv3]⟩, ?_⟩
    rw [g5, c7]
    omega

theorem advance_zero (s : CodedInputDataCrypt) : advance 0 s = s := rfl

theorem advance_coherent (n : Nat) (s : CodedInputDataCrypt) (h : Coherent s)
    (hn : n ≤ s.m_decryptBufferDecryptPosition - s.m_decryptBufferPosition) :
    Coherent (advance n s) := by
  obtain ⟨h1, h2, h3, h4, h5, h6, h7, h8, h9⟩ := h
  refine ⟨h1, ?_, ?_, h4, ?_, ?_, h7, h8, ?_⟩
  all_goals simp only [advance]
  all_goals try omega
  intro i hi1 hi2
  rw [h9 i (by omega) hi2]
  congr 1
  omega

theorem readRawByte_advance (k : Nat) (s : CodedInputDataCrypt) (h : Coherent s)
    (hk : k < s.m_decryptBufferDecryptPosition - s.m_decryptBufferPosition) :
    readRawByte (advance k s) = .ok (toInt8 (s.m_plain (s.m_position + k))) (advance (k + 1) s) := by
  obtain ⟨h1, h2, h3, h4, h5, h6, h7, h8, h9⟩ := h
  have e1 : szAdd (s.m_position + k) 1 = s.m_position + (k + 1) := by
    simp only [szAdd, SIZE_MOD]; omega
  have e2 : szAdd (s.m_decryptBufferPosition + k) 1 = s.m_decryptBufferPosition + (k + 1) := by
    simp only [szAdd, SIZE_MOD]; omega
  have e3 : s.m_decryptBuffer (s.m_decryptBufferPosition + k) = s.m_plain (s.m_position + k) := by
    rw [h9 _ (by omega) (by omega)]
    congr 1
    omega
  simp only [readRawByte, advance]
  rw [if_neg (by omega), e1, e2, e3]

theorem copyOut_staged (s : CodedInputDataCrypt) (h : Coherent s) (n : Nat) :
    ∀ k, k + n ≤ s.m_decryptBufferDecryptPosition - s.m_decryptBufferPosition →
      copyOut s.m_decryptBuffer (s.m_decryptBufferPosition + k) n
        = (List.range n).map (fun i => s.m_plain (s.m_position + k + i)) := by
  induction n with
  | zero => intro k _; rfl
  | succ n ih =>
    intro k hk
    have e3 : s.m_decryptBuffer (s.m_decryptBufferPosition + k) = s.m_plain (s.m_position + k) := by
      rw [h.mirror _ (by omega) (by omega)]
      congr 1
      omega
    rw [copyOut, List.range_succ_eq_map, List.map_cons, List.map_map, e3, Nat.add_assoc,
      ih (k + 1) (by omega)]
    congr 1
    apply List.map_congr_left
    intro i _
    simp only [Function.comp, Nat.add_assoc, Nat.add_comm 1 i, Nat.succ_eq_add_one]

theorem readRawByte_at (k : Nat) (s : CodedInputDataCrypt) (h : Coherent s) (hk : k < staged s) :
    readRawByte (advance k s) = .ok (toInt8 (s.m_plain (s.m_position + k))) (advance (k + 1) s) :=
  readRawByte_advance k s h hk

theorem readRawByte_at0 (s : CodedInputDataCrypt) (h : Coherent s) (hk : 0 < staged s) :
    readRawByte s = .ok (toInt8 (s.m_plain (s.m_position + 0))) (advance 1 s) :=
  readRawByte_advance 0 s h hk

theorem discardUpper_spec (s : CodedInputDataCrypt) (h : Coherent s) (r : Int) :
    ∀ n k, k + n ≤ staged s →
      ((∀ j, k ≤ j → j < k + n → 128 ≤ byteAt s j) →
        discardUpper n r (advance k s) = .fail .malformedVarint (advance (k + n) s)) ∧
      (∀ t, k ≤ t → t < k + n → byteAt s t < 128 → (∀ j, k ≤ j → j < t → 128 ≤ byteAt s j) →
        discardUpper n r (advance k s) = .ok r (advance (t + 1) s)) := by
  intro n
  induction n with
  | zero =>
    intro k _
    refine ⟨fun _ => rfl, ?_⟩
    intro t h1 h2
    omega
  | succ n ih =>
    intro k hk
    have hr := readRawByte_at k s h (by omega)
    obtain ⟨ih1, ih2⟩ := ih (k + 1) (by omega)
    constructor
    · intro hall
      have hb : ¬ (s.m_plain (s.m_position + k)).val < 128 := by
        have := hall k (Nat.le_refl _) (by omega)
        simp only [byteAt] at this
        omega
      simp only [discardUpper, hr, Outcome.bind, toInt8_nonneg, if_neg hb]
      rw [ih1 (fun j hj1 hj2 => hall j (by omega) (by omega))]
      congr 2
      omega
    · intro t ht1 ht2 htb hall
      by_cases hkt : k = t
      · subst hkt
        simp only [byteAt] at htb
        simp only [discardUpper, hr, Outcome.bind, toInt8_nonneg, if_pos htb]
      · have hb : ¬ (s.m_plain (s.m_position + k)).val < 128 := by
          have := hall k (Nat.le_refl _) (by omega)
          simp only [byteAt] at this
          omega
        simp only [discardUpper, hr, Outcome.bind, toInt8_nonneg, if_neg hb]
        exact ih2 t (by omega) (by omega) htb (fun j hj1 hj2 => hall j (by omega) hj2)

theorem toInt8_lt_zero (b : UByte) : toInt8 b < 0 ↔ ¬ b.val < 128 := by
  unfold toInt8
  split <;> omega

theorem body_five (s : CodedInputDataCrypt) (h : Coherent s) (hav : 5 ≤ staged s)
    (h4 : ∀ i, i < 4 → 128 ≤ byteAt s i) :
    readRawVarint32Body s =
      if byteAt s 4 < 128 then .ok (assemble5 s) (advance 5 s)
      else discardUpper 5 (assemble5 s) (advance 5 s) := by
  have r0 := readRawByte_at0 s h (by omega)
  have r1 := readRawByte_at 1 s h (by omega)
  have r2 := readRawByte_at 2 s h (by omega)
  have r3 := readRawByte_at 3 s h (by omega)
  have r4 := readRawByte_at 4 s h (by omega)
  have b0 := h4 0 (by omega)
  have b1 := h4 1 (by omega)
  have b2 := h4 2 (by omega)
  have b3 := h4 3 (by omega)
  simp only [byteAt] at b0 b1 b2 b3
  have n0 : ¬ (s.m_plain (s.m_position + 0)).val < 128 := by omega
  have n1 : ¬ (s.m_plain (s.m_position + 1)).val < 128 := by omega
  have n2 : ¬ (s.m_plain (s.m_position + 2)).val < 128 := by omega
  have n3 : ¬ (s.m_plain (s.m_position + 3)).val < 128 := by omega
  have hval : or32 (or32 (or32 (or32 (and32 (toInt8 (s.m_plain (s.m_position + 0))) 127)
      (shl32 (and32 (toInt8 (s.m_plain (s.m_position + 1))) 127) 7))
      (shl32 (and32 (toInt8 (s.m_plain (s.m_position + 2))) 127) 14))
      (shl32 (and32 (toInt8 (s.m_plain (s.m_position + 3))) 127) 21))
      (shl32 (toInt8 (s.m_plain (s.m_position + 4))) 28) = assemble5 s := by
    have l0 := (s.m_plain (s.m_position + 0)).isLt
    have l1 := (s.m_plain (s.m_position + 1)).isLt
    have l2 := (s.m_plain (s.m_position + 2)).isLt
    have l3 := (s.m_plain (s.m_position + 3)).isLt
    have l4 := (s.m_plain (s.m_position + 4)).isLt
    simp only [and32_7f]
    rw [or32_shl32 _ _ 7 (by omega), toU32_toInt32,
      or32_shl32 _ _ 14 (by norm_num; omega), toU32_toInt32,
      or32_shl32 _ _ 21 (by norm_num; omega), toU32_toInt32,
      or32_shl32 _ _ 28 (by norm_num; omega)]
    unfold assemble5 byteAt
    apply toInt32_congr
    simp only [toU32_toInt8]
    norm_num
    split <;> omega
  simp only [readRawVarint32Body, r0, r1, r2, r3, r4, Outcome.bind, toInt8_nonneg, if_neg n0,
    if_neg n1, if_neg n2, if_neg n3, toInt8_lt_zero, hval, byteAt]
  by_cases hc : (s.m_plain (s.m_position + 4)).val < 128
  · simp only [hc, not_true_eq_false, if_false, if_true]
  · simp only [hc, not_false_eq_true, if_false, if_true]

theorem varintSum_succ (B : Nat → Nat) (k : Nat) :
    varintSum B (k + 1) = varintSum B k + B k % 128 * 2 ^ (7 * k) := by
  unfold varintSum
  rw [Finset.sum_range_succ]

theorem varintSum_lt (B : Nat → Nat) (k : Nat) : varintSum B k < 2 ^ (7 * k) := by
  induction k with
  | zero => simp [varintSum]
  | succ k ih =>
    rw [varintSum_succ]
    have h1 : B k % 128 < 128 := Nat.mod_lt _ (by norm_num)
    have h2 : 2 ^ (7 * (k + 1)) = 128 * 2 ^ (7 * k) := by
      rw [Nat.mul_add, Nat.pow_add]; norm_num; ring
    rw [h2]
    have h3 : B k % 128 * 2 ^ (7 * k) ≤ 127 * 2 ^ (7 * k) :=
      Nat.mul_le_mul_right _ (by omega)
    omega

theorem varintSum_congr (B C : Nat → Nat) (k : Nat) (h : ∀ i, i < k → B i = C i) :
    varintSum B k = varintSum C k := by
  unfold varintSum
  apply Finset.sum_congr rfl
  intro i hi
  rw [h i (Finset.mem_range.mp hi)]

theorem body_terminated (s : CodedInputDataCrypt) (h : Coherent s) (t : Nat) (ht : t < 5)
    (hav : t + 1 ≤ staged s) (hc : ∀ i, i < t → 128 ≤ byteAt s i) (hz : byteAt s t < 128) :
    readRawVarint32Body s = .ok (toInt32 (varintSum (byteAt s) (t + 1))) (advance (t + 1) s) := by
  have l0 := (s.m_plain (s.m_position + 0)).isLt
  have l1 := (s.m_plain (s.m_position + 1)).isLt
  have l2 := (s.m_plain (s.m_position + 2)).isLt
  have l3 := (s.m_plain (s.m_position + 3)).isLt
  have l4 := (s.m_plain (s.m_position + 4)).isLt
  have r0 := readRawByte_at0 s h (by omega)
  interval_cases t
  · simp only [byteAt] at hz
    simp only [readRawVarint32Body, r0, Outcome.bind, toInt8_nonneg, if_pos hz]
    rw [toInt8_eq _ hz]
    simp only [varintSum, Finset.sum_range_succ, Finset.sum_range_zero, byteAt]
    congr 1
    apply toInt32_congr
    simp only [Nat.add_zero] at *
    norm_num
    omega
  · have r1 := readRawByte_at 1 s h (by omega)
    have b0 := hc 0 (by omega)
    simp only [byteAt] at hz b0
    have n0 : ¬ (s.m_plain (s.m_position + 0)).val < 128 := by omega
    simp only [readRawVarint32Body, r0, r1, Outcome.bind, toInt8_nonneg, if_neg n0, if_pos hz]
    simp only [and32_7f, toInt8_eq _ hz]
    rw [or32_shl32 _ _ 7 (by omega), toU32_toInt32]
    simp only [varintSum, Finset.sum_range_succ, Finset.sum_range_zero, byteAt]
    congr 1
    apply toInt32_congr
    simp only [Nat.add_zero] at *
    norm_num
    omega
  · have r1 := readRawByte_at 1 s h (by omega)
    have r2 := readRawByte_at 2 s h (by omega)
    have b0 := hc 0 (by omega)
    have b1 := hc 1 (by omega)
    simp only [byteAt] at hz b0 b1
    have n0 : ¬ (s.m_plain (s.m_position + 0)).val < 128 := by omega
    have n1 : ¬ (s.m_plain (s.m_position + 1)).val < 128 := by omega
    simp only [readRawVarint32Body, r0, r1, r2, Outcome.bind, toInt8_nonneg, if_neg n0, if_neg n1,
      if_pos hz]
    simp only [and32_7f, toInt8_eq _ hz]
    rw [or32_shl32 _ _ 7 (by omega), toU32_toInt32, or32_shl32 _ _ 14 (by norm_num; omega),
      toU32_toInt32]
    simp only [varintSum, Finset.sum_range_succ, Finset.sum_range_zero, byteAt]
    congr 1
    apply toInt32_congr
    simp only [Nat.add_zero] at *
    norm_num
    omega
  · have r1 := readRawByte_at 1 s h (by omega)
    have r2 := readRawByte_at 2 s h (by omega)
    have r3 := readRawByte_at 3 s h (by omega)
    have b0 := hc 0 (by omega)
    have b1 := hc 1 (by omega)
    have b2 := hc 2 (by omega)
    simp only [byteAt] at hz b0 b1 b2
    have n0 : ¬ (s.m_plain (s.m_position + 0)).val < 128 := by omega
    have n1 : ¬ (s.m_plain (s.m_position + 1)).val < 128 := by omega
    have n2 : ¬ (s.m_plain (s.m_position + 2)).val < 128 := by omega
    simp only [readRawVarint32Body, r0, r1, r2, r3, Outcome.bind, toInt8_nonneg, if_neg n0,
      if_neg n1, if_neg n2, if_pos hz]
    simp only [and32_7f, toInt8_eq _ hz]
    rw [or32_shl32 _ _ 7 (by omega), toU32_toInt32, or32_shl32 _ _ 14 (by norm_num; omega),
      toU32_toInt32, or32_shl32 _ _ 21 (by norm_num; omega), toU32_toInt32]
    simp only [varintSum, Finset.sum_range_succ, Finset.sum_range_zero, byteAt]
    congr 1
    apply toInt32_congr
    simp only [Nat.add_zero] at *
    norm_num
    omega
  · rw [body_five s h (by omega) (fun i hi => hc i (by omega)), if_pos hz]
    simp only [assemble5, varintSum, Finset.sum_range_succ, Finset.sum_range_zero]
    congr 1
    apply toInt32_congr
    simp only [byteAt] at hz ⊢
    simp only [Nat.add_zero] at *
    norm_num
    omega

theorem varintSum_cons (f : Nat → Nat) (k : Nat) :
    varintSum f (k + 1) = f 0 % 128 + 128 * varintSum (fun i => f (i + 1)) k := by
  unfold varintSum
  rw [Finset.sum_range_succ', Finset.mul_sum, Nat.add_comm]
  congr 1
  · simp
  · apply Finset.sum_congr rfl
    intro i _
    rw [Nat.mul_add, Nat.pow_add]
    ring

theorem encodeVarint_spec : ∀ fuel v, v < 2 ^ (7 * fuel) → 0 < fuel →
    1 ≤ (encodeVarint fuel v).length ∧ (encodeVarint fuel v).length ≤ fuel ∧
    (∀ i, i + 1 < (encodeVarint fuel v).length → 128 ≤ ((encodeVarint fuel v).getD i 0).val) ∧
    ((encodeVarint fuel v).getD ((encodeVarint fuel v).length - 1) 0).val < 128 ∧
    varintSum (fun i => ((encodeVarint fuel v).getD i 0).val) (encodeVarint fuel v).length = v := by
  intro fuel
  induction fuel with
  | zero => intro v _ h; omega
  | succ fuel ih =>
    intro v hv _
    by_cases h : v < 128
    · simp only [encodeVarint, if_pos h, List.length_singleton]
      refine ⟨Nat.le_refl _, by omega, fun i hi => by omega, ?_, ?_⟩
      · simp only [Nat.sub_self, List.getD_cons_zero, ubyte]
        omega
      · simp only [varintSum, Finset.sum_range_one, List.getD_cons_zero, ubyte]
        norm_num
        omega
    · have hf : 0 < fuel := by
        rcases fuel with _ | f
        · simp at hv; omega
        · omega
      have hv' : v / 128 < 2 ^ (7 * fuel) := by
        have e : 2 ^ (7 * (fuel + 1)) = 2 ^ (7 * fuel) * 128 := by
          rw [Nat.mul_add, Nat.pow_add]
        rw [e] at hv
        exact Nat.div_lt_of_lt_mul (by rw [Nat.mul_comm]; exact hv)
      obtain ⟨i1, i2, i3, i4, i5⟩ := ih (v / 128) hv' hf
      simp only [encodeVarint, if_neg h, List.length_cons]
      generalize encodeVarint fuel (v / 128) = tl at i1 i2 i3 i4 i5
      refine ⟨by omega, by omega, ?_, ?_, ?_⟩
      · intro i hi
        rcases i with _ | i
        · simp only [List.getD_cons_zero, ubyte]
          omega
        · simp only [List.getD_cons_succ]
          exact i3 i (by omega)
      · have e : tl.length + 1 - 1 = (tl.length - 1) + 1 := by omega
        rw [e, List.getD_cons_succ]
        exact i4
      · rw [varintSum_cons]
        simp only [List.getD_cons_zero, List.getD_cons_succ, i5, ubyte]
        omega

theorem ubyte_val (n : Nat) : (ubyte n).val = n % 256 := rfl

theorem consume_view (n : Nat) (d : Bool) (s : CodedInputDataCrypt) (h : Coherent s)
    (hn : n < 4611686018427387904) :
    Coherent (consumeBytes n d s) ∧
    (consumeBytes n d s).m_plain = s.m_plain ∧
    (consumeBytes n d s).m_size = s.m_size ∧
    (consumeBytes n d s).m_position = s.m_position ∧
    (∀ i, byteAt (consumeBytes n d s) i = byteAt s i) ∧
    min n (s.m_size - s.m_position) ≤ staged (consumeBytes n d s) := by
  obtain ⟨c1, ⟨c2, c3, c4⟩, c5⟩ := consumeBytes_spec n d s h hn
  refine ⟨c1, c2, c3, c4, ?_, c5⟩
  intro i
  simp only [byteAt, c2, c4]

theorem toU64_toInt32_small (c : Nat) (h : c < 2147483648) : toU64 (toInt32 c) = c := by
  unfold toU64 toInt32
  split <;> omega

theorem readInt64Loop_spec (s : CodedInputDataCrypt) (h : Coherent s) :
    ∀ n k, k + n = 10 →
      ((10 ≤ staged s) → (∀ j, k ≤ j → j < 10 → 128 ≤ byteAt s j) →
        readInt64Loop n (7 * k) (toInt64 (varintSum (byteAt s) k)) (advance k s)
          = .fail .malformedVarint (advance 10 s)) ∧
      (∀ t, k ≤ t → t < 10 → t + 1 ≤ staged s → byteAt s t < 128 →
        (∀ j, k ≤ j → j < t → 128 ≤ byteAt s j) →
        readInt64Loop n (7 * k) (toInt64 (varintSum (byteAt s) k)) (advance k s)
          = .ok (toInt64 (varintSum (byteAt s) (t + 1))) (advance (t + 1) s)) := by
  intro n
  induction n with
  | zero =>
    intro k hk
    have : k = 10 := by omega
    subst this
    refine ⟨fun _ _ => rfl, ?_⟩
    intro t h1 h2
    omega
  | succ n ih =>
    intro k hk
    obtain ⟨ih1, ih2⟩ := ih (k + 1) (by omega)
    have hshift : 7 * k < 64 := by omega
    have hstep : or64 (toInt64 (varintSum (byteAt s) k))
        (shl64 (and32 (toInt8 (s.m_plain (s.m_position + k))) 127) (7 * k))
        = toInt64 (varintSum (byteAt s) (k + 1)) := by
      rw [and32_7f, or64_shl64 _ _ _ (varintSum_lt _ _), toU64_toInt32_small _ (by omega),
        varintSum_succ]
      rfl
    constructor
    · intro hav hall
      have hr := readRawByte_at k s h (by omega)
      have hb : ¬ (s.m_plain (s.m_position + k)).val < 128 := by
        have := hall k (Nat.le_refl _) (by omega)
        simp only [byteAt] at this
        omega
      simp only [readInt64Loop, if_pos hshift, hr, Outcome.bind, and32_80, if_neg hb, hstep]
      exact ih1 hav (fun j hj1 hj2 => hall j (by omega) hj2)
    · intro t ht1 ht2 hav htb hall
      have hr := readRawByte_at k s h (by omega)
      by_cases hkt : k = t
      · subst hkt
        simp only [byteAt] at htb
        simp only [readInt64Loop, if_pos hshift, hr, Outcome.bind, and32_80, if_pos htb, hstep]
      · have hb : ¬ (s.m_plain (s.m_position + k)).val < 128 := by
          have := hall k (Nat.le_refl _) (by omega)
          simp only [byteAt] at this
          omega
        simp only [readInt64Loop, if_pos hshift, hr, Outcome.bind, and32_80, if_neg hb, hstep]
        exact ih2 t (by omega) ht2 hav htb (fun j hj1 hj2 => hall j (by omega) hj2)

theorem readInt64Loop_fuel (s : CodedInputDataCrypt) (r : Int) :
    ∀ fuel shift, 64 ≤ shift + 7 * fuel →
      readInt64Loop (fuel + 1) shift r s = readInt64Loop fuel shift r s := by
  intro fuel
  induction fuel generalizing s r with
  | zero =>
    intro shift hs
    simp only [readInt64Loop, if_neg (show ¬ shift < 64 by omega)]
  | succ fuel ih =>
    intro shift hs
    rw [readInt64Loop, readInt64Loop]
    split
    · cases hrb : readRawByte s with
      | fail e s' => rfl
      | ok b s' =>
        simp only [Outcome.bind]
        split
        · rfl
        · exact ih _ _ _ (by omega)
    · rfl

theorem le32_value (b0 b1 b2 b3 : UByte) :
    or32 (or32 (or32 (and32 (toInt8 b0) 255) (shl32 (and32 (toInt8 b1) 255) 8))
      (shl32 (and32 (toInt8 b2) 255) 16)) (shl32 (and32 (toInt8 b3) 255) 24)
      = toInt32 (b0.val + b1.val * 2 ^ 8 + b2.val * 2 ^ 16 + b3.val * 2 ^ 24) := by
  have l0 := b0.isLt
  have l1 := b1.isLt
  have l2 := b2.isLt
  have l3 := b3.isLt
  simp only [and32_ff]
  rw [or32_shl32 _ _ 8 (by omega), toU32_toInt32, or32_shl32 _ _ 16 (by norm_num; omega),
    toU32_toInt32, or32_shl32 _ _ 24 (by norm_num; omega), toU32_toInt32]
  apply toInt32_congr
  norm_num
  omega

theorem le64_value (b0 b1 b2 b3 b4 b5 b6 b7 : UByte) :
    or64 (or64 (or64 (or64 (or64 (or64 (or64 (and64 (toInt8 b0) 255)
      (shl64 (and64 (toInt8 b1) 255) 8)) (shl64 (and64 (toInt8 b2) 255) 16))
      (shl64 (and64 (toInt8 b3) 255) 24)) (shl64 (and64 (toInt8 b4) 255) 32))
      (shl64 (and64 (toInt8 b5) 255) 40)) (shl64 (and64 (toInt8 b6) 255) 48))
      (shl64 (and64 (toInt8 b7) 255) 56)
      = toInt64 (b0.val + b1.val * 2 ^ 8 + b2.val * 2 ^ 16 + b3.val * 2 ^ 24 + b4.val * 2 ^ 32
        + b5.val * 2 ^ 40 + b6.val * 2 ^ 48 + b7.val * 2 ^ 56) := by
  have l0 := b0.isLt
  have l1 := b1.isLt
  have l2 := b2.isLt
  have l3 := b3.isLt
  have l4 := b4.isLt
  have l5 := b5.isLt
  have l6 := b6.isLt
  have l7 := b7.isLt
  simp only [and64_ff]
  rw [or64_shl64 _ _ 8 (by omega), toU64_toInt64, or64_shl64 _ _ 16 (by norm_num; omega),
    toU64_toInt64, or64_shl64 _ _ 24 (by norm_num; omega), toU64_toInt64,
    or64_shl64 _ _ 32 (by norm_num; omega), toU64_toInt64,
    or64_shl64 _ _ 40 (by norm_num; omega), toU64_toInt64,
    or64_shl64 _ _ 48 (by norm_num; omega), toU64_toInt64,
    or64_shl64 _ _ 56 (by norm_num; omega), toU64_toInt64]
  apply toInt64_congr
  norm_num
  omega

theorem readRawLittleEndian32_spec (s : CodedInputDataCrypt) (h : Coherent s)
    (h4 : s.m_position + 4 ≤ s.m_size) :
    readRawLittleEndian32 s
      = .ok (toInt32 (byteAt s 0 + byteAt s 1 * 2 ^ 8 + byteAt s 2 * 2 ^ 16 + byteAt s 3 * 2 ^ 24))
          (advance 4 (consumeBytes 4 false s)) := by
  obtain ⟨c1, c2, c3, c4, c5, c6⟩ := consume_view 4 false s h (by norm_num)
  simp only [readRawLittleEndian32]
  simp only [← c5]
  generalize consumeBytes 4 false s = s1 at c1 c2 c3 c4 c5 c6
  have hav : 4 ≤ staged s1 := by omega
  have r0 := readRawByte_at0 s1 c1 (by omega)
  have r1 := readRawByte_at 1 s1 c1 (by omega)
  have r2 := readRawByte_at 2 s1 c1 (by omega)
  have r3 := readRawByte_at 3 s1 c1 (by omega)
  simp only [r0, r1, r2, r3, Outcome.bind, le32_value, byteAt]

theorem readRawLittleEndian64_spec (s : CodedInputDataCrypt) (h : Coherent s)
    (h8 : s.m_position + 8 ≤ s.m_size) :
    readRawLittleEndian64 s
      = .ok (toInt64 (byteAt s 0 + byteAt s 1 * 2 ^ 8 + byteAt s 2 * 2 ^ 16 + byteAt s 3 * 2 ^ 24
          + byteAt s 4 * 2 ^ 32 + byteAt s 5 * 2 ^ 40 + byteAt s 6 * 2 ^ 48
          + byteAt s 7 * 2 ^ 56))
          (advance 8 (consumeBytes 8 false s)) := by
  obtain ⟨c1, c2, c3, c4, c5, c6⟩ := consume_view 8 false s h (by norm_num)
  simp only [readRawLittleEndian64]
  simp only [← c5]
  generalize consumeBytes 8 false s = s1 at c1 c2 c3 c4 c5 c6
  have hav : 8 ≤ staged s1 := by omega
  have r0 := readRawByte_at0 s1 c1 (by omega)
  have r1 := readRawByte_at 1 s1 c1 (by omega)
  have r2 := readRawByte_at 2 s1 c1 (by omega)
  have r3 := readRawByte_at 3 s1 c1 (by omega)
  have r4 := readRawByte_at 4 s1 c1 (by omega)
  have r5 := readRawByte_at 5 s1 c1 (by omega)
  have r6 := readRawByte_at 6 s1 c1 (by omega)
  have r7 := readRawByte_at 7 s1 c1 (by omega)
  simp only [r0, r1, r2, r3, r4, r5, r6, r7, Outcome.bind, le64_value, byteAt]

theorem consumeBytes_frame (n : Nat) (d : Bool) (s : CodedInputDataCrypt) :
    (consumeBytes n d s).m_plain = s.m_plain ∧ (consumeBytes n d s).m_size = s.m_size ∧
    (consumeBytes n d s).m_position = s.m_position := by
  simp only [consumeBytes, fill, grow, compact, markDiscard]
  cases d <;> (split_ifs <;> exact ⟨rfl, rfl, rfl⟩)

theorem bind_ok {α β : Type} (o : Outcome α) (f : α → CodedInputDataCrypt → Outcome β)
    (v : β) (s' : CodedInputDataCrypt) (h : o.bind f = .ok v s') :
    ∃ a t, o = .ok a t ∧ f a t = .ok v s' := by
  cases o with
  | ok a t => exact ⟨a, t, rfl, h⟩
  | fail e t => simp [Outcome.bind] at h

theorem readRawByte_ok (s : CodedInputDataCrypt) (v : Int) (s' : CodedInputDataCrypt)
    (h : readRawByte s = .ok v s') :
    s.m_position ≠ s.m_size ∧ v = toInt8 (s.m_decryptBuffer s.m_decryptBufferPosition) ∧
    s' = { s with
      m_position := szAdd s.m_position 1
      m_decryptBufferPosition := szAdd s.m_decryptBufferPosition 1 } := by
  unfold readRawByte at h
  split at h
  · simp at h
  · rename_i hne
    simp only [Outcome.ok.injEq] at h
    exact ⟨hne, h.1.symm, h.2.symm⟩

theorem readRawByte_inSource (N : Nat) (s : CodedInputDataCrypt) (v : Int)
    (s' : CodedInputDataCrypt) (h : readRawByte s = .ok v s') (hi : InSource N s) :
    InSource N s' ∧ s'.m_plain = s.m_plain := by
  obtain ⟨h1, _, h3⟩ := readRawByte_ok s v s' h
  obtain ⟨i1, i2, i3⟩ := hi
  subst h3
  refine ⟨⟨i1, ?_, i3⟩, rfl⟩
  simp only [szAdd, SIZE_MOD]
  omega

theorem toInt32_range (n : Nat) : -2147483648 ≤ toInt32 n ∧ toInt32 n < 2147483648 := by
  unfold toInt32
  split <;> omega

theorem toInt8_range (b : UByte) : -2147483648 ≤ toInt8 b ∧ toInt8 b < 2147483648 := by
  unfold toInt8
  split <;> omega

theorem discardUpper_ok (N : Nat) (r : Int) : ∀ n s v s', discardUpper n r s = .ok v s' →
    InSource N s → v = r ∧ InSource N s' ∧ s'.m_plain = s.m_plain := by
  intro n
  induction n with
  | zero => intro s v s' h; simp [discardUpper] at h
  | succ n ih =>
    intro s v s' h hi
    rw [discardUpper] at h
    obtain ⟨a, t, h1, h2⟩ := bind_ok _ _ _ _ h
    obtain ⟨q1, q2⟩ := readRawByte_inSource N s a t h1 hi
    split at h2
    · simp only [Outcome.ok.injEq] at h2
      obtain ⟨e1, e2⟩ := h2
      subst e1 e2
      exact ⟨rfl, q1, q2⟩
    · obtain ⟨w1, w2, w3⟩ := ih t v s' h2 q1
      exact ⟨w1, w2, w3.trans q2⟩

theorem readRawVarint32Body_ok (N : Nat) (s : CodedInputDataCrypt) (v : Int)
    (s' : CodedInputDataCrypt) (h : readRawVarint32Body s = .ok v s') (hi : InSource N s) :
    (-2147483648 ≤ v ∧ v < 2147483648) ∧ InSource N s' ∧ s'.m_plain = s.m_plain := by
  unfold readRawVarint32Body at h
  obtain ⟨a0, t0, r0, h⟩ := bind_ok _ _ _ _ h
  obtain ⟨_, e0, _⟩ := readRawByte_ok _ _ _ r0
  obtain ⟨i0, p0⟩ := readRawByte_inSource N _ _ _ r0 hi
  split at h
  · simp only [Outcome.ok.injEq] at h
    obtain ⟨e1, e2⟩ := h
    subst e1 e2
    rw [e0]
    exact ⟨toInt8_range _, i0, p0⟩
  obtain ⟨a1, t1, r1, h⟩ := bind_ok _ _ _ _ h
  obtain ⟨i1, p1⟩ := readRawByte_inSource N _ _ _ r1 i0
  split at h
  · simp only [Outcome.ok.injEq] at h
    obtain ⟨e1, e2⟩ := h
    subst e1 e2
    exact ⟨toInt32_range _, i1, p1.trans p0⟩
  obtain ⟨a2, t2, r2, h⟩ := bind_ok _ _ _ _ h
  obtain ⟨i2, p2⟩ := readRawByte_inSource N _ _ _ r2 i1
  split at h
  · simp only [Outcome.ok.injEq] at h
    obtain ⟨e1, e2⟩ := h
    subst e1 e2
    exact ⟨toInt32_range _, i2, p2.trans (p1.trans p0)⟩
  obtain ⟨a3, t3, r3, h⟩ := bind_ok _ _ _ _ h
  obtain ⟨i3, p3⟩ := readRawByte_inSource N _ _ _ r3 i2
  split at h
  · simp only [Outcome.ok.injEq] at h
    obtain ⟨e1, e2⟩ := h
    subst e1 e2
    exact ⟨toInt32_range _, i3, p3.trans (p2.trans (p1.trans p0))⟩
  obtain ⟨a4, t4, r4, h⟩ := bind_ok _ _ _ _ h
  obtain ⟨i4, p4⟩ := readRawByte_inSource N _ _ _ r4 i3
  simp only at h
  split at h
  · obtain ⟨w1, w2, w3⟩ := discardUpper_ok N _ 5 t4 v s' h i4
    rw [w1]
    exact ⟨toInt32_range _, w2, w3.trans (p4.trans (p3.trans (p2.trans (p1.trans p0))))⟩
  · simp only [Outcome.ok.injEq] at h
    obtain ⟨e1, e2⟩ := h
    subst e1 e2
    exact ⟨toInt32_range _, i4, p4.trans (p3.trans (p2.trans (p1.trans p0)))⟩

theorem readRawVarint32_ok (N : Nat) (d : Bool) (s : CodedInputDataCrypt) (v : Int)
    (s' : CodedInputDataCrypt) (h : readRawVarint32 d s = .ok v s') (hi : InSource N s) :
    (-2147483648 ≤ v ∧ v < 2147483648) ∧ InSource N s' ∧ s'.m_plain = s.m_plain := by
  unfold readRawVarint32 at h
  obtain ⟨f1, f2, f3⟩ := consumeBytes_frame 10 d s
  have hi' : InSource N (consumeBytes 10 d s) := by
    obtain ⟨i1, i2, i3⟩ := hi
    exact ⟨f2.trans i1, by rw [f3, f2]; exact i2, i3⟩
  obtain ⟨w1, w2, w3⟩ := readRawVarint32Body_ok N _ v s' h hi'
  exact ⟨w1, w2, w3.trans f1⟩

theorem toU64_nonneg (v : Int) (h0 : 0 ≤ v) (h1 : v < 2147483648) : toU64 v = v.toNat := by
  unfold toU64
  omega

theorem consume_advance (n : Nat) (d : Bool) (s : CodedInputDataCrypt) (h : Coherent s)
    (hn : n < 4611686018427387904) (m : Nat) (hm : m ≤ n) (hfit : m ≤ s.m_size - s.m_position) :
    Coherent (advance m (consumeBytes n d s)) ∧
    (advance m (consumeBytes n d s)).m_plain = s.m_plain ∧
    (advance m (consumeBytes n d s)).m_size = s.m_size ∧
    (advance m (consumeBytes n d s)).m_position = s.m_position + m := by
  obtain ⟨c1, c2, c3, c4, _, c6⟩ := consume_view n d s h hn
  refine ⟨advance_coherent m _ c1 ?_, c2, c3, ?_⟩
  · simp only [staged] at c6
    omega
  · simp only [advance, c4]

theorem readBody_spec (s : CodedInputDataCrypt) (h : Coherent s) (size : Int) (h0 : 0 ≤ size)
    (h1 : size < 2147483648) (hfit : size.toNat ≤ s.m_size - s.m_position) :
    readBody size s
      = .ok ((List.range size.toNat).map (fun i => s.m_plain (s.m_position + i)))
          (advance size.toNat (consumeBytes size.toNat false s)) := by
  have hn : size.toNat < 4611686018427387904 := by omega
  obtain ⟨c1, c2, c3, c4, _, c6⟩ := consume_view size.toNat false s h hn
  have hs := h
  obtain ⟨g1, g2, g3, g4, g5, g6, g7, g8, g9⟩ := hs
  have hc := c1
  obtain ⟨k1, k2, k3, k4, k5, k6, k7, k8, k9⟩ := hc
  simp only [readBody, if_neg (show ¬ size < 0 by omega), toU64_nonneg size h0 h1]
  have e1 : size.toNat ≤ szSub s.m_size s.m_position := by
    simp only [szSub, SIZE_MOD]
    omega
  rw [if_pos e1]
  simp only [staged] at c6
  have e3 : szAdd (consumeBytes size.toNat false s).m_position size.toNat
      = (consumeBytes size.toNat false s).m_position + size.toNat := by
    simp only [szAdd, SIZE_MOD]
    omega
  have e4 : szAdd (consumeBytes size.toNat false s).m_decryptBufferPosition size.toNat
      = (consumeBytes size.toNat false s).m_decryptBufferPosition + size.toNat := by
    simp only [szAdd, SIZE_MOD]
    omega
  rw [e3, e4]
  have e2 := copyOut_staged _ c1 size.toNat 0 (by omega)
  simp only [Nat.add_zero] at e2
  rw [c2, c4] at e2
  rw [e2]
  rfl

theorem plainAt_byteAt (s : CodedInputDataCrypt) (l : List UByte) (h : PlainAt s l) (i : Nat)
    (hi : i < l.length) : byteAt s i = (l.getD i 0).val := by
  simp only [byteAt, h i hi]

theorem readRawVarint32_canonical_eq (s : CodedInputDataCrypt) (d : Bool) (v : Nat)
    (hs : Coherent s) (hv : v < 4294967296) (henc : PlainAt s (encodeVarint32 v))
    (hfit : s.m_position + (encodeVarint32 v).length ≤ s.m_size) :
    readRawVarint32 d s
      = .ok (toInt32 v) (advance (encodeVarint32 v).length (consumeBytes 10 d s)) := by
  obtain ⟨e1, e2, e3, e4, e5⟩ := encodeVarint_spec 5 v (by norm_num; omega) (by norm_num)
  obtain ⟨c1, c2, c3, c4, c5, c6⟩ := consume_view 10 d s hs (by norm_num)
  unfold encodeVarint32 at henc hfit ⊢
  generalize encodeVarint 5 v = l at e1 e2 e3 e4 e5 henc hfit
  have hb : ∀ i, i < l.length → byteAt (consumeBytes 10 d s) i = (l.getD i 0).val := by
    intro i hi
    rw [c5, plainAt_byteAt s l henc i hi]
  have hlen : l.length - 1 + 1 = l.length := by omega
  have key := body_terminated (consumeBytes 10 d s) c1 (l.length - 1) (by omega) (by omega)
    (fun i hi => by rw [hb i (by omega)]; exact e3 i (by omega))
    (by rw [hb _ (by omega)]; exact e4)
  rw [hlen] at key
  rw [readRawVarint32, key, varintSum_congr _ _ _ hb, e5]

theorem readInt64_canonical_eq (s : CodedInputDataCrypt) (v : Nat)
    (hs : Coherent s) (hv : v < 18446744073709551616) (henc : PlainAt s (encodeVarint64 v))
    (hfit : s.m_position + (encodeVarint64 v).length ≤ s.m_size) :
    readInt64 s
      = .ok (toInt64 v) (advance (encodeVarint64 v).length (consumeBytes 10 false s)) := by
  obtain ⟨e1, e2, e3, e4, e5⟩ := encodeVarint_spec 10 v (by norm_num; omega) (by norm_num)
  obtain ⟨c1, c2, c3, c4, c5, c6⟩ := consume_view 10 false s hs (by norm_num)
  unfold encodeVarint64 at henc hfit ⊢
  generalize encodeVarint 10 v = l at e1 e2 e3 e4 e5 henc hfit
  have hb : ∀ i, i < l.length → byteAt (consumeBytes 10 false s) i = (l.getD i 0).val := by
    intro i hi
    rw [c5, plainAt_byteAt s l henc i hi]
  have hlen : l.length - 1 + 1 = l.length := by omega
  have key := (readInt64Loop_spec (consumeBytes 10 false s) c1 10 0 (by norm_num)).2
    (l.length - 1) (by omega) (by omega) (by omega)
    (by rw [hb _ (by omega)]; exact e4)
    (fun i _ hi => by rw [hb i (by omega)]; exact e3 i (by omega))
  rw [hlen] at key
  have z : toInt64 (varintSum (byteAt (consumeBytes 10 false s)) 0) = 0 := by
    simp [varintSum, toInt64]
  rw [z, advance_zero] at key
  rw [readInt64, key, varintSum_congr _ _ _ hb, e5]

theorem toInt32_toU64 (v : Int) (h0 : -2147483648 ≤ v) (h1 : v < 2147483648) :
    toInt32 (toU64 v) = v := by
  unfold toInt32 toU64
  split <;> omega

theorem toInt32_toU32 (v : Int) (h0 : -2147483648 ≤ v) (h1 : v < 2147483648) :
    toInt32 (toU32 v) = v := by
  unfold toInt32 toU32
  split <;> omega

theorem toInt64_toU64 (v : Int) (h0 : -9223372036854775808 ≤ v) (h1 : v < 9223372036854775808) :
    toInt64 (toU64 v) = v := by
  unfold toInt64 toU64
  split <;> omega

theorem readRawVarint32_negative_eq (s : CodedInputDataCrypt) (d : Bool) (v : Int)
    (hs : Coherent s) (h0 : -2147483648 ≤ v) (h1 : v < 0)
    (henc : PlainAt s (encodeVarint64 (toU64 v)))
    (hfit : s.m_position + (encodeVarint64 (toU64 v)).length ≤ s.m_size) :
    (encodeVarint64 (toU64 v)).length = 10 ∧
    readRawVarint32 d s = .ok v (advance 10 (consumeBytes 10 d s)) := by
  have hu : toU64 v < 18446744073709551616 := by unfold toU64; omega
  have hu2 : 9223372036854775808 ≤ toU64 v := by unfold toU64; omega
  obtain ⟨e1, e2, e3, e4, e5⟩ := encodeVarint_spec 10 (toU64 v) (by norm_num; omega) (by norm_num)
  obtain ⟨c1, c2, c3, c4, c5, c6⟩ := consume_view 10 d s hs (by norm_num)
  unfold encodeVarint64 at henc hfit ⊢
  generalize encodeVarint 10 (toU64 v) = l at e1 e2 e3 e4 e5 henc hfit
  have hlen : l.length = 10 := by
    by_contra hne
    have h9 : l.length ≤ 9 := by omega
    have := varintSum_lt (fun i => (l.getD i 0).val) l.length
    rw [e5] at this
    have hp : 2 ^ (7 * l.length) ≤ 2 ^ 63 := Nat.pow_le_pow_right (by norm_num) (by omega)
    norm_num at hp
    omega
  rw [hlen] at e3 e4 e5 hfit
  have hb : ∀ i, i < 10 → byteAt (consumeBytes 10 d s) i = (l.getD i 0).val := by
    intro i hi
    rw [c5, plainAt_byteAt s l henc i (by omega)]
  refine ⟨hlen, ?_⟩
  have hst : 10 ≤ staged (consumeBytes 10 d s) := by omega
  have f5 := body_five (consumeBytes 10 d s) c1 (by omega)
    (fun i hi => by rw [hb i (by omega)]; exact e3 i (by omega))
  have n4 : ¬ byteAt (consumeBytes 10 d s) 4 < 128 := by
    rw [hb 4 (by omega)]
    have := e3 4 (by omega)
    omega
  rw [if_neg n4] at f5
  have du := (discardUpper_spec (consumeBytes 10 d s) c1 (assemble5 (consumeBytes 10 d s)) 5 5
    (by omega)).2 9 (by omega) (by omega) (by rw [hb 9 (by omega)]; exact e4)
    (fun j hj1 hj2 => by rw [hb j (by omega)]; exact e3 j (by omega))
  rw [readRawVarint32, f5, du]
  congr 1
  rw [← toInt32_toU64 v h0 (by omega), ← e5]
  unfold assemble5
  apply toInt32_congr
  simp only [hb 0 (by omega), hb 1 (by omega), hb 2 (by omega), hb 3 (by omega),
    hb 4 (by omega), varintSum, Finset.sum_range_succ, Finset.sum_range_zero]
  norm_num
  omega

theorem first_clear (B : Nat → Nat) (a : Nat) : ∀ n,
    (∀ j, a ≤ j → j < a + n → 128 ≤ B j) ∨
    ∃ t, a ≤ t ∧ t < a + n ∧ B t < 128 ∧ ∀ j, a ≤ j → j < t → 128 ≤ B j := by
  intro n
  induction n with
  | zero => left; intro j h1 h2; omega
  | succ n ih =>
    rcases ih with hall | ⟨t, t1, t2, t3, t4⟩
    · by_cases hb : B (a + n) < 128
      · right
        exact ⟨a + n, by omega, by omega, hb, fun j h1 h2 => hall j h1 h2⟩
      · left
        intro j h1 h2
        by_cases hj : j = a + n
        · subst hj; omega
        · exact hall j h1 (by omega)
    · right
      exact ⟨t, t1, by omega, t3, t4⟩

theorem plainAt_append_left (s : CodedInputDataCrypt) (a b : List UByte)
    (h : PlainAt s (a ++ b)) : PlainAt s a := by
  intro i hi
  rw [h i (by rw [List.length_append]; omega), List.getD_append _ _ _ _ hi]

theorem plainAt_append_right (s t : CodedInputDataCrypt) (a b : List UByte)
    (h : PlainAt s (a ++ b)) (hp : t.m_plain = s.m_plain)
    (hpos : t.m_position = s.m_position + a.length) : PlainAt t b := by
  intro i hi
  rw [hp, hpos, Nat.add_assoc, h (a.length + i) (by rw [List.length_append]; omega),
    List.getD_append_right _ _ _ _ (by omega)]
  congr 1
  omega

theorem map_plain_eq (s : CodedInputDataCrypt) (b : List UByte) (p : Nat)
    (h : ∀ i, i < b.length → s.m_plain (p + i) = b.getD i 0) :
    (List.range b.length).map (fun i => s.m_plain (p + i)) = b := by
  apply List.ext_getElem
  · simp
  · intro i h1 h2
    simp only [List.getElem_map, List.getElem_range]
    rw [h i h2, List.getD_eq_getElem _ _ h2]

theorem lengthDelimited_spec (d : Bool) (s : CodedInputDataCrypt) (hs : Coherent s)
    (b : List UByte) (hb : b.length < 2147483648) (henc : PlainAt s (encodeData b))
    (hfit : s.m_position + (encodeData b).length ≤ s.m_size) :
    ∃ s', (readRawVarint32 d s).bind readBody = .ok b s' ∧ Coherent s' ∧
      s'.m_plain = s.m_plain ∧ s'.m_size = s.m_size ∧
      s'.m_position = s.m_position + (encodeData b).length := by
  unfold encodeData at henc hfit ⊢
  rw [List.length_append] at hfit ⊢
  have h1 := readRawVarint32_canonical_eq s d b.length hs (by omega)
    (plainAt_append_left s _ _ henc) (by omega)
  obtain ⟨_, e2, _⟩ := encodeVarint_spec 5 b.length (by norm_num; omega) (by norm_num)
  obtain ⟨a1, a2, a3, a4⟩ := consume_advance 10 d s hs (by norm_num)
    (encodeVarint32 b.length).length (by unfold encodeVarint32; omega) (by omega)
  generalize advance (encodeVarint32 b.length).length (consumeBytes 10 d s) = s1
    at h1 a1 a2 a3 a4
  have hv : toInt32 b.length = (b.length : Int) := by
    unfold toInt32
    split <;> omega
  have ht : (b.length : Int).toNat = b.length := by omega
  have h2 := readBody_spec s1 a1 (b.length : Int) (by omega) (by omega)
    (by rw [ht, a3, a4]; omega)
  rw [ht] at h2
  have hbytes : (List.range b.length).map (fun i => s1.m_plain (s1.m_position + i)) = b := by
    apply map_plain_eq
    intro i hi
    exact plainAt_append_right s s1 _ _ henc a2 a4 i hi
  rw [hbytes] at h2
  obtain ⟨c1, c2, c3, c4⟩ := consume_advance b.length false s1 a1 (by omega) b.length
    (Nat.le_refl _) (by rw [a3, a4]; omega)
  refine ⟨_, ?_, c1, c2.trans a2, c3.trans a3, ?_⟩
  · simp only [h1, Outcome.bind, hv, h2]
  · rw [c4, a4, Nat.add_assoc]

theorem readStringKV_snd (kv : KeyValueHolderCrypt) (s : CodedInputDataCrypt) :
    (readStringKV kv s).2 = (readRawVarint32 true s).bind readBody := by
  unfold readStringKV
  cases readRawVarint32 true s with
  | fail e t => rfl
  | ok size t =>
    simp only [Outcome.bind, readBody]
    split_ifs <;> rfl

theorem state_of_ok {α : Type} (o : Outcome α) (v : α) (t : CodedInputDataCrypt)
    (h : o = .ok v t) : o.state = t := by
  rw [h]
  rfl

theorem readStringKV_spec (kv : KeyValueHolderCrypt) (s : CodedInputDataCrypt)
    (hs : Coherent s) (b : List UByte) (hb : b.length < 2147483648)
    (henc : PlainAt s (encodeData b))
    (hfit : s.m_position + (encodeData b).length ≤ s.m_size) :
    (readStringKV kv s).2.val? = some b ∧ Coherent (readStringKV kv s).2.state ∧
      (readStringKV kv s).2.state.m_plain = s.m_plain ∧
      (readStringKV kv s).2.state.m_size = s.m_size ∧
      (readStringKV kv s).2.state.m_position = s.m_position + (encodeData b).length := by
  obtain ⟨s', r1, r2, r3, r4, r5⟩ := lengthDelimited_spec true s hs b hb henc hfit
  rw [readStringKV_snd, r1]
  exact ⟨rfl, r2, r3, r4, r5⟩

theorem readData_state_spec (s : CodedInputDataCrypt)
    (hs : Coherent s) (b : List UByte) (hb : b.length < 2147483648)
    (henc : PlainAt s (encodeData b))
    (hfit : s.m_position + (encodeData b).length ≤ s.m_size) :
    (readData s).val? = some b ∧ Coherent (readData s).state := by
  obtain ⟨s', r1, r2, _⟩ := lengthDelimited_spec false s hs b hb henc hfit
  rw [readData, r1]
  exact ⟨rfl, r2⟩

theorem afterSecondKey_coherent : Coherent afterSecondKey := by
  have c0 : Coherent (readerOf twoRecords) := construct_coherent _ _ (by decide)
  have c1 := (readStringKV_spec emptyHolder (readerOf twoRecords) c0
    [100, 101, 102, 103, 104, 105, 106, 107, 108, 109, 110, 111, 112, 113] (by decide)
    (by unfold PlainAt; decide) (by decide)).2.1
  have c2 := (readData_state_spec _ c1 [1, 2, 3, 4, 5] (by decide)
    (by unfold PlainAt; decide) (by decide)).2
  exact (readStringKV_spec emptyHolder _ c2 [50, 51, 52, 53, 54, 55, 56, 57] (by decide)
    (by unfold PlainAt; decide) (by decide)).2.1

theorem readData_spec (s : CodedInputDataCrypt) (hs : Coherent s) (b : List UByte)
    (hb : b.length < 2147483648) (henc : PlainAt s (encodeData b))
    (hfit : s.m_position + (encodeData b).length ≤ s.m_size) :
    ∃ s', readData s = .ok b s' ∧ Coherent s' ∧ s'.m_plain = s.m_plain ∧
      s'.m_size = s.m_size ∧ s'.m_position = s.m_position + (encodeData b).length :=
  lengthDelimited_spec false s hs b hb henc hfit


theorem readFixed32_inverse (s : CodedInputDataCrypt) (hs : Coherent s) (v : Int)
    (h0 : -2147483648 ≤ v) (h1 : v < 2147483648) (h4 : s.m_position + 4 ≤ s.m_size)
    (henc : PlainAt s (encodeFixed32 (toU32 v))) :
    readFixed32 s = .ok v (advance 4 (consumeBytes 4 false s)) := by
  rw [readFixed32, readRawLittleEndian32_spec s hs h4]
  congr 1
  have hu : toU32 v < 4294967296 := by unfold toU32; omega
  have e0 := plainAt_byteAt s _ henc 0 (by simp [encodeFixed32])
  have e1 := plainAt_byteAt s _ henc 1 (by simp [encodeFixed32])
  have e2 := plainAt_byteAt s _ henc 2 (by simp [encodeFixed32])
  have e3 := plainAt_byteAt s _ henc 3 (by simp [encodeFixed32])
  simp only [encodeFixed32, List.getD_cons_zero, List.getD_cons_succ, ubyte_val] at e0 e1 e2 e3
  rw [e0, e1, e2, e3, ← toInt32_toU32 v h0 h1]
  apply toInt32_congr
  rw [toInt32_toU32 v h0 h1]
  generalize toU32 v = u at hu
  norm_num
  omega

theorem readRawLittleEndian64_inverse (s : CodedInputDataCrypt) (hs : Coherent s) (v : Int)
    (h0 : -9223372036854775808 ≤ v) (h1 : v < 9223372036854775808)
    (h8 : s.m_position + 8 ≤ s.m_size) (henc : PlainAt s (encodeFixed64 (toU64 v))) :
    readRawLittleEndian64 s = .ok v (advance 8 (consumeBytes 8 false s)) := by
  rw [readRawLittleEndian64_spec s hs h8]
  congr 1
  have hu : toU64 v < 18446744073709551616 := by unfold toU64; omega
  have e0 := plainAt_byteAt s _ henc 0 (by simp [encodeFixed64])
  have e1 := plainAt_byteAt s _ henc 1 (by simp [encodeFixed64])
  have e2 := plainAt_byteAt s _ henc 2 (by simp [encodeFixed64])
  have e3 := plainAt_byteAt s _ henc 3 (by simp [encodeFixed64])
  have e4 := plainAt_byteAt s _ henc 4 (by simp [encodeFixed64])
  have e5 := plainAt_byteAt s _ henc 5 (by simp [encodeFixed64])
  have e6 := plainAt_byteAt s _ henc 6 (by simp [encodeFixed64])
  have e7 := plainAt_byteAt s _ henc 7 (by simp [encodeFixed64])
  simp only [encodeFixed64, List.getD_cons_zero, List.getD_cons_succ, ubyte_val]
    at e0 e1 e2 e3 e4 e5 e6 e7
  rw [e0, e1, e2, e3, e4, e5, e6, e7, ← toInt64_toU64 v h0 h1]
  apply toInt64_congr
  rw [toInt64_toU64 v h0 h1]
  generalize toU64 v = u at hu
  norm_num
  omega

theorem fits_iff (size : Int) (s1 : CodedInputDataCrypt) (N : Nat) (hi : InSource N s1)
    (h0 : 0 ≤ size) (h1 : size < 2147483648) :
    toU64 size ≤ szSub s1.m_size s1.m_position ↔
      size ≤ (s1.m_size : Int) - (s1.m_position : Int) := by
  obtain ⟨i1, i2, i3⟩ := hi
  rw [toU64_nonneg size h0 h1]
  simp only [szSub, SIZE_MOD]
  omega

theorem readBody_sizeChecked (size : Int) (s1 : CodedInputDataCrypt) (N : Nat)
    (hi : InSource N s1) (hr : -2147483648 ≤ size ∧ size < 2147483648) :
    SizeChecked (readBody size s1).err? size s1 := by
  unfold SizeChecked readBody
  by_cases hneg : size < 0
  · simp only [if_pos hneg, Outcome.err?]
    refine ⟨by simp [hneg], ?_, ?_⟩
    · constructor
      · intro h; simp at h
      · intro h; omega
    · constructor
      · intro h; simp at h
      · intro h; omega
  · have hf := fits_iff size s1 N hi (by omega) hr.2
    simp only [if_neg hneg]
    by_cases hfit : toU64 size ≤ szSub s1.m_size s1.m_position
    · simp only [if_pos hfit, Outcome.err?]
      have := hf.mp hfit
      refine ⟨by simp [hneg], ?_, ?_⟩
      · constructor
        · intro h; simp at h
        · intro h; omega
      · simp only [true_iff]
        omega
    · simp only [if_neg hfit, Outcome.err?]
      have : ¬ size ≤ (s1.m_size : Int) - (s1.m_position : Int) := fun h => hfit (hf.mpr h)
      refine ⟨by simp [hneg], ?_, ?_⟩
      · simp only [true_iff]
        omega
      · constructor
        · intro h; simp at h
        · intro h; omega

theorem readStringKV_sizeChecked (kv : KeyValueHolderCrypt) (s0 s1 : CodedInputDataCrypt)
    (size : Int) (N : Nat) (hi : InSource N s1)
    (hr : -2147483648 ≤ size ∧ size < 2147483648)
    (hread : readRawVarint32 true s0 = .ok size s1) :
    SizeChecked (readStringKV kv s0).2.err? size s1 := by
  unfold SizeChecked readStringKV
  simp only [hread]
  by_cases hneg : size < 0
  · simp only [if_pos hneg, Outcome.err?]
    refine ⟨by simp [hneg], ?_, ?_⟩
    · constructor
      · intro h; simp at h
      · intro h; omega
    · constructor
      · intro h; simp at h
      · intro h; omega
  · have hf := fits_iff size s1 N hi (by omega) hr.2
    simp only [if_neg hneg]
    by_cases hfit : toU64 size ≤ szSub s1.m_size s1.m_position
    · simp only [if_pos hfit, Outcome.err?]
      have := hf.mp hfit
      refine ⟨by simp [hneg], ?_, ?_⟩
      · constructor
        · intro h; simp at h
        · intro h; omega
      · simp only [true_iff]
        omega
    · simp only [if_neg hfit, Outcome.err?]
      have : ¬ size ≤ (s1.m_size : Int) - (s1.m_position : Int) := fun h => hfit (hf.mpr h)
      refine ⟨by simp [hneg], ?_, ?_⟩
      · simp only [true_iff]
        omega
      · constructor
        · intro h; simp at h
        · intro h; omega

theorem readDataKV_sizeChecked (K : Nat) (kv : KeyValueHolderCrypt)
    (s0 s1 : CodedInputDataCrypt) (size : Int) (N : Nat) (hi : InSource N s1)
    (hr : -2147483648 ≤ size ∧ size < 2147483648)
    (hread : readRawVarint32 false s0 = .ok size s1) :
    SizeChecked (readDataKV K kv s0).2.err? size s1 := by
  unfold SizeChecked readDataKV
  simp only [hread]
  by_cases hneg : size < 0
  · simp only [if_pos hneg, Outcome.err?]
    refine ⟨by simp [hneg], ?_, ?_⟩
    · constructor
      · intro h; simp at h
      · intro h; omega
    · constructor
      · intro h; simp at h
      · intro h; omega
  · have hf := fits_iff size s1 N hi (by omega) hr.2
    simp only [if_neg hneg]
    by_cases hfit : toU64 size ≤ szSub s1.m_size s1.m_position
    · simp only [if_pos hfit]
      have := hf.mp hfit
      have herr : (if toU64 size > szMul K 2 then
          (({ kv with
              type := KeyValueHolderType.Offset
              valueSize := toU64 size % 4294967296
              pbKeyValueSize := (pbRawVarint32Size (toU64 size % 4294967296)
                + pbRawVarint32Size kv.keySize) % 4294967296 % 256
              cryptStatus := statusBeforeDecrypt
                (szAdd ((pbRawVarint32Size (toU64 size % 4294967296)
                  + pbRawVarint32Size kv.keySize) % 4294967296 % 256) kv.keySize) s1 } :
              KeyValueHolderCrypt),
            Outcome.ok ()
              { skipBytes (toU64 size) s1 with
                m_position := szAdd (skipBytes (toU64 size) s1).m_position (toU64 size) })
        else
          (KeyValueHolderCrypt.ofBytes
              (copyOut (consumeBytes (toU64 size) false s1).m_decryptBuffer
                (consumeBytes (toU64 size) false s1).m_decryptBufferPosition (toU64 size)),
            Outcome.ok ()
              { consumeBytes (toU64 size) false s1 with
                m_position := szAdd (consumeBytes (toU64 size) false s1).m_position (toU64 size)
                m_decryptBufferPosition :=
                  szAdd (consumeBytes (toU64 size) false s1).m_decryptBufferPosition
                    (toU64 size) })).2.err? = none := by
        split <;> rfl
      rw [herr]
      refine ⟨by simp [hneg], ?_, ?_⟩
      · constructor
        · intro h; simp at h
        · intro h; omega
      · simp only [true_iff]
        omega
    · simp only [if_neg hfit, Outcome.err?]
      have : ¬ size ≤ (s1.m_size : Int) - (s1.m_position : Int) := fun h => hfit (hf.mpr h)
      refine ⟨by simp [hneg], ?_, ?_⟩
      · simp only [true_iff]
        omega
      · constructor
        · intro h; simp at h
        · intro h; omega

theorem eq_ok_of_val {α : Type} (o : Outcome α) (v : α) (h : o.val? = some v) :
    o = .ok v o.state := by
  cases o with
  | ok a t =>
    simp only [Outcome.val?, Option.some.injEq] at h
    rw [h]
    rfl
  | fail e t => simp [Outcome.val?] at h

theorem skipLoop_spec : ∀ (n : Nat) (s : CodedInputDataCrypt),
    s.m_decryptPosition + 16 * n < 18446744073709551616 →
    (skipLoop n s).m_decryptPosition = s.m_decryptPosition + 16 * n ∧
    (skipLoop n s).m_plain = s.m_plain ∧ (skipLoop n s).m_size = s.m_size ∧
    (skipLoop n s).m_position = s.m_position ∧
    (skipLoop n s).m_decryptBufferSize = s.m_decryptBufferSize ∧
    (skipLoop n s).m_decryptBufferPosition = s.m_decryptBufferPosition ∧
    (skipLoop n s).m_decryptBufferDecryptPosition = s.m_decryptBufferDecryptPosition ∧
    (skipLoop n s).m_decryptBufferDiscardPosition = s.m_decryptBufferDiscardPosition ∧
    (0 < n → ∀ i, i < 16 →
      (skipLoop n s).m_decryptBuffer i = s.m_plain (s.m_decryptPosition + 16 * (n - 1) + i)) := by
  intro n
  induction n with
  | zero =>
    intro s _
    exact ⟨rfl, rfl, rfl, rfl, rfl, rfl, rfl, rfl, fun h => by omega⟩
  | succ n ih =>
    intro s hs
    rw [skipLoop]
    have hadd : szAdd s.m_decryptPosition AES_KEY_LEN = s.m_decryptPosition + 16 := by
      simp only [szAdd, SIZE_MOD, AES_KEY_LEN]
      omega
    rw [hadd]
    obtain ⟨i1, i2, i3, i4, i5, i6, i7, i8, i9⟩ := ih
      { s with
        m_decryptBuffer := decrypt s.m_plain s.m_decryptPosition s.m_decryptBuffer 0 AES_KEY_LEN
        m_decryptPosition := s.m_decryptPosition + 16 }
      (by simp only []; omega)
    simp only [] at i1 i9
    refine ⟨by rw [i1]; omega, i2, i3, i4, i5, i6, i7, i8, ?_⟩
    intro _ i hi
    rcases n with _ | n
    · simp only [skipLoop, decrypt, AES_KEY_LEN]
      rw [if_pos (by omega)]
      congr 1
    · rw [i9 (by omega) i hi]
      congr 1
      simp only [Nat.add_sub_cancel]
      omega

/-- The state that the Offset branch of `readData(kvHolder)` leaves: `skipBytes(length)`
followed by `m_position += length`. -/
theorem skipBytes_then_readRawByte (s : CodedInputDataCrypt) (hs : Coherent s) (L : Nat)
    (hlt : staged s < L) (hfit : s.m_position + L < s.m_size) :
    readRawByte { skipBytes L s with m_position := szAdd (skipBytes L s).m_position L }
      = .ok (toInt8 (s.m_plain
          (if (L - staged s) % 16 = 0 then s.m_position + L - 16 else s.m_position + L)))
        { skipBytes L s with
          m_position := szAdd (szAdd (skipBytes L s).m_position L) 1
          m_decryptBufferPosition := szAdd (skipBytes L s).m_decryptBufferPosition 1 } := by
  obtain ⟨h1, h2, h3, h4, h5, h6, h7, h8, h9⟩ := hs
  simp only [staged] at hlt
  have hslow : ¬ szSub s.m_decryptBufferDecryptPosition s.m_decryptBufferPosition ≥ L := by
    simp only [szSub, SIZE_MOD]
    omega
  have hr : szSub L (szSub s.m_decryptBufferDecryptPosition s.m_decryptBufferPosition)
      = L - (s.m_decryptBufferDecryptPosition - s.m_decryptBufferPosition) := by
    simp only [szSub, SIZE_MOD]
    omega
  have hn : szSub (szAdd (L - (s.m_decryptBufferDecryptPosition - s.m_decryptBufferPosition))
      16) 1 / 16
      = (L - (s.m_decryptBufferDecryptPosition - s.m_decryptBufferPosition) + 15) / 16 := by
    simp only [szSub, szAdd, SIZE_MOD]
    omega
  obtain ⟨k1, k2, k3, k4, k5, k6, k7, k8, k9⟩ := skipLoop_spec
    ((L - (s.m_decryptBufferDecryptPosition - s.m_decryptBufferPosition) + 15) / 16) s (by omega)
  have hpos : 0 < (L - (s.m_decryptBufferDecryptPosition - s.m_decryptBufferPosition) + 15) / 16 := by
    omega
  have hbuf := k9 hpos
    ((L - (s.m_decryptBufferDecryptPosition - s.m_decryptBufferPosition)) % 16)
    (Nat.mod_lt _ (by norm_num))
  simp only [skipBytes, if_neg hslow, hr, hn, readRawByte, staged, AES_KEY_LEN] at hbuf ⊢
  rw [k3, k4]
  have hne : ¬ szAdd s.m_position L = s.m_size := by
    simp only [szAdd, SIZE_MOD]
    omega
  rw [if_neg hne, hbuf]
  congr 3
  split <;> omega

theorem readDataKV_sizeof_irrelevant (K K' : Nat) (kv : KeyValueHolderCrypt)
    (s s1 : CodedInputDataCrypt) (size : Int) (h : readRawVarint32 false s = .ok size s1)
    (hK : toU64 size > szMul K 2) (hK' : toU64 size > szMul K' 2) :
    readDataKV K kv s = readDataKV K' kv s := by
  simp only [readDataKV, h, if_pos hK, if_pos hK']

set_option maxRecDepth 1000000 in
theorem readDataKV_offsetRecord_sizeof (K : Nat) (hK : K < 79) :
    readDataKV K emptyHolder (readerOf offsetRecord)
      = readDataKV 32 emptyHolder (readerOf offsetRecord) :=
  readDataKV_sizeof_irrelevant K 32 emptyHolder (readerOf offsetRecord) _ 158
    (eq_ok_of_val _ _ (by decide))
    (by simp only [szMul, SIZE_MOD, toU64]; omega) (by decide)

theorem consumed_zero (s1 : CodedInputDataCrypt) : Consumed s1 0 s1 :=
  ⟨rfl, Nat.zero_le _⟩

theorem readRawByte_consumed (s1 : CodedInputDataCrypt) (hs : Coherent s1) (N : Nat)
    (hav : min N (s1.m_size - s1.m_position) ≤ staged s1) (k : Nat) (hk : k < N)
    (t : CodedInputDataCrypt) (ht : Consumed s1 k t) (v : Int) (t' : CodedInputDataCrypt)
    (h : readRawByte t = .ok v t') : Consumed s1 (k + 1) t' := by
  obtain ⟨e, hle⟩ := ht
  subst e
  obtain ⟨hne, _, _⟩ := readRawByte_ok _ _ _ h
  simp only [advance] at hne
  have hpl := hs.pos_le
  have hlt : k < s1.m_size - s1.m_position := by omega
  have hst : k < s1.m_decryptBufferDecryptPosition - s1.m_decryptBufferPosition := by
    simp only [staged] at hav
    omega
  rw [readRawByte_advance k s1 hs hst] at h
  simp only [Outcome.ok.injEq] at h
  exact ⟨h.2.symm, by omega⟩

theorem consumed_coherent (s1 : CodedInputDataCrypt) (hs : Coherent s1) (N : Nat)
    (hav : min N (s1.m_size - s1.m_position) ≤ staged s1) (k : Nat) (hk : k ≤ N)
    (t : CodedInputDataCrypt) (ht : Consumed s1 k t) :
    Coherent t ∧ t.m_plain = s1.m_plain ∧ t.m_size = s1.m_size ∧
      t.m_position = s1.m_position + k ∧
      t.m_decryptBufferSize = s1.m_decryptBufferSize ∧
      t.m_decryptBufferDiscardPosition = s1.m_decryptBufferDiscardPosition ∧
      t.m_decryptBufferPosition = s1.m_decryptBufferPosition + k ∧
      t.m_decryptPosition = s1.m_decryptPosition := by
  obtain ⟨e, hle⟩ := ht
  subst e
  refine ⟨advance_coherent k s1 hs ?_, rfl, rfl, rfl, rfl, rfl, rfl, rfl⟩
  simp only [staged] at hav
  omega

theorem discardUpper_consumed (s1 : CodedInputDataCrypt) (hs : Coherent s1)
    (hav : min 10 (s1.m_size - s1.m_position) ≤ staged s1) (r : Int) :
    ∀ n k t, k + n ≤ 10 → Consumed s1 k t → ∀ v s', discardUpper n r t = .ok v s' →
      ∃ m, m ≤ 10 ∧ Consumed s1 m s' := by
  intro n
  induction n with
  | zero => intro k t _ _ v s' h; simp [discardUpper] at h
  | succ n ih =>
    intro k t hk ht v s' h
    rw [discardUpper] at h
    obtain ⟨a, t1, h1, h2⟩ := bind_ok _ _ _ _ h
    have c1 := readRawByte_consumed s1 hs 10 hav k (by omega) t ht a t1 h1
    split at h2
    · simp only [Outcome.ok.injEq] at h2
      rw [← h2.2]
      exact ⟨k + 1, by omega, c1⟩
    · exact ih (k + 1) t1 (by omega) c1 v s' h2

theorem readRawVarint32Body_consumed (s1 : CodedInputDataCrypt) (hs : Coherent s1)
    (hav : min 10 (s1.m_size - s1.m_position) ≤ staged s1) (v : Int)
    (s' : CodedInputDataCrypt) (h : readRawVarint32Body s1 = .ok v s') :
    ∃ m, m ≤ 10 ∧ Consumed s1 m s' := by
  unfold readRawVarint32Body at h
  obtain ⟨a0, t0, r0, h⟩ := bind_ok _ _ _ _ h
  have c0 := readRawByte_consumed s1 hs 10 hav 0 (by omega) s1 (consumed_zero s1) a0 t0 r0
  split at h
  · simp only [Outcome.ok.injEq] at h
    rw [← h.2]
    exact ⟨1, by omega, c0⟩
  obtain ⟨a1, t1, r1, h⟩ := bind_ok _ _ _ _ h
  have c1 := readRawByte_consumed s1 hs 10 hav 1 (by omega) t0 c0 a1 t1 r1
  split at h
  · simp only [Outcome.ok.injEq] at h
    rw [← h.2]
    exact ⟨2, by omega, c1⟩
  obtain ⟨a2, t2, r2, h⟩ := bind_ok _ _ _ _ h
  have c2 := readRawByte_consumed s1 hs 10 hav 2 (by omega) t1 c1 a2 t2 r2
  split at h
  · simp only [Outcome.ok.injEq] at h
    rw [← h.2]
    exact ⟨3, by omega, c2⟩
  obtain ⟨a3, t3, r3, h⟩ := bind_ok _ _ _ _ h
  have c3 := readRawByte_consumed s1 hs 10 hav 3 (by omega) t2 c2 a3 t3 r3
  split at h
  · simp only [Outcome.ok.injEq] at h
    rw [← h.2]
    exact ⟨4, by omega, c3⟩
  obtain ⟨a4, t4, r4, h⟩ := bind_ok _ _ _ _ h
  have c4 := readRawByte_consumed s1 hs 10 hav 4 (by omega) t3 c3 a4 t4 r4
  simp only at h
  split at h
  · exact discardUpper_consumed s1 hs hav _ 5 5 t4 (by omega) c4 v s' h
  · simp only [Outcome.ok.injEq] at h
    rw [← h.2]
    exact ⟨5, by omega, c4⟩

theorem readInt64Loop_consumed (s1 : CodedInputDataCrypt) (hs : Coherent s1)
    (hav : min 10 (s1.m_size - s1.m_position) ≤ staged s1) :
    ∀ fuel shift r k t, k + fuel ≤ 10 → Consumed s1 k t → ∀ v s',
      readInt64Loop fuel shift r t = .ok v s' → ∃ m, m ≤ 10 ∧ Consumed s1 m s' := by
  intro fuel
  induction fuel with
  | zero => intro shift r k t _ _ v s' h; simp [readInt64Loop] at h
  | succ fuel ih =>
    intro shift r k t hk ht v s' h
    rw [readInt64Loop] at h
    split at h
    · obtain ⟨a, t1, h1, h2⟩ := bind_ok _ _ _ _ h
      have c1 := readRawByte_consumed s1 hs 10 hav k (by omega) t ht a t1 h1
      simp only at h2
      split at h2
      · simp only [Outcome.ok.injEq] at h2
        rw [← h2.2]
        exact ⟨k + 1, by omega, c1⟩
      · exact ih _ _ (k + 1) t1 (by omega) c1 v s' h2
    · simp at h

theorem stepped_of_consumed (n : Nat) (d : Bool) (s : CodedInputDataCrypt) (hs : Coherent s)
    (hn : n < 4611686018427387904) (m : Nat) (hm : m ≤ n) (t : CodedInputDataCrypt)
    (ht : Consumed (consumeBytes n d s) m t) : Stepped s t := by
  obtain ⟨c1, c2, c3, c4, _, c6⟩ := consume_view n d s hs hn
  rw [← c3, ← c4] at c6
  obtain ⟨k1, k2, k3, k4, _⟩ := consumed_coherent _ c1 n c6 m hm t ht
  exact ⟨k1, k2.trans c2, k3.trans c3, by rw [k4, c4]; omega⟩

theorem readRawVarint32_stepped (d : Bool) (s : CodedInputDataCrypt) (hs : Coherent s)
    (v : Int) (s' : CodedInputDataCrypt) (h : readRawVarint32 d s = .ok v s') :
    Stepped s s' ∧ ∃ m, m ≤ 10 ∧ Consumed (consumeBytes 10 d s) m s' := by
  obtain ⟨c1, c2, c3, c4, _, c6⟩ := consume_view 10 d s hs (by norm_num)
  rw [← c3, ← c4] at c6
  obtain ⟨m, hm, hc⟩ := readRawVarint32Body_consumed _ c1 c6 v s' h
  exact ⟨stepped_of_consumed 10 d s hs (by norm_num) m hm s' hc, m, hm, hc⟩

theorem readInt64_stepped (s : CodedInputDataCrypt) (hs : Coherent s)
    (v : Int) (s' : CodedInputDataCrypt) (h : readInt64 s = .ok v s') : Stepped s s' := by
  obtain ⟨c1, c2, c3, c4, _, c6⟩ := consume_view 10 false s hs (by norm_num)
  rw [← c3, ← c4] at c6
  obtain ⟨m, hm, hc⟩ := readInt64Loop_consumed _ c1 c6 10 0 0 0 _ (by omega)
    (consumed_zero _) v s' h
  exact stepped_of_consumed 10 false s hs (by norm_num) m hm s' hc

theorem readRawLittleEndian32_stepped (s : CodedInputDataCrypt) (hs : Coherent s)
    (v : Int) (s' : CodedInputDataCrypt) (h : readRawLittleEndian32 s = .ok v s') :
    Stepped s s' := by
  obtain ⟨c1, c2, c3, c4, _, c6⟩ := consume_view 4 false s hs (by norm_num)
  rw [← c3, ← c4] at c6
  unfold readRawLittleEndian32 at h
  obtain ⟨a0, t0, r0, h⟩ := bind_ok _ _ _ _ h
  have k0 := readRawByte_consumed _ c1 4 c6 0 (by omega) _ (consumed_zero _) a0 t0 r0
  obtain ⟨a1, t1, r1, h⟩ := bind_ok _ _ _ _ h
  have k1 := readRawByte_consumed _ c1 4 c6 1 (by omega) _ k0 a1 t1 r1
  obtain ⟨a2, t2, r2, h⟩ := bind_ok _ _ _ _ h
  have k2 := readRawByte_consumed _ c1 4 c6 2 (by omega) _ k1 a2 t2 r2
  obtain ⟨a3, t3, r3, h⟩ := bind_ok _ _ _ _ h
  have k3 := readRawByte_consumed _ c1 4 c6 3 (by omega) _ k2 a3 t3 r3
  simp only [Outcome.ok.injEq] at h
  rw [← h.2]
  exact stepped_of_consumed 4 false s hs (by norm_num) 4 (by omega) t3 k3

theorem readRawLittleEndian64_stepped (s : CodedInputDataCrypt) (hs : Coherent s)
    (v : Int) (s' : CodedInputDataCrypt) (h : readRawLittleEndian64 s = .ok v s') :
    Stepped s s' := by
  obtain ⟨c1, c2, c3, c4, _, c6⟩ := consume_view 8 false s hs (by norm_num)
  rw [← c3, ← c4] at c6
  unfold readRawLittleEndian64 at h
  obtain ⟨a0, t0, r0, h⟩ := bind_ok _ _ _ _ h
  have k0 := readRawByte_consumed _ c1 8 c6 0 (by omega) _ (consumed_zero _) a0 t0 r0
  obtain ⟨a1, t1, r1, h⟩ := bind_ok _ _ _ _ h
  have k1 := readRawByte_consumed _ c1 8 c6 1 (by omega) _ k0 a1 t1 r1
  obtain ⟨a2, t2, r2, h⟩ := bind_ok _ _ _ _ h
  have k2 := readRawByte_consumed _ c1 8 c6 2 (by omega) _ k1 a2 t2 r2
  obtain ⟨a3, t3, r3, h⟩ := bind_ok _ _ _ _ h
  have k3 := readRawByte_consumed _ c1 8 c6 3 (by omega) _ k2 a3 t3 r3
  obtain ⟨a4, t4, r4, h⟩ := bind_ok _ _ _ _ h
  have k4 := readRawByte_consumed _ c1 8 c6 4 (by omega) _ k3 a4 t4 r4
  obtain ⟨a5, t5, r5, h⟩ := bind_ok _ _ _ _ h
  have k5 := readRawByte_consumed _ c1 8 c6 5 (by omega) _ k4 a5 t5 r5
  obtain ⟨a6, t6, r6, h⟩ := bind_ok _ _ _ _ h
  have k6 := readRawByte_consumed _ c1 8 c6 6 (by omega) _ k5 a6 t6 r6
  obtain ⟨a7, t7, r7, h⟩ := bind_ok _ _ _ _ h
  have k7 := readRawByte_consumed _ c1 8 c6 7 (by omega) _ k6 a7 t7 r7
  simp only [Outcome.ok.injEq] at h
  rw [← h.2]
  exact stepped_of_consumed 8 false s hs (by norm_num) 8 (by omega) t7 k7

theorem readBody_stepped (size : Int) (s : CodedInputDataCrypt) (hs : Coherent s)
    (hr : size < 2147483648) (b : List UByte) (s' : CodedInputDataCrypt)
    (h : readBody size s = .ok b s') :
    Stepped s s' ∧ 0 ≤ size ∧ size.toNat ≤ s.m_size - s.m_position ∧
      s' = advance size.toNat (consumeBytes size.toNat false s) := by
  have h0 : 0 ≤ size := by
    by_contra hneg
    simp only [readBody, if_pos (not_le.mp hneg)] at h
    cases h
  have hu := toU64_nonneg size h0 hr
  have hpl := hs.pos_le
  have hsz := hs.size_lt
  have hfit : size.toNat ≤ s.m_size - s.m_position := by
    by_contra hnf
    simp only [readBody, if_neg (not_lt.mpr h0), hu, szSub, SIZE_MOD] at h
    rw [if_neg (by omega)] at h
    cases h
  have e := readBody_spec s hs size h0 hr hfit
  rw [e] at h
  simp only [Outcome.ok.injEq] at h
  obtain ⟨k1, k2, k3, k4⟩ := consume_advance size.toNat false s hs (by omega) size.toNat
    (le_refl _) hfit
  rw [← h.2]
  exact ⟨⟨k1, k2, k3, by omega⟩, h0, hfit, rfl⟩

theorem varint32_range (d : Bool) (s : CodedInputDataCrypt) (hs : Coherent s) (v : Int)
    (s' : CodedInputDataCrypt) (h : readRawVarint32 d s = .ok v s') :
    -2147483648 ≤ v ∧ v < 2147483648 := by
  have hpl := hs.pos_le
  have hsz := hs.size_lt
  exact (readRawVarint32_ok s.m_size d s v s' h ⟨rfl, hpl, by omega⟩).1

theorem stepped_trans (a b c : CodedInputDataCrypt) (h1 : Stepped a b) (h2 : Stepped b c) :
    Stepped a c :=
  ⟨h2.1, h2.2.1.trans h1.2.1, h2.2.2.1.trans h1.2.2.1, le_trans h1.2.2.2 h2.2.2.2⟩

theorem lengthDelimited_stepped (d : Bool) (s : CodedInputDataCrypt) (hs : Coherent s)
    (b : List UByte) (s' : CodedInputDataCrypt)
    (h : (readRawVarint32 d s).bind readBody = .ok b s') : Stepped s s' := by
  obtain ⟨v, t, h1, h2⟩ := bind_ok _ _ _ _ h
  have hr := varint32_range d s hs v t h1
  have st := (readRawVarint32_stepped d s hs v t h1).1
  exact stepped_trans s t s' st (readBody_stepped v t st.1 hr.2 b s' h2).1

theorem readStringKV_stepped (kv : KeyValueHolderCrypt) (s : CodedInputDataCrypt)
    (hs : Coherent s) (b : List UByte) (s' : CodedInputDataCrypt)
    (h : (readStringKV kv s).2 = .ok b s') : Stepped s s' := by
  rw [readStringKV_snd] at h
  exact lengthDelimited_stepped true s hs b s' h

theorem readDataKV_direct (K : Nat) (kv : KeyValueHolderCrypt) (s s1 : CodedInputDataCrypt)
    (size : Int) (h : readRawVarint32 false s = .ok size s1)
    (hK : ¬ toU64 size > szMul K 2) :
    (readDataKV K kv s).2 = (readBody size s1).bind (fun _ t => .ok () t) := by
  simp only [readDataKV, h, readBody]
  split_ifs <;> rfl

theorem readDataKV_offset (K : Nat) (kv : KeyValueHolderCrypt) (s s1 : CodedInputDataCrypt)
    (size : Int) (h : readRawVarint32 false s = .ok size s1) (h0 : 0 ≤ size)
    (hfit : toU64 size ≤ szSub s1.m_size s1.m_position)
    (hK : toU64 size > szMul K 2) :
    (readDataKV K kv s).2 =
      .ok () { skipBytes (toU64 size) s1 with
        m_position := szAdd (skipBytes (toU64 size) s1).m_position (toU64 size) } := by
  simp only [readDataKV, h, if_neg (not_lt.mpr h0), if_pos hfit, if_pos hK]

theorem readDataKV_direct_stepped (K : Nat) (kv : KeyValueHolderCrypt)
    (s s1 : CodedInputDataCrypt) (hs : Coherent s) (size : Int)
    (h : readRawVarint32 false s = .ok size s1) (hK : ¬ toU64 size > szMul K 2)
    (s' : CodedInputDataCrypt) (hok : (readDataKV K kv s).2 = .ok () s') : Stepped s s' := by
  rw [readDataKV_direct K kv s s1 size h hK] at hok
  obtain ⟨b, t, h1, h2⟩ := bind_ok _ _ _ _ hok
  simp only [Outcome.ok.injEq, true_and] at h2
  subst h2
  have hr := varint32_range false s hs size s1 h
  have st := (readRawVarint32_stepped false s hs size s1 h).1
  exact stepped_trans s s1 t st (readBody_stepped size s1 st.1 hr.2 b t h1).1


theorem compact_frame (L bl : Nat) (s : CodedInputDataCrypt) (h : CursorsOrdered s)
    (hc : s.m_decryptBufferSize < 4611686018427387904) :
    CursorsOrdered (compact L bl s).1 ∧
    (compact L bl s).1.m_decryptBufferSize = s.m_decryptBufferSize ∧
    (compact L bl s).1.m_plain = s.m_plain ∧
    (compact L bl s).1.m_size = s.m_size ∧
    (compact L bl s).1.m_position = s.m_position ∧
    (compact L bl s).1.m_decryptPosition = s.m_decryptPosition ∧
    (compact L bl s).1.m_decryptBufferDecryptPosition - (compact L bl s).1.m_decryptBufferPosition
      = s.m_decryptBufferDecryptPosition - s.m_decryptBufferPosition ∧
    (∀ i, i < s.m_decryptBufferDecryptPosition - s.m_decryptBufferPosition →
      (compact L bl s).1.m_decryptBuffer ((compact L bl s).1.m_decryptBufferPosition + i)
        = s.m_decryptBuffer (s.m_decryptBufferPosition + i)) := by
  obtain ⟨h1, h2, h3⟩ := h
  simp only [compact]
  split_ifs with hcnd hpm
  · simp only [szMul, AES_KEY_LEN, SIZE_MOD] at hpm
    refine ⟨⟨?_, ?_, ?_⟩, rfl, rfl, rfl, rfl, rfl, ?_, ?_⟩
    all_goals simp only [szMul, szSub, SIZE_MOD, AES_KEY_LEN]
    all_goals try omega
    intro i hi
    simp only [memmove]
    rw [if_pos (by omega)]
    congr 1
    omega
  · exact ⟨⟨h1, h2, h3⟩, rfl, rfl, rfl, rfl, rfl, rfl, fun i _ => rfl⟩
  · exact ⟨⟨h1, h2, h3⟩, rfl, rfl, rfl, rfl, rfl, rfl, fun i _ => rfl⟩

theorem grow_fill_frame (L bl : Nat) (s : CodedInputDataCrypt)
    (h2 : s.m_decryptBufferPosition ≤ s.m_decryptBufferDecryptPosition)
    (hL : s.m_decryptBufferDecryptPosition + L < 18446744073709551616) :
    (fill L (grow L bl s)).m_plain = s.m_plain ∧
    (fill L (grow L bl s)).m_size = s.m_size ∧
    (fill L (grow L bl s)).m_position = s.m_position ∧
    (fill L (grow L bl s)).m_decryptPosition = szAdd s.m_decryptPosition L ∧
    (fill L (grow L bl s)).m_decryptBufferPosition = s.m_decryptBufferPosition ∧
    (fill L (grow L bl s)).m_decryptBufferDecryptPosition
      = s.m_decryptBufferDecryptPosition + L ∧
    (fill L (grow L bl s)).m_decryptBufferDiscardPosition = s.m_decryptBufferDiscardPosition ∧
    (∀ i, i < s.m_decryptBufferDecryptPosition - s.m_decryptBufferPosition →
      (fill L (grow L bl s)).m_decryptBuffer (s.m_decryptBufferPosition + i)
        = s.m_decryptBuffer (s.m_decryptBufferPosition + i)) ∧
    (∀ j, j < L →
      (fill L (grow L bl s)).m_decryptBuffer (s.m_decryptBufferDecryptPosition + j)
        = s.m_plain (s.m_decryptPosition + j)) := by
  simp only [fill, grow]
  split_ifs with hg
  all_goals
    refine ⟨rfl, rfl, rfl, rfl, rfl, ?_, rfl, ?_, ?_⟩
    · simp only [szAdd, SIZE_MOD]
      omega
    · intro i hi
      simp only [decrypt]
      rw [if_neg (by omega)]
    · intro j hj
      simp only [decrypt]
      rw [if_pos (by omega)]
      congr 1
      omega

theorem fillLength_le (n : Nat) (s : CodedInputDataCrypt)
    (hn : n < 4611686018427387904)
    (h2 : s.m_decryptBufferPosition ≤ s.m_decryptBufferDecryptPosition)
    (hd : s.m_decryptBufferDecryptPosition < 4611686018427387904)
    (hslow : s.m_decryptBufferDecryptPosition - s.m_decryptBufferPosition < n) :
    fillLength n s ≤ n + 15 := by
  simp only [fillLength, szAdd, szSub, szMul, SIZE_MOD, AES_KEY_LEN]
  omega

theorem markDiscard_frame (d : Bool) (s : CodedInputDataCrypt) (h : CursorsOrdered s) :
    CursorsOrdered (markDiscard d s) ∧
    (markDiscard d s).m_plain = s.m_plain ∧ (markDiscard d s).m_size = s.m_size ∧
    (markDiscard d s).m_position = s.m_position ∧
    (markDiscard d s).m_decryptPosition = s.m_decryptPosition ∧
    (markDiscard d s).m_decryptBuffer = s.m_decryptBuffer ∧
    (markDiscard d s).m_decryptBufferSize = s.m_decryptBufferSize ∧
    (markDiscard d s).m_decryptBufferPosition = s.m_decryptBufferPosition ∧
    (markDiscard d s).m_decryptBufferDecryptPosition = s.m_decryptBufferDecryptPosition := by
  obtain ⟨h1, h2, h3⟩ := h
  unfold markDiscard
  cases d
  · exact ⟨⟨h1, h2, h3⟩, rfl, rfl, rfl, rfl, rfl, rfl, rfl, rfl⟩
  · exact ⟨⟨Nat.le_refl _, h2, h3⟩, rfl, rfl, rfl, rfl, rfl, rfl, rfl, rfl⟩


theorem bind_pure_ok {α β : Type} (o : Outcome α) (f : α → β) (w : β)
    (s' : CodedInputDataCrypt) (h : (o.bind fun v t => .ok (f v) t) = .ok w s') :
    ∃ v, o = .ok v s' := by
  obtain ⟨a, t, h1, h2⟩ := bind_ok _ _ _ _ h
  simp only [Outcome.ok.injEq] at h2
  rw [← h2.2]
  exact ⟨a, h1⟩

theorem reached_coherent (s : CodedInputDataCrypt) (h : Reached s) : Coherent s := by
  induction h with
  | fresh plain n h => exact construct_coherent plain n h
  | rawVarint32 d s v s' _ h ih => exact (readRawVarint32_stepped d s ih v s' h).1.1
  | rawLittleEndian32 s v s' _ h ih => exact (readRawLittleEndian32_stepped s ih v s' h).1
  | rawLittleEndian64 s v s' _ h ih => exact (readRawLittleEndian64_stepped s ih v s' h).1
  | int32 s v s' _ h ih => exact (readRawVarint32_stepped false s ih v s' h).1.1
  | uint32 s v s' _ h ih =>
    obtain ⟨a, ha⟩ := bind_pure_ok _ _ _ _ h
    exact (readRawVarint32_stepped false s ih a s' ha).1.1
  | int64 s v s' _ h ih => exact (readInt64_stepped s ih v s' h).1
  | uint64 s v s' _ h ih =>
    obtain ⟨a, ha⟩ := bind_pure_ok _ _ _ _ h
    exact (readInt64_stepped s ih a s' ha).1
  | fixed32 s v s' _ h ih => exact (readRawLittleEndian32_stepped s ih v s' h).1
  | bool s v s' _ h ih =>
    obtain ⟨a, ha⟩ := bind_pure_ok _ _ _ _ h
    exact (readRawVarint32_stepped false s ih a s' ha).1.1
  | string s v s' _ h ih => exact (lengthDelimited_stepped false s ih v s' h).1
  | data s v s' _ h ih => exact (lengthDelimited_stepped false s ih v s' h).1
  | stringKV kv s v s' _ h ih => exact (readStringKV_stepped kv s ih v s' h).1
  | dataKVDirect K kv s size s1 s' _ h1 hK h ih =>
    exact (readDataKV_direct_stepped K kv s s1 ih size h1 hK s' h).1

theorem skipBytes_lockstep (n : Nat) (s1 : CodedInputDataCrypt) (hs : Coherent s1)
    (hn : n < 2147483648)
    (hcase : n ≤ staged s1 ∨ (n - staged s1) % 16 ≠ 0) :
    Lockstep { skipBytes n s1 with m_position := szAdd (skipBytes n s1).m_position n } := by
  obtain ⟨h1, h2, h3, h4, h5, h6, h7, h8, h9⟩ := hs
  simp only [staged] at hcase
  simp only [Lockstep, skipBytes]
  by_cases hfast : szSub s1.m_decryptBufferDecryptPosition s1.m_decryptBufferPosition ≥ n
  · rw [if_pos hfast]
    simp only [szSub, szAdd, SIZE_MOD] at hfast ⊢
    omega
  · rw [if_neg hfast]
    have hst : szSub s1.m_decryptBufferDecryptPosition s1.m_decryptBufferPosition
        = s1.m_decryptBufferDecryptPosition - s1.m_decryptBufferPosition := by
      simp only [szSub, SIZE_MOD]
      omega
    rw [hst] at hfast ⊢
    have hr : szSub n (s1.m_decryptBufferDecryptPosition - s1.m_decryptBufferPosition)
        = n - (s1.m_decryptBufferDecryptPosition - s1.m_decryptBufferPosition) := by
      simp only [szSub, SIZE_MOD]
      omega
    rw [hr]
    have hrounds : szSub (szAdd (n - (s1.m_decryptBufferDecryptPosition
        - s1.m_decryptBufferPosition)) AES_KEY_LEN) 1 / AES_KEY_LEN
        = (n - (s1.m_decryptBufferDecryptPosition - s1.m_decryptBufferPosition) + 15) / 16 := by
      simp only [szSub, szAdd, SIZE_MOD, AES_KEY_LEN]
      omega
    rw [hrounds]
    obtain ⟨k1, _, _, k4, _⟩ := skipLoop_spec
      ((n - (s1.m_decryptBufferDecryptPosition - s1.m_decryptBufferPosition) + 15) / 16) s1
      (by omega)
    simp only [k1, k4, szAdd, SIZE_MOD, AES_KEY_LEN]
    omega

theorem seek_ok (a : Nat) (s : CodedInputDataCrypt) (s' : CodedInputDataCrypt)
    (h : seek a s = .ok () s') :
    s' = { s with m_position := szAdd s.m_position a } ∧ szAdd s.m_position a ≤ s.m_size := by
  simp only [seek] at h
  split_ifs at h with hc
  simp only [Outcome.ok.injEq, true_and] at h
  exact ⟨h.symm, by omega⟩

theorem pbRawVarint32Size_eq (v : Nat) (hv : v < 4294967296) :
    pbRawVarint32Size v = (encodeVarint32 v).length := by
  simp only [pbRawVarint32Size, encodeVarint32, encodeVarint]
  split_ifs <;> simp only [List.length_cons, List.length_nil, List.length_singleton] <;> omega

theorem toInt32_small (n : Nat) (h : n < 2147483648) : toInt32 n = (n : Int) := by
  unfold toInt32
  split <;> omega

theorem readStringKV_holder (kv : KeyValueHolderCrypt) (s : CodedInputDataCrypt)
    (hs : Coherent s) (b : List UByte) (hb : b.length < 2147483648)
    (henc : PlainAt s (encodeData b))
    (hfit : s.m_position + (encodeData b).length ≤ s.m_size) :
    (readStringKV kv s).1
      = { kv with offset := s.m_position % 4294967296, keySize := b.length % 65536 } := by
  unfold encodeData at henc hfit
  rw [List.length_append] at hfit
  have h1 := readRawVarint32_canonical_eq s true b.length hs (by omega)
    (plainAt_append_left s _ _ henc) (by omega)
  obtain ⟨_, e2, _⟩ := encodeVarint_spec 5 b.length (by norm_num; omega) (by norm_num)
  obtain ⟨a1, a2, a3, a4⟩ := consume_advance 10 true s hs (by norm_num)
    (encodeVarint32 b.length).length (by unfold encodeVarint32; omega) (by omega)
  generalize advance (encodeVarint32 b.length).length (consumeBytes 10 true s) = s1
    at h1 a1 a2 a3 a4
  have hv := toInt32_small b.length hb
  have hu : toU64 (b.length : Int) = b.length := by
    rw [toU64_nonneg _ (by omega) (by omega)]
    omega
  have hp := hs.pos_le
  have hz := hs.size_lt
  have hfit2 : b.length ≤ szSub s1.m_size s1.m_position := by
    rw [a3, a4]
    simp only [szSub, SIZE_MOD]
    omega
  simp only [readStringKV, h1, hv, hu, if_pos hfit2]
  rw [if_neg (by omega)]

theorem fillLength_need (n : Nat) (s : CodedInputDataCrypt) (h : Coherent s)
    (hn : n < 4611686018427387904)
    (hav : s.m_decryptBufferDecryptPosition - s.m_decryptBufferPosition < n) :
    fillLength n s
      ≤ n - (s.m_decryptBufferDecryptPosition - s.m_decryptBufferPosition) + 15 := by
  obtain ⟨h1, h2, h3, h4, h5, h6, h7, h8, h9⟩ := h
  simp only [fillLength, szAdd, szSub, szMul, SIZE_MOD, AES_KEY_LEN]
  omega

theorem compact_mark (L bl c : Nat) (s : CodedInputDataCrypt) (h : Coherent s)
    (hbl : bl = s.m_decryptBufferSize - s.m_decryptBufferDecryptPosition)
    (hm : RecordMark c s) :
    RecordMark c (compact L bl s).1 ∧
    (compact L bl s).1.m_decryptBufferSize = s.m_decryptBufferSize ∧
    ((compact L bl s).2 < L → (compact L bl s).1.m_decryptBufferPosition ≤ 15 + c) := by
  obtain ⟨h1, h2, h3, h4, h5, h6, h7, h8, h9⟩ := h
  unfold RecordMark at hm ⊢
  simp only [compact]
  split_ifs with hc hpm
  · simp only [szMul, AES_KEY_LEN, SIZE_MOD] at hpm
    have e1 : szSub s.m_decryptBufferPosition (szMul (s.m_decryptBufferDiscardPosition
        / AES_KEY_LEN) AES_KEY_LEN)
        = s.m_decryptBufferPosition - s.m_decryptBufferDiscardPosition / 16 * 16 := by
      simp only [szMul, szSub, SIZE_MOD, AES_KEY_LEN]
      omega
    simp only [e1]
    refine ⟨Or.inr ⟨trivial, ?_⟩, ?_, fun _ => ?_⟩
    all_goals first | trivial | rfl | omega
  · simp only [szMul, AES_KEY_LEN, SIZE_MOD, ne_eq, not_not] at hpm
    refine ⟨hm, rfl, fun _ => ?_⟩
    show s.m_decryptBufferPosition ≤ 15 + c
    omega
  · refine ⟨hm, rfl, fun hlt => ?_⟩
    have hlt2 : bl < L := hlt
    show s.m_decryptBufferPosition ≤ 15 + c
    omega

theorem grow_fill_mark (L bl c : Nat) (s : CodedInputDataCrypt) (hm : RecordMark c s)
    (hbl : bl = s.m_decryptBufferSize - s.m_decryptBufferDecryptPosition)
    (hc : s.m_decryptBufferSize < 4611686018427387904 + 32) (hL : L < 4611686018427387904 + 32) :
    RecordMark c (fill L (grow L bl s)) ∧
    s.m_decryptBufferSize ≤ (fill L (grow L bl s)).m_decryptBufferSize ∧
    ((fill L (grow L bl s)).m_decryptBufferSize = s.m_decryptBufferSize ∨
      (bl < L ∧ (fill L (grow L bl s)).m_decryptBufferSize = s.m_decryptBufferSize + L)) := by
  unfold RecordMark at hm ⊢
  simp only [fill, grow]
  split_ifs with hg
  · refine ⟨hm, ?_, Or.inr ⟨hg, ?_⟩⟩
    all_goals simp only [szAdd, SIZE_MOD]
    all_goals omega
  · exact ⟨hm, Nat.le_refl _, Or.inl rfl⟩

theorem consumeBytes_capacity (n : Nat) (d : Bool) (c : Nat) (s : CodedInputDataCrypt)
    (h : Coherent s) (hn : n < 4611686018427387904)
    (hI : (d = true ∧ c = 0) ∨ (d = false ∧ RecordMark c s)) :
    RecordMark c (consumeBytes n d s) ∧
    s.m_decryptBufferSize ≤ (consumeBytes n d s).m_decryptBufferSize ∧
    ((consumeBytes n d s).m_decryptBufferSize = s.m_decryptBufferSize ∨
      (consumeBytes n d s).m_decryptBufferSize ≤ 44 + c + 2 * n) := by
  have hm := markDiscard_coherent d s h
  have hv : (markDiscard d s).m_decryptBufferSize = s.m_decryptBufferSize ∧
      RecordMark c (markDiscard d s) := by
    rcases hI with ⟨hd, hc⟩ | ⟨hd, hc⟩
    · subst hd hc
      exact ⟨rfl, Or.inl rfl⟩
    · subst hd
      exact ⟨rfl, hc⟩
  simp only [consumeBytes]
  generalize markDiscard d s = m at hm hv
  obtain ⟨hv1, hv2⟩ := hv
  rw [← hv1]
  have hm' := hm
  obtain ⟨h1, h2, h3, h4, h5, h6, h7, h8, h9⟩ := hm'
  split_ifs with hfast
  · exact ⟨hv2, Nat.le_refl _, Or.inl rfl⟩
  · have hav : m.m_decryptBufferDecryptPosition - m.m_decryptBufferPosition < n := by
      simp only [szSub, SIZE_MOD] at hfast
      omega
    have hL3 := fillLength_need n m hm hn hav
    generalize fillLength n m = L at hL3
    have hbl : szSub m.m_decryptBufferSize m.m_decryptBufferDecryptPosition
        = m.m_decryptBufferSize - m.m_decryptBufferDecryptPosition := by
      simp only [szSub, SIZE_MOD]
      omega
    obtain ⟨c1, c2, c3, c4, c5, c6, c7⟩ := compact_spec L _ m hm hbl
    obtain ⟨k1, k2, k3⟩ := compact_mark L _ c m hm hbl hv2
    generalize compact L (szSub m.m_decryptBufferSize m.m_decryptBufferDecryptPosition) m = r
      at c1 c2 c3 c4 c5 c6 c7 k1 k2 k3
    obtain ⟨g1, g2, g3⟩ := grow_fill_mark L r.2 c r.1 k1 c2 (by rw [k2]; omega) (by omega)
    have r6 := c1.read_le
    refine ⟨g1, by omega, ?_⟩
    rcases g3 with g3 | ⟨g3, g4⟩
    · left
      omega
    · right
      have := k3 g3
      omega
theorem advance_mark (m c : Nat) (s : CodedInputDataCrypt) (h : RecordMark c s) :
    RecordMark (c + m) (advance m s) := by
  unfold RecordMark at h ⊢
  simp only [advance]
  omega

theorem readRawVarint32_capacity (d : Bool) (s : CodedInputDataCrypt) (v : Int)
    (s' : CodedInputDataCrypt) (p0 : Nat) (hs : Coherent s)
    (hI : (d = true ∧ p0 = s.m_position) ∨
      (d = false ∧ p0 ≤ s.m_position ∧ RecordMark (s.m_position - p0) s))
    (h : readRawVarint32 d s = .ok v s') :
    Coherent s' ∧ s.m_position ≤ s'.m_position ∧ RecordMark (s'.m_position - p0) s' ∧
    s.m_decryptBufferSize ≤ s'.m_decryptBufferSize ∧
    (s'.m_decryptBufferSize = s.m_decryptBufferSize ∨
      s'.m_decryptBufferSize ≤ 64 + (s.m_position - p0)) := by
  obtain ⟨st, m, hm, e, hle⟩ := readRawVarint32_stepped d s hs v s' h
  have hI' : (d = true ∧ s.m_position - p0 = 0) ∨
      (d = false ∧ RecordMark (s.m_position - p0) s) := by
    rcases hI with ⟨a, b⟩ | ⟨a, _, b⟩
    · exact Or.inl ⟨a, by omega⟩
    · exact Or.inr ⟨a, b⟩
  have hp0 : p0 ≤ s.m_position := by
    rcases hI with ⟨_, b⟩ | ⟨_, b, _⟩ <;> omega
  obtain ⟨k1, k2, k3⟩ := consumeBytes_capacity 10 d (s.m_position - p0) s hs (by norm_num) hI'
  have hpos := (consumeBytes_frame 10 d s).2.2
  have hmark := advance_mark m _ _ k1
  subst e
  refine ⟨st.1, ?_, ?_, ?_, ?_⟩
  · simp only [advance, hpos]
    omega
  · have e2 : (advance m (consumeBytes 10 d s)).m_position - p0 = s.m_position - p0 + m := by
      simp only [advance, hpos]
      omega
    rw [e2]
    exact hmark
  · exact k2
  · simp only [advance]
    omega

theorem readBody_capacity (size : Int) (s : CodedInputDataCrypt) (b : List UByte)
    (s' : CodedInputDataCrypt) (p0 : Nat) (hs : Coherent s) (hr : size < 2147483648)
    (hp0 : p0 ≤ s.m_position) (hI : RecordMark (s.m_position - p0) s)
    (h : readBody size s = .ok b s') :
    Coherent s' ∧ s.m_position ≤ s'.m_position ∧ RecordMark (s'.m_position - p0) s' ∧
    s.m_decryptBufferSize ≤ s'.m_decryptBufferSize ∧
    (s'.m_decryptBufferSize = s.m_decryptBufferSize ∨
      s'.m_decryptBufferSize
        ≤ 44 + (s.m_position - p0) + 2 * (s'.m_position - s.m_position)) := by
  obtain ⟨st, h0, hfit, e⟩ := readBody_stepped size s hs hr b s' h
  obtain ⟨k1, k2, k3⟩ := consumeBytes_capacity size.toNat false (s.m_position - p0) s hs
    (by omega) (Or.inr ⟨rfl, hI⟩)
  have hpos := (consumeBytes_frame size.toNat false s).2.2
  have hmark := advance_mark size.toNat _ _ k1
  subst e
  refine ⟨st.1, ?_, ?_, ?_, ?_⟩
  · simp only [advance, hpos]
    omega
  · have e2 : (advance size.toNat (consumeBytes size.toNat false s)).m_position - p0
        = s.m_position - p0 + size.toNat := by
      simp only [advance, hpos]
      omega
    rw [e2]
    exact hmark
  · exact k2
  · simp only [advance, hpos]
    omega

theorem record_capacity (K R : Nat) (kv kv' : KeyValueHolderCrypt)
    (s s1 t s2 : CodedInputDataCrypt) (key : List UByte) (size : Int) (hs : Coherent s)
    (h1 : (readStringKV kv s).2 = .ok key s1) (h2 : readRawVarint32 false s1 = .ok size t)
    (hK : ¬ toU64 size > szMul K 2) (h3 : (readDataKV K kv' s1).2 = .ok () s2)
    (hR : s2.m_position ≤ s.m_position + R) (hc : s.m_decryptBufferSize ≤ 2 * R + 64) :
    Coherent s2 ∧ s.m_decryptBufferSize ≤ s1.m_decryptBufferSize ∧
    s1.m_decryptBufferSize ≤ t.m_decryptBufferSize ∧
    t.m_decryptBufferSize ≤ s2.m_decryptBufferSize ∧
    s2.m_decryptBufferSize ≤ 2 * R + 64 := by
  rw [readStringKV_snd] at h1
  obtain ⟨ksz, sa, ha, hb⟩ := bind_ok _ _ _ _ h1
  obtain ⟨a1, a2, a3, a4, a5⟩ := readRawVarint32_capacity true s ksz sa s.m_position hs
    (Or.inl ⟨rfl, rfl⟩) ha
  have ra := varint32_range true s hs ksz sa ha
  obtain ⟨b1, b2, b3, b4, b5⟩ := readBody_capacity ksz sa key s1 s.m_position a1 ra.2 a2 a3 hb
  obtain ⟨c1, c2, c3, c4, c5⟩ := readRawVarint32_capacity false s1 size t s.m_position b1
    (Or.inr ⟨rfl, by omega, b3⟩) h2
  have rc := varint32_range false s1 b1 size t h2
  rw [readDataKV_direct K kv' s1 t size h2 hK] at h3
  obtain ⟨body, sd, hd, he⟩ := bind_ok _ _ _ _ h3
  simp only [Outcome.ok.injEq, true_and] at he
  subst he
  obtain ⟨d1, d2, d3, d4, d5⟩ := readBody_capacity size t body sd s.m_position c1 rc.2
    (by omega) c3 hd
  refine ⟨d1, by omega, by omega, by omega, ?_⟩
  omega

theorem recordStart_bounded (K R : Nat) (s : CodedInputDataCrypt) (h : RecordStart K R s) :
    Coherent s ∧ s.m_decryptBufferSize ≤ 2 * R + 64 := by
  induction h with
  | fresh plain n h =>
    refine ⟨construct_coherent plain n h, ?_⟩
    simp only [construct, szMul, AES_KEY_LEN, SIZE_MOD]
    omega
  | next kv kv' s s1 t s2 key size _ h1 h2 hK h3 hR ih =>
    obtain ⟨r1, _, _, _, r5⟩ := record_capacity K R kv kv' s s1 t s2 key size ih.1 h1 h2 hK h3
      hR ih.2
    exact ⟨r1, r5⟩

theorem bytesAt_append (mem : Nat → UByte) : ∀ (m n p : Nat),
    bytesAt mem p (m + n) = bytesAt mem p m ++ bytesAt mem (p + m) n := by
  intro m
  induction m with
  | zero => intro n p; simp [bytesAt]
  | succ m ih =>
    intro n p
    rw [Nat.add_right_comm, bytesAt, bytesAt, ih n (p + 1), List.cons_append]
    congr 3
    omega

theorem crcBytes_append (crc : Nat) (a b : List UByte) :
    crcBytes crc (a ++ b) = crcBytes (crcBytes crc a) b := by
  simp only [crcBytes, List.foldl_append]

theorem crcBytes_range (crc p m n : Nat) (mem : Nat → UByte) :
    crcBytes (crcBytes crc (bytesAt mem p m)) (bytesAt mem (p + m) n)
      = crcBytes crc (bytesAt mem p (m + n)) := by
  rw [bytesAt_append, crcBytes_append]

theorem crcWord_load (mem : Nat → UByte) : ∀ (k crc p : Nat),
    crcWord k crc (load mem p k) = crcBytes crc (bytesAt mem p k) := by
  intro k
  induction k with
  | zero => intro crc p; rfl
  | succ k ih =>
    intro crc p
    have hb := (mem p).isLt
    have e1 : ((mem p).val + 256 * load mem (p + 1) k) % 256 = (mem p).val := by omega
    have e2 : ((mem p).val + 256 * load mem (p + 1) k) / 256 = load mem (p + 1) k := by omega
    simp only [load, crcWord, bytesAt, crcBytes, List.foldl_cons, e1, e2]
    exact ih _ _

theorem crc32d_load (mem : Nat → UByte) (crc p : Nat) :
    crc32d crc (load mem p 8) = crcBytes crc (bytesAt mem p 8) :=
  crcWord_load mem 8 crc p

theorem crc32b_load (mem : Nat → UByte) (crc p : Nat) :
    crc32b crc (load mem p 1) = crcBytes crc (bytesAt mem p 1) := by
  simp only [load, Nat.mul_zero, Nat.add_zero, bytesAt, crcBytes, List.foldl_cons,
    List.foldl_nil]

theorem crc32h_load (mem : Nat → UByte) (crc p : Nat) :
    crc32h crc (load mem p 2) = crcBytes crc (bytesAt mem p 2) :=
  crcWord_load mem 2 crc p

theorem crc32w_load (mem : Nat → UByte) (crc p : Nat) :
    crc32w crc (load mem p 4) = crcBytes crc (bytesAt mem p 4) :=
  crcWord_load mem 4 crc p

theorem crcBytes_nil (crc : Nat) (mem : Nat → UByte) (p : Nat) :
    crcBytes crc (bytesAt mem p 0) = crc := rfl

theorem armv8_crc32_small_spec (mem : Nat → UByte) (crc p n : Nat) (hn : n ≤ 7) :
    armv8_crc32_small mem crc p n = crcBytes crc (bytesAt mem p n) := by
  unfold armv8_crc32_small
  simp only [crc32b_load, crc32h_load, crc32w_load]
  by_cases c4 : n ≥ 4
  · simp only [if_pos c4]
    by_cases c2 : n - 4 ≥ 2
    · simp only [if_pos c2]
      by_cases c1 : n - 4 - 2 ≥ 1
      · simp only [if_pos c1]
        have e : n = 4 + 2 + 1 := by omega
        rw [e, crcBytes_range, crcBytes_range]
      · simp only [if_neg c1]
        have e : n = 4 + 2 := by omega
        rw [e, crcBytes_range]
    · simp only [if_neg c2]
      by_cases c1 : n - 4 ≥ 1
      · simp only [if_pos c1]
        have e : n = 4 + 1 := by omega
        rw [e, crcBytes_range]
      · simp only [if_neg c1]
        have e : n = 4 := by omega
        rw [e]
  · simp only [if_neg c4]
    by_cases c2 : n ≥ 2
    · simp only [if_pos c2]
      by_cases c1 : n - 2 ≥ 1
      · simp only [if_pos c1]
        have e : n = 2 + 1 := by omega
        rw [e, crcBytes_range]
      · simp only [if_neg c1]
        have e : n = 2 := by omega
        rw [e]
    · simp only [if_neg c2]
      by_cases c1 : n ≥ 1
      · simp only [if_pos c1]
        have e : n = 1 := by omega
        rw [e]
      · simp only [if_neg c1]
        have e : n = 0 := by omega
        rw [e]
        rfl

theorem bulk64_spec (mem : Nat → UByte) : ∀ (fuel crc p len : Nat), len / 64 ≤ fuel →
    bulk64 mem fuel crc p len
      = (crcBytes crc (bytesAt mem p (len - len % 64)), p + (len - len % 64), len % 64) := by
  intro fuel
  induction fuel with
  | zero =>
    intro crc p len h
    have e : len - len % 64 = 0 := by omega
    have e2 : len % 64 = len := by omega
    rw [e, e2]
    rfl
  | succ fuel ih =>
    intro crc p len h
    rw [bulk64]
    by_cases hc : len ≥ 64
    · rw [if_pos hc]
      simp only [crc32d_load]
      rw [crcBytes_range crc p 8 8, crcBytes_range crc p 16 8, crcBytes_range crc p 24 8,
        crcBytes_range crc p 32 8, crcBytes_range crc p 40 8, crcBytes_range crc p 48 8,
        crcBytes_range crc p 56 8, ih _ _ _ (by omega), crcBytes_range]
      have e1 : 56 + 8 + (len - 64 - (len - 64) % 64) = len - len % 64 := by omega
      have e2 : p + 64 + (len - 64 - (len - 64) % 64) = p + (len - len % 64) := by omega
      have e3 : (len - 64) % 64 = len % 64 := by omega
      rw [e1, e2, e3]
    · rw [if_neg hc]
      have e : len - len % 64 = 0 := by omega
      have e2 : len % 64 = len := by omega
      rw [e, e2]
      rfl

theorem bulk8_spec (mem : Nat → UByte) : ∀ (fuel crc p len : Nat), len / 8 ≤ fuel →
    bulk8 mem fuel crc p len
      = (crcBytes crc (bytesAt mem p (len - len % 8)), p + (len - len % 8), len % 8) := by
  intro fuel
  induction fuel with
  | zero =>
    intro crc p len h
    have e : len - len % 8 = 0 := by omega
    have e2 : len % 8 = len := by omega
    rw [e, e2]
    rfl
  | succ fuel ih =>
    intro crc p len h
    rw [bulk8]
    by_cases hc : len ≥ 8
    · rw [if_pos hc, crc32d_load, ih _ _ _ (by omega), crcBytes_range]
      have e1 : 8 + (len - 8 - (len - 8) % 8) = len - len % 8 := by omega
      have e2 : p + 8 + (len - 8 - (len - 8) % 8) = p + (len - len % 8) := by omega
      have e3 : (len - 8) % 8 = len % 8 := by omega
      rw [e1, e2, e3]
    · rw [if_neg hc]
      have e : len - len % 8 = 0 := by omega
      have e2 : len % 8 = len := by omega
      rw [e, e2]
      rfl

theorem armv8_crc32_prologue_spec (mem : Nat → UByte) (crc buf len : Nat) :
    armv8_crc32_prologue mem crc buf len
      = (crcBytes crc (bytesAt mem buf (min len (buf % 8))), buf + min len (buf % 8),
          len - min len (buf % 8)) := by
  unfold armv8_crc32_prologue
  by_cases h : min len (buf % 8) = 0
  · simp only [h, ne_eq, not_true_eq_false, if_false, Nat.add_zero, Nat.sub_zero]
    rfl
  · simp only [ne_eq, h, not_false_eq_true, if_true]
    rw [armv8_crc32_small_spec mem crc buf _ (by omega)]

theorem armv8_crc32_bytes (mem : Nat → UByte) (crc buf len : Nat) :
    armv8_crc32 mem crc buf len = crc32Reference crc (bytesAt mem buf len) := by
  unfold armv8_crc32 crc32Reference
  simp only [armv8_crc32_prologue_spec]
  generalize (crc ^^^ 0xffffffff) % 4294967296 = c0
  generalize ho : min len (buf % 8) = o
  have hol : o ≤ len := by omega
  by_cases hz : len - o = 0
  · rw [if_pos hz]
    have e : o = len := by omega
    rw [e]
  · rw [if_neg hz]
    simp only [bulk64_spec mem (len - o) _ _ (len - o) (Nat.div_le_self _ _)]
    simp only [bulk8_spec mem ((len - o) % 64) _ _ ((len - o) % 64) (Nat.div_le_self _ _)]
    have hfin : (if (len - o) % 64 % 8 ≠ 0 then
          armv8_crc32_small mem
            (crcBytes (crcBytes (crcBytes c0 (bytesAt mem buf o))
              (bytesAt mem (buf + o) (len - o - (len - o) % 64)))
              (bytesAt mem (buf + o + (len - o - (len - o) % 64))
                ((len - o) % 64 - (len - o) % 64 % 8)))
            (buf + o + (len - o - (len - o) % 64) + ((len - o) % 64 - (len - o) % 64 % 8))
            ((len - o) % 64 % 8)
        else
          crcBytes (crcBytes (crcBytes c0 (bytesAt mem buf o))
              (bytesAt mem (buf + o) (len - o - (len - o) % 64)))
              (bytesAt mem (buf + o + (len - o - (len - o) % 64))
                ((len - o) % 64 - (len - o) % 64 % 8)))
        = crcBytes c0 (bytesAt mem buf len) := by
      have hsmall := armv8_crc32_small_spec mem
        (crcBytes (crcBytes (crcBytes c0 (bytesAt mem buf o))
              (bytesAt mem (buf + o) (len - o - (len - o) % 64)))
              (bytesAt mem (buf + o + (len - o - (len - o) % 64))
                ((len - o) % 64 - (len - o) % 64 % 8)))
        (buf + o + (len - o - (len - o) % 64) + ((len - o) % 64 - (len - o) % 64 % 8))
        ((len - o) % 64 % 8) (by omega)
      have hall : crcBytes (crcBytes (crcBytes (crcBytes c0 (bytesAt mem buf o))
              (bytesAt mem (buf + o) (len - o - (len - o) % 64)))
              (bytesAt mem (buf + o + (len - o - (len - o) % 64))
                ((len - o) % 64 - (len - o) % 64 % 8)))
              (bytesAt mem (buf + o + (len - o - (len - o) % 64)
                + ((len - o) % 64 - (len - o) % 64 % 8)) ((len - o) % 64 % 8))
          = crcBytes c0 (bytesAt mem buf len) := by
        rw [crcBytes_range, crcBytes_range, crcBytes_range]
        congr 2
        omega
      by_cases hr : (len - o) % 64 % 8 ≠ 0
      · rw [if_pos hr, hsmall, hall]
      · rw [if_neg hr, ← hall]
        have e0 : (len - o) % 64 % 8 = 0 := by omega
        rw [e0]
        rfl
    rw [hfin]

theorem bytesAt_of_holds (mem : Nat → UByte) : ∀ (bytes : List UByte) (a : Nat),
    HoldsAt mem a bytes → bytesAt mem a bytes.length = bytes := by
  intro bytes
  induction bytes with
  | nil => intro a _; rfl
  | cons b bs ih =>
    intro a h
    have h0 := h 0 (by simp)
    simp only [Nat.add_zero, List.getD_cons_zero] at h0
    rw [List.length_cons, bytesAt, h0, ih (a + 1)]
    intro i hi
    have hi1 := h (i + 1) (by simp; omega)
    rw [List.getD_cons_succ] at hi1
    rw [← hi1]
    congr 1
    omega

theorem crcShift_lt (c : Nat) (h : c < 4294967296) : crcShift c < 4294967296 := by
  unfold crcShift
  split
  · exact Nat.xor_lt_two_pow (n := 32) (by omega) (by norm_num)
  · omega

theorem crc32b_lt (a b : Nat) : crc32b a b < 4294967296 := by
  unfold crc32b
  have h0 : (a % 4294967296) ^^^ (b % 256) < 4294967296 :=
    Nat.xor_lt_two_pow (n := 32) (Nat.mod_lt _ (by norm_num)) (by omega)
  exact crcShift_lt _ (crcShift_lt _ (crcShift_lt _ (crcShift_lt _ (crcShift_lt _
    (crcShift_lt _ (crcShift_lt _ (crcShift_lt _ h0)))))))

theorem crcBytes_lt (bytes : List UByte) : ∀ (c : Nat), c < 4294967296 →
    crcBytes c bytes < 4294967296 := by
  induction bytes with
  | nil => intro c h; exact h
  | cons b bs ih =>
    intro c _
    simp only [crcBytes, List.foldl_cons]
    exact ih _ (crc32b_lt _ _)

theorem complement_twice (x : Nat) (h : x < 4294967296) :
    (((x ^^^ 0xffffffff) % 4294967296) ^^^ 0xffffffff) % 4294967296 = x := by
  have h1 : x ^^^ 0xffffffff < 4294967296 :=
    Nat.xor_lt_two_pow (n := 32) h (by norm_num)
  rw [Nat.mod_eq_of_lt h1, Nat.xor_assoc, Nat.xor_self, Nat.xor_zero, Nat.mod_eq_of_lt h]

theorem crc32Reference_append (c : Nat) (A B : List UByte) :
    crc32Reference (crc32Reference c A) B = crc32Reference c (A ++ B) := by
  unfold crc32Reference
  rw [complement_twice _ (crcBytes_lt A _ (Nat.mod_lt _ (by norm_num))), crcBytes_append]

theorem crc32Reference_nil (c : Nat) (h : c < 4294967296) : crc32Reference c [] = c :=
  complement_twice c h

theorem item_read_spec (it : Item) (s : CodedInputDataCrypt) (hs : Coherent s)
    (hv : it.Valid) (henc : PlainAt s it.encode)
    (hfit : s.m_position + it.encode.length ≤ s.m_size) :
    ∃ s', it.read s = .ok it.value s' ∧ Coherent s' ∧ s'.m_plain = s.m_plain ∧
      s'.m_size = s.m_size ∧ s'.m_position = s.m_position + it.encode.length := by
  cases it with
  | int32 v =>
    simp only [Item.Valid] at hv
    simp only [Item.encode] at henc hfit ⊢
    by_cases h0 : 0 ≤ v
    · rw [if_pos h0] at henc hfit ⊢
      have hu : toU32 v < 4294967296 := by unfold toU32; omega
      have h1 := readRawVarint32_canonical_eq s false (toU32 v) hs hu henc hfit
      obtain ⟨_, e2, _⟩ := encodeVarint_spec 5 (toU32 v) (by norm_num; omega) (by norm_num)
      obtain ⟨a1, a2, a3, a4⟩ := consume_advance 10 false s hs (by norm_num)
        (encodeVarint32 (toU32 v)).length (by unfold encodeVarint32; omega) (by omega)
      refine ⟨_, ?_, a1, a2, a3, a4⟩
      simp only [Item.read, readInt32, h1, Outcome.bind, Item.value,
        toInt32_toU32 v hv.1 hv.2]
    · rw [if_neg h0] at henc hfit ⊢
      obtain ⟨l1, l2⟩ := readRawVarint32_negative_eq s false v hs hv.1 (by omega) henc hfit
      rw [l1] at hfit ⊢
      obtain ⟨a1, a2, a3, a4⟩ := consume_advance 10 false s hs (by norm_num) 10
        (by omega) (by omega)
      refine ⟨_, ?_, a1, a2, a3, a4⟩
      simp only [Item.read, readInt32, l2, Outcome.bind, Item.value]
  | uint32 v =>
    simp only [Item.Valid] at hv
    simp only [Item.encode] at henc hfit ⊢
    have h1 := readRawVarint32_canonical_eq s false v hs hv henc hfit
    obtain ⟨_, e2, _⟩ := encodeVarint_spec 5 v (by norm_num; omega) (by norm_num)
    obtain ⟨a1, a2, a3, a4⟩ := consume_advance 10 false s hs (by norm_num)
      (encodeVarint32 v).length (by unfold encodeVarint32; omega) (by omega)
    refine ⟨_, ?_, a1, a2, a3, a4⟩
    have hu : toU32 (toInt32 v) = v := by rw [toU32_toInt32]; omega
    simp only [Item.read, readUInt32, h1, Outcome.bind, Item.value, hu]
  | int64 v =>
    simp only [Item.Valid] at hv
    simp only [Item.encode] at henc hfit ⊢
    have hu : toU64 v < 18446744073709551616 := by unfold toU64; omega
    have h1 := readInt64_canonical_eq s (toU64 v) hs hu henc hfit
    obtain ⟨_, e2, _⟩ := encodeVarint_spec 10 (toU64 v) (by norm_num; omega) (by norm_num)
    obtain ⟨a1, a2, a3, a4⟩ := consume_advance 10 false s hs (by norm_num)
      (encodeVarint64 (toU64 v)).length (by unfold encodeVarint64; omega) (by omega)
    refine ⟨_, ?_, a1, a2, a3, a4⟩
    simp only [Item.read, h1, Outcome.bind, Item.value, toInt64_toU64 v hv.1 hv.2]
  | fixed32 v =>
    simp only [Item.Valid] at hv
    simp only [Item.encode] at henc hfit ⊢
    have h4 : s.m_position + 4 ≤ s.m_size := by
      simpa [encodeFixed32] using hfit
    have r1 := readFixed32_inverse s hs v hv.1 hv.2 h4 henc
    obtain ⟨a1, a2, a3, a4⟩ := consume_advance 4 false s hs (by norm_num) 4
      (by omega) (by omega)
    refine ⟨_, ?_, a1, a2, a3, by rw [a4]; simp [encodeFixed32]⟩
    simp only [Item.read, r1, Outcome.bind, Item.value]
  | fixed64 v =>
    simp only [Item.Valid] at hv
    simp only [Item.encode] at henc hfit ⊢
    have h8 : s.m_position + 8 ≤ s.m_size := by
      simpa [encodeFixed64] using hfit
    have r1 := readRawLittleEndian64_inverse s hs v hv.1 hv.2 h8 henc
    obtain ⟨a1, a2, a3, a4⟩ := consume_advance 8 false s hs (by norm_num) 8
      (by omega) (by omega)
    refine ⟨_, ?_, a1, a2, a3, by rw [a4]; simp [encodeFixed64]⟩
    simp only [Item.read, r1, Outcome.bind, Item.value]
  | data b =>
    simp only [Item.Valid] at hv
    simp only [Item.encode] at henc hfit ⊢
    obtain ⟨s', r1, r2, r3, r4, r5⟩ := readData_spec s hs b hv henc hfit
    exact ⟨s', by simp only [Item.read, r1, Outcome.bind, Item.value], r2, r3, r4, r5⟩
  | string b =>
    simp only [Item.Valid] at hv
    simp only [Item.encode] at henc hfit ⊢
    obtain ⟨s', r1, r2, r3, r4, r5⟩ := readData_spec s hs b hv henc hfit
    have r1' : readString s = .ok b s' := r1
    exact ⟨s', by simp only [Item.read, r1', Outcome.bind, Item.value], r2, r3, r4, r5⟩

theorem readAll_spec : ∀ (items : List Item) (s : CodedInputDataCrypt), Coherent s →
    (∀ it, it ∈ items → it.Valid) → PlainAt s (encodeAll items) →
    s.m_position + (encodeAll items).length ≤ s.m_size →
    ∃ s', readAll items s = .ok (items.map Item.value) s' ∧ Coherent s' ∧
      s'.m_size = s.m_size ∧ s'.m_position = s.m_position + (encodeAll items).length := by
  intro items
  induction items with
  | nil =>
    intro s hs _ _ _
    exact ⟨s, rfl, hs, rfl, rfl⟩
  | cons it rest ih =>
    intro s hs hv henc hfit
    simp only [encodeAll, List.length_append] at henc hfit ⊢
    obtain ⟨s1, r1, r2, r3, r4, r5⟩ := item_read_spec it s hs (hv it (List.mem_cons_self _ _))
      (plainAt_append_left s _ _ henc) (by omega)
    obtain ⟨s2, q1, q2, q3, q4⟩ := ih s1 r2 (fun x hx => hv x (List.mem_cons_of_mem _ hx))
      (plainAt_append_right s s1 _ _ henc r3 r5) (by rw [r4, r5]; omega)
    refine ⟨s2, ?_, q2, q3.trans r4, by rw [q4, r5, Nat.add_assoc]⟩
    simp only [readAll, r1, Outcome.bind, q1, List.map_cons]

/-- C1: with the decrypt engine as the oracle of the source plaintext, for every finite
sequence of representable values (32-bit varints, 64-bit varints, fixed32, fixed64,
length-delimited bytes and strings) written by the canonical encoder into one source, a
freshly constructed reader that performs the matching typed reads in the same order returns
every original value, throws nothing, and ends with the logical position equal to the
source size. -/
theorem round_trip (items : List Item) (hv : ∀ it, it ∈ items → it.Valid)
    (hlen : (encodeAll items).length < 4611686018427387904) :
    ∃ s', readAll items (construct (bytesSource (encodeAll items)) (encodeAll items).length)
        = .ok (items.map Item.value) s' ∧
      s'.m_position = s'.m_size ∧ s'.m_size = (encodeAll items).length := by
  obtain ⟨s', r1, _, r3, r4⟩ := readAll_spec items
    (construct (bytesSource (encodeAll items)) (encodeAll items).length)
    (construct_coherent _ _ hlen) hv (fun i _ => by simp [construct, bytesSource])
    (by simp [construct])
  refine ⟨s', r1, ?_, r3⟩
  rw [r4, r3]
  simp [construct]

/-- Witness for C1: the stream of `int32 -2`, `uint32 300`, `int64 -1`, `fixed32 -2`,
`fixed64 5`, a 40-byte blob and a 2-byte string is read back value for value. -/
theorem round_trip_witness :
    ∃ s', readAll
        [Item.int32 (-2), Item.uint32 300, Item.int64 (-1), Item.fixed32 (-2), Item.fixed64 5,
          Item.data (List.replicate 40 7), Item.string [104, 105]]
        (construct
          (bytesSource (encodeAll
            [Item.int32 (-2), Item.uint32 300, Item.int64 (-1), Item.fixed32 (-2),
              Item.fixed64 5, Item.data (List.replicate 40 7), Item.string [104, 105]]))
          (encodeAll
            [Item.int32 (-2), Item.uint32 300, Item.int64 (-1), Item.fixed32 (-2),
              Item.fixed64 5, Item.data (List.replicate 40 7), Item.string [104, 105]]).length)
        = .ok ([Item.int32 (-2), Item.uint32 300, Item.int64 (-1), Item.fixed32 (-2),
            Item.fixed64 5, Item.data (List.replicate 40 7), Item.string [104, 105]].map
              Item.value) s' ∧
      s'.m_position = s'.m_size ∧
      s'.m_size = (encodeAll
        [Item.int32 (-2), Item.uint32 300, Item.int64 (-1), Item.fixed32 (-2), Item.fixed64 5,
          Item.data (List.replicate 40 7), Item.string [104, 105]]).length :=
  round_trip
    [Item.int32 (-2), Item.uint32 300, Item.int64 (-1), Item.fixed32 (-2), Item.fixed64 5,
      Item.data (List.replicate 40 7), Item.string [104, 105]]
    (by
      intro it hit
      simp only [List.mem_cons, List.mem_singleton, List.not_mem_nil, or_false] at hit
      rcases hit with h | h | h | h | h | h | h <;> subst h <;> simp [Item.Valid])
    (by decide)

theorem consumeBytes_readPosition (n : Nat) (d : Bool) (s : CodedInputDataCrypt)
    (hs : Coherent s) :
    ((consumeBytes n d s).m_decryptBufferPosition = s.m_decryptBufferPosition ∨
      (consumeBytes n d s).m_decryptBufferPosition = s.m_decryptBufferPosition
        - (markDiscard d s).m_decryptBufferDiscardPosition / 16 * 16) ∧
    ((markDiscard d s).m_decryptBufferDiscardPosition < 16 →
      (consumeBytes n d s).m_decryptBufferPosition = s.m_decryptBufferPosition) := by
  have hm := markDiscard_coherent d s hs
  have hv : (markDiscard d s).m_decryptBufferPosition = s.m_decryptBufferPosition := by
    unfold markDiscard; cases d <;> simp
  simp only [consumeBytes]
  generalize markDiscard d s = m at hm hv
  obtain ⟨h1, h2, h3, h4, h5, h6, h7, h8, h9⟩ := hm
  simp only [fill, grow, compact]
  split_ifs <;> simp only [szMul, szSub, SIZE_MOD, AES_KEY_LEN] at * <;> constructor <;> omega

/-- C2 (amended): on a coherent reader whose plaintext at the logical position starts with the
canonical 1-to-5-byte varint of an unsigned 32-bit value `v`, whatever bytes follow,
`readRawVarint32` returns `v` as the same 32-bit pattern and advances the logical position by
exactly the encoded length. The staging read position ends the encoded length past where
`consumeBytes(10)` left it: that is the old read position, unless `consumeBytes` compacted the
buffer and slid it down by the discard mark rounded down to a block. -/
theorem readRawVarint32_canonical (s : CodedInputDataCrypt) (d : Bool) (v : Nat)
    (hs : Coherent s) (hv : v < 4294967296) (henc : PlainAt s (encodeVarint32 v))
    (hfit : s.m_position + (encodeVarint32 v).length ≤ s.m_size) :
    ∃ s', readRawVarint32 d s = .ok (toInt32 v) s' ∧ toU32 (toInt32 v) = v ∧
      1 ≤ (encodeVarint32 v).length ∧ (encodeVarint32 v).length ≤ 5 ∧
      s'.m_position = s.m_position + (encodeVarint32 v).length ∧
      s'.m_decryptBufferPosition
        = (consumeBytes 10 d s).m_decryptBufferPosition + (encodeVarint32 v).length ∧
      ((consumeBytes 10 d s).m_decryptBufferPosition = s.m_decryptBufferPosition ∨
        (consumeBytes 10 d s).m_decryptBufferPosition = s.m_decryptBufferPosition
          - (markDiscard d s).m_decryptBufferDiscardPosition / 16 * 16) ∧
      ((markDiscard d s).m_decryptBufferDiscardPosition < 16 →
        s'.m_decryptBufferPosition = s.m_decryptBufferPosition + (encodeVarint32 v).length) ∧
      Coherent s' := by
  obtain ⟨e1, e2, _⟩ := encodeVarint_spec 5 v (by norm_num; omega) (by norm_num)
  obtain ⟨a1, _, _, a4⟩ := consume_advance 10 d s hs (by norm_num) (encodeVarint32 v).length
    (by unfold encodeVarint32; omega) (by omega)
  obtain ⟨p1, p2⟩ := consumeBytes_readPosition 10 d s hs
  refine ⟨_, readRawVarint32_canonical_eq s d v hs hv henc hfit, ?_, e1, e2, a4, rfl, p1, ?_, a1⟩
  · rw [toU32_toInt32]
    omega
  · intro hd
    simp only [advance, p2 hd]

/-- Witness for C2: the boundary value `2^31 - 1`, encoded `FF FF FF FF 07`, followed by other
bytes. -/
theorem readRawVarint32_canonical_witness :
    ∃ s', readRawVarint32 false (readerOf [255, 255, 255, 255, 7, 200, 200]) = .ok (toInt32 2147483647) s' ∧
      toU32 (toInt32 2147483647) = 2147483647 ∧
      1 ≤ (encodeVarint32 2147483647).length ∧ (encodeVarint32 2147483647).length ≤ 5 ∧
      s'.m_position = (readerOf [255, 255, 255, 255, 7, 200, 200]).m_position
        + (encodeVarint32 2147483647).length ∧
      s'.m_decryptBufferPosition
        = (consumeBytes 10 false (readerOf [255, 255, 255, 255, 7, 200, 200])).m_decryptBufferPosition
          + (encodeVarint32 2147483647).length ∧
      ((consumeBytes 10 false (readerOf [255, 255, 255, 255, 7, 200, 200])).m_decryptBufferPosition
          = (readerOf [255, 255, 255, 255, 7, 200, 200]).m_decryptBufferPosition ∨
        (consumeBytes 10 false (readerOf [255, 255, 255, 255, 7, 200, 200])).m_decryptBufferPosition
          = (readerOf [255, 255, 255, 255, 7, 200, 200]).m_decryptBufferPosition
            - (markDiscard false (readerOf [255, 255, 255, 255, 7, 200, 200])).m_decryptBufferDiscardPosition
              / 16 * 16) ∧
      ((markDiscard false (readerOf [255, 255, 255, 255, 7, 200, 200])).m_decryptBufferDiscardPosition
          < 16 →
        s'.m_decryptBufferPosition
          = (readerOf [255, 255, 255, 255, 7, 200, 200]).m_decryptBufferPosition
            + (encodeVarint32 2147483647).length) ∧
      Coherent s' :=
  readRawVarint32_canonical (readerOf [255, 255, 255, 255, 7, 200, 200]) false 2147483647
    (construct_coherent _ _ (by decide)) (by decide) (by unfold PlainAt; decide) (by decide)

/-- Counterexample for C2 as stated: the coherent reader `afterSecondKey` (reached by
`readString(kvHolder)`, `readData()`, `readString(kvHolder)`) stands at the one-byte varint
`3` with its read position at 30; `readRawVarint32` returns 3 and advances the logical
position by one, but `consumeBytes(10)` compacts the staging buffer, so the read position
ends at 15 and not at 31. -/
theorem readRawVarint32_readPosition_counterexample :
    Coherent afterSecondKey ∧
    PlainAt afterSecondKey (encodeVarint32 3) ∧
    (encodeVarint32 3).length = 1 ∧
    (readRawVarint32 false afterSecondKey).val? = some 3 ∧
    (readRawVarint32 false afterSecondKey).state.m_position = afterSecondKey.m_position + 1 ∧
    afterSecondKey.m_decryptBufferPosition = 30 ∧
    (readRawVarint32 false afterSecondKey).state.m_decryptBufferPosition = 15 ∧
    (readRawVarint32 false afterSecondKey).state.m_decryptBufferPosition
      ≠ afterSecondKey.m_decryptBufferPosition + (encodeVarint32 3).length := by
  refine ⟨afterSecondKey_coherent, ?_⟩
  unfold PlainAt
  decide

theorem readRawVarint32_overlong_eq (s : CodedInputDataCrypt) (d : Bool) (hs : Coherent s)
    (h10 : s.m_position + 10 ≤ s.m_size) (h5 : ∀ i, i < 5 → 128 ≤ byteAt s i) :
    ((∀ j, 5 ≤ j → j < 10 → 128 ≤ byteAt s j) →
      readRawVarint32 d s = .fail .malformedVarint (advance 10 (consumeBytes 10 d s))) ∧
    (∀ t, 5 ≤ t → t < 10 → byteAt s t < 128 → (∀ j, 5 ≤ j → j < t → 128 ≤ byteAt s j) →
      readRawVarint32 d s = .ok (assemble5 s) (advance (t + 1) (consumeBytes 10 d s))) := by
  obtain ⟨c1, c2, c3, c4, c5, c6⟩ := consume_view 10 d s hs (by norm_num)
  have hst : 10 ≤ staged (consumeBytes 10 d s) := by omega
  have f5 := body_five (consumeBytes 10 d s) c1 (by omega)
    (fun i hi => by rw [c5]; exact h5 i (by omega))
  have n4 : ¬ byteAt (consumeBytes 10 d s) 4 < 128 := by
    rw [c5]
    have := h5 4 (by omega)
    omega
  rw [if_neg n4] at f5
  obtain ⟨d1, d2⟩ := discardUpper_spec (consumeBytes 10 d s) c1
    (assemble5 (consumeBytes 10 d s)) 5 5 (by omega)
  have ha : assemble5 (consumeBytes 10 d s) = assemble5 s := by
    simp only [assemble5, c5]
  constructor
  · intro hall
    rw [readRawVarint32, f5, d1 (fun j hj1 hj2 => by rw [c5]; exact hall j hj1 (by omega))]
  · intro t ht1 ht2 hb hall
    rw [readRawVarint32, f5, d2 t ht1 (by omega) (by rw [c5]; exact hb)
      (fun j hj1 hj2 => by rw [c5]; exact hall j hj1 hj2), ha]

/-- C3: on a coherent reader with at least 10 source bytes left whose first five bytes all
carry the continuation bit, `readRawVarint32` succeeds if and only if one of bytes 6 to 10 has
the continuation bit clear; on success it returns the 32-bit value assembled from the low
7 bits of bytes 1-4 and the low 4 bits of byte 5, and consumes exactly up to and including
the first terminating byte; otherwise it throws MalformedVarint. Consequently the 10-byte
varint of a negative `int32_t` sign-extended to 64 bits decodes to that value. -/
theorem readRawVarint32_overlong (s : CodedInputDataCrypt) (d : Bool) (hs : Coherent s)
    (h10 : s.m_position + 10 ≤ s.m_size) (h5 : ∀ i, i < 5 → 128 ≤ byteAt s i) :
    ((readRawVarint32 d s).err? = none ↔ ∃ t, 5 ≤ t ∧ t < 10 ∧ byteAt s t < 128) ∧
    (∀ t, 5 ≤ t → t < 10 → byteAt s t < 128 → (∀ j, 5 ≤ j → j < t → 128 ≤ byteAt s j) →
      ∃ s', readRawVarint32 d s
          = .ok (toInt32 (byteAt s 0 % 128 + byteAt s 1 % 128 * 2 ^ 7 + byteAt s 2 % 128 * 2 ^ 14
              + byteAt s 3 % 128 * 2 ^ 21 + byteAt s 4 % 16 * 2 ^ 28)) s' ∧
        s'.m_position = s.m_position + (t + 1) ∧ Coherent s') ∧
    ((¬ ∃ t, 5 ≤ t ∧ t < 10 ∧ byteAt s t < 128) →
      (readRawVarint32 d s).err? = some Error.malformedVarint) ∧
    (∀ v : Int, -2147483648 ≤ v → v < 0 → PlainAt s (encodeVarint64 (toU64 v)) →
      (encodeVarint64 (toU64 v)).length = 10 ∧
      ∃ s', readRawVarint32 d s = .ok v s' ∧ s'.m_position = s.m_position + 10) := by
  obtain ⟨f1, f2⟩ := readRawVarint32_overlong_eq s d hs h10 h5
  have hfail : (¬ ∃ t, 5 ≤ t ∧ t < 10 ∧ byteAt s t < 128) →
      (readRawVarint32 d s).err? = some Error.malformedVarint := by
    intro hno
    rw [f1 (fun j hj1 hj2 => by
      by_contra hc
      exact hno ⟨j, hj1, hj2, by omega⟩)]
    rfl
  refine ⟨⟨?_, ?_⟩, ?_, hfail, ?_⟩
  · intro hok
    by_contra hno
    rw [hfail hno] at hok
    simp at hok
  · rintro ⟨t, t1, t2, t3⟩
    rcases first_clear (byteAt s) 5 5 with hall | ⟨u, u1, u2, u3, u4⟩
    · have := hall t t1 (by omega)
      omega
    · rw [f2 u u1 (by omega) u3 u4]
      rfl
  · intro t ht1 ht2 hb hall
    obtain ⟨a1, _, _, a4⟩ :=
      consume_advance 10 d s hs (by norm_num) (t + 1) (by omega) (by omega)
    exact ⟨_, f2 t ht1 ht2 hb hall, a4, a1⟩
  · intro v h0 h1 henc
    have hlen : (encodeVarint64 (toU64 v)).length ≤ 10 := by
      have hu : toU64 v < 18446744073709551616 := by unfold toU64; omega
      obtain ⟨_, e2, _⟩ := encodeVarint_spec 10 (toU64 v) (by norm_num; omega) (by norm_num)
      exact e2
    obtain ⟨l1, l2⟩ := readRawVarint32_negative_eq s d v hs h0 h1 henc (by omega)
    obtain ⟨_, _, _, a4⟩ := consume_advance 10 d s hs (by norm_num) 10 (by omega) (by omega)
    exact ⟨l1, _, l2, a4⟩

/-- Witness for C3: the ten bytes `FE FF FF FF FF FF FF FF FF 01`, the sign-extended varint of
`-2`, decode to `-2`. -/
theorem readRawVarint32_overlong_witness :
    (encodeVarint64 (toU64 (-2))).length = 10 ∧
    ∃ s', readRawVarint32 false (readerOf [254, 255, 255, 255, 255, 255, 255, 255, 255, 1])
        = .ok (-2) s' ∧
      s'.m_position
        = (readerOf [254, 255, 255, 255, 255, 255, 255, 255, 255, 1]).m_position + 10 :=
  (readRawVarint32_overlong (readerOf [254, 255, 255, 255, 255, 255, 255, 255, 255, 1]) false
    (construct_coherent _ _ (by decide)) (by decide) (by unfold byteAt; decide)).2.2.2 (-2)
    (by decide) (by decide) (by unfold PlainAt; decide)

theorem readInt64_first (s : CodedInputDataCrypt) (hs : Coherent s)
    (h10 : s.m_position + 10 ≤ s.m_size) :
    ((∀ j, j < 10 → 128 ≤ byteAt s j) →
      readInt64 s = .fail .malformedVarint (advance 10 (consumeBytes 10 false s))) ∧
    (∀ t, t < 10 → byteAt s t < 128 → (∀ j, j < t → 128 ≤ byteAt s j) →
      readInt64 s = .ok (toInt64 (varintSum (byteAt s) (t + 1)))
        (advance (t + 1) (consumeBytes 10 false s))) := by
  obtain ⟨c1, c2, c3, c4, c5, c6⟩ := consume_view 10 false s hs (by norm_num)
  have hst : 10 ≤ staged (consumeBytes 10 false s) := by omega
  obtain ⟨k1, k2⟩ := readInt64Loop_spec (consumeBytes 10 false s) c1 10 0 (by norm_num)
  have z : toInt64 (varintSum (byteAt (consumeBytes 10 false s)) 0) = 0 := by
    simp [varintSum, toInt64]
  rw [z, advance_zero] at k1 k2
  constructor
  · intro hall
    rw [readInt64]
    exact k1 hst (fun j _ hj => by rw [c5]; exact hall j hj)
  · intro t ht hb hall
    rw [readInt64, k2 t (by omega) ht (by omega) (by rw [c5]; exact hb)
      (fun j _ hj => by rw [c5]; exact hall j hj),
      varintSum_congr _ _ _ (fun i _ => c5 i)]

/-- C4: on a coherent reader with at least 10 source bytes left, `readInt64` throws
MalformedVarint if and only if all of the first 10 bytes carry the continuation bit; otherwise,
with byte `t` (counting from 0) the first one whose continuation bit is clear, it returns the
sum over `i ≤ t` of `(byte_i & 0x7f) * 2^(7i)` taken modulo `2^64` as a two's-complement
`int64_t`, and consumes exactly `t + 1` bytes. It returns `v` for the canonical varint
encoding of every 64-bit value `v`. -/
theorem readInt64_varint (s : CodedInputDataCrypt) (hs : Coherent s)
    (h10 : s.m_position + 10 ≤ s.m_size) :
    ((readInt64 s).err? = some Error.malformedVarint ↔ ∀ j, j < 10 → 128 ≤ byteAt s j) ∧
    (∀ t, t < 10 → byteAt s t < 128 → (∀ j, j < t → 128 ≤ byteAt s j) →
      ∃ s', readInt64 s = .ok (toInt64 (varintSum (byteAt s) (t + 1))) s' ∧
        s'.m_position = s.m_position + (t + 1) ∧ Coherent s') ∧
    (∀ v, v < 18446744073709551616 → PlainAt s (encodeVarint64 v) →
      ∃ s', readInt64 s = .ok (toInt64 v) s' ∧
        s'.m_position = s.m_position + (encodeVarint64 v).length) := by
  obtain ⟨f1, f2⟩ := readInt64_first s hs h10
  refine ⟨⟨?_, ?_⟩, ?_, ?_⟩
  · intro herr
    rcases first_clear (byteAt s) 0 10 with hall | ⟨t, _, t2, t3, t4⟩
    · intro j hj
      exact hall j (by omega) (by omega)
    · rw [f2 t (by omega) t3 (fun j hj => t4 j (by omega) hj)] at herr
      simp [Outcome.err?] at herr
  · intro hall
    rw [f1 hall]
    rfl
  · intro t ht hb hall
    obtain ⟨a1, _, _, a4⟩ :=
      consume_advance 10 false s hs (by norm_num) (t + 1) (by omega) (by omega)
    exact ⟨_, f2 t ht hb hall, a4, a1⟩
  · intro v hv henc
    obtain ⟨_, e2, _, _, _⟩ := encodeVarint_spec 10 v (by norm_num; omega) (by norm_num)
    have hfit : s.m_position + (encodeVarint64 v).length ≤ s.m_size := by
      unfold encodeVarint64
      omega
    obtain ⟨_, _, _, a4⟩ := consume_advance 10 false s hs (by norm_num)
      (encodeVarint64 v).length (by unfold encodeVarint64; omega) (by omega)
    exact ⟨_, readInt64_canonical_eq s v hs hv henc hfit, a4⟩

/-- Witness for C4: ten bytes `FF .. FF 01` decode to `-1`; ten bytes `FF` are malformed. -/
theorem readInt64_varint_witness :
    (∃ s', readInt64 (readerOf [255, 255, 255, 255, 255, 255, 255, 255, 255, 1])
        = .ok (toInt64 18446744073709551615) s' ∧
      s'.m_position
        = (readerOf [255, 255, 255, 255, 255, 255, 255, 255, 255, 1]).m_position
          + (encodeVarint64 18446744073709551615).length) ∧
    (readInt64 (readerOf [255, 255, 255, 255, 255, 255, 255, 255, 255, 255])).err?
      = some Error.malformedVarint :=
  ⟨(readInt64_varint (readerOf [255, 255, 255, 255, 255, 255, 255, 255, 255, 1])
      (construct_coherent _ _ (by decide)) (by decide)).2.2 18446744073709551615 (by decide)
      (by unfold PlainAt; decide),
    (readInt64_varint (readerOf [255, 255, 255, 255, 255, 255, 255, 255, 255, 255])
      (construct_coherent _ _ (by decide)) (by decide)).1.2 (by unfold byteAt; decide)⟩

/-- C5: on a coherent reader with at least 4 (resp. 8) source bytes left, `readRawLittleEndian32`
and `readFixed32` (resp. `readRawLittleEndian64`) return the integer whose two's-complement
pattern is `b1 + b2*2^8 + b3*2^16 + b4*2^24` (resp. up to `b8*2^56`) of the plaintext bytes at
the logical position, each taken as unsigned, and advance the logical position by exactly 4
(resp. 8); so they invert the little-endian encoding of every 32-bit (64-bit) value, negative
ones included. -/
theorem fixed_width_little_endian (s : CodedInputDataCrypt) (hs : Coherent s) :
    (s.m_position + 4 ≤ s.m_size →
      ∃ s', readRawLittleEndian32 s
          = .ok (toInt32 (byteAt s 0 + byteAt s 1 * 2 ^ 8 + byteAt s 2 * 2 ^ 16
              + byteAt s 3 * 2 ^ 24)) s' ∧
        readFixed32 s = readRawLittleEndian32 s ∧
        s'.m_position = s.m_position + 4 ∧ Coherent s') ∧
    (s.m_position + 8 ≤ s.m_size →
      ∃ s', readRawLittleEndian64 s
          = .ok (toInt64 (byteAt s 0 + byteAt s 1 * 2 ^ 8 + byteAt s 2 * 2 ^ 16
              + byteAt s 3 * 2 ^ 24 + byteAt s 4 * 2 ^ 32 + byteAt s 5 * 2 ^ 40
              + byteAt s 6 * 2 ^ 48 + byteAt s 7 * 2 ^ 56)) s' ∧
        s'.m_position = s.m_position + 8 ∧ Coherent s') ∧
    (∀ v : Int, -2147483648 ≤ v → v < 2147483648 → s.m_position + 4 ≤ s.m_size →
      PlainAt s (encodeFixed32 (toU32 v)) →
      ∃ s', readFixed32 s = .ok v s' ∧ s'.m_position = s.m_position + 4) ∧
    (∀ v : Int, -9223372036854775808 ≤ v → v < 9223372036854775808 →
      s.m_position + 8 ≤ s.m_size → PlainAt s (encodeFixed64 (toU64 v)) →
      ∃ s', readRawLittleEndian64 s = .ok v s' ∧ s'.m_position = s.m_position + 8) := by
  refine ⟨?_, ?_, ?_, ?_⟩
  · intro h4
    obtain ⟨a1, _, _, a4⟩ := consume_advance 4 false s hs (by norm_num) 4 (by omega) (by omega)
    exact ⟨_, readRawLittleEndian32_spec s hs h4, rfl, a4, a1⟩
  · intro h8
    obtain ⟨a1, _, _, a4⟩ := consume_advance 8 false s hs (by norm_num) 8 (by omega) (by omega)
    exact ⟨_, readRawLittleEndian64_spec s hs h8, a4, a1⟩
  · intro v h0 h1 h4 henc
    obtain ⟨_, _, _, a4⟩ := consume_advance 4 false s hs (by norm_num) 4 (by omega) (by omega)
    exact ⟨_, readFixed32_inverse s hs v h0 h1 h4 henc, a4⟩
  · intro v h0 h1 h8 henc
    obtain ⟨_, _, _, a4⟩ := consume_advance 8 false s hs (by norm_num) 8 (by omega) (by omega)
    exact ⟨_, readRawLittleEndian64_inverse s hs v h0 h1 h8 henc, a4⟩

/-- Witness for C5: the four bytes `FE FF FF FF` read as the fixed32 value `-2`, and the eight
bytes `00 .. 00 80` read as the fixed64 value `-2^63`. -/
theorem fixed_width_little_endian_witness :
    (∃ s', readFixed32 (readerOf [254, 255, 255, 255]) = .ok (-2) s' ∧
      s'.m_position = (readerOf [254, 255, 255, 255]).m_position + 4) ∧
    (∃ s', readRawLittleEndian64 (readerOf [0, 0, 0, 0, 0, 0, 0, 128])
        = .ok (-9223372036854775808) s' ∧
      s'.m_position = (readerOf [0, 0, 0, 0, 0, 0, 0, 128]).m_position + 8) :=
  ⟨(fixed_width_little_endian (readerOf [254, 255, 255, 255])
      (construct_coherent _ _ (by decide))).2.2.1 (-2) (by decide) (by decide) (by decide)
      (by unfold PlainAt; decide),
    (fixed_width_little_endian (readerOf [0, 0, 0, 0, 0, 0, 0, 128])
      (construct_coherent _ _ (by decide))).2.2.2 (-9223372036854775808) (by decide) (by decide)
      (by decide) (by unfold PlainAt; decide)⟩

set_option maxRecDepth 1000000 in
/-- C6 (the code at the failing input): the reader `afterOffsetValue` was reached by one
successful `readData(kvHolder)`; the plaintext continues with the length prefix 2 and the
bytes `4D 4E`, which fit in the source, but `readData()` and `readString()` return the single
byte `63` of the skipped value. -/
theorem readData_after_offset_value_stale :
    PlainAt afterOffsetValue (encodeData [77, 78]) ∧
    afterOffsetValue.m_position + (encodeData [77, 78]).length ≤ afterOffsetValue.m_size ∧
    (readData afterOffsetValue).val? = some [99] ∧
    (readString afterOffsetValue).val? = some [99] := by
  unfold PlainAt
  decide

/-- C7: for a reader whose logical position is within a source of machine-representable size,
and whose length varint decodes successfully to a 32-bit size `size` leaving the state `s1`,
each of `readData()`, `readString()`, `readData(kvHolder)` and `readString(kvHolder)` throws
NegativeSize if and only if `size < 0`, throws TruncatedMessage if and only if `size ≥ 0` and
`size` exceeds the source size minus the logical position after the length prefix, and
succeeds otherwise. -/
theorem length_delimited_size_checks (K : Nat) (kv : KeyValueHolderCrypt)
    (s0 : CodedInputDataCrypt) (N : Nat) (hi : InSource N s0) :
    (∀ size s1, readRawVarint32 false s0 = .ok size s1 →
      SizeChecked (readData s0).err? size s1 ∧ SizeChecked (readString s0).err? size s1 ∧
      SizeChecked (readDataKV K kv s0).2.err? size s1) ∧
    (∀ size s1, readRawVarint32 true s0 = .ok size s1 →
      SizeChecked (readStringKV kv s0).2.err? size s1) := by
  constructor
  · intro size s1 hread
    obtain ⟨r1, r2, _⟩ := readRawVarint32_ok N false s0 size s1 hread hi
    have hb := readBody_sizeChecked size s1 N r2 r1
    refine ⟨?_, ?_, readDataKV_sizeChecked K kv s0 s1 size N r2 r1 hread⟩
    · simp only [readData, hread, Outcome.bind]
      exact hb
    · simp only [readString, hread, Outcome.bind]
      exact hb
  · intro size s1 hread
    obtain ⟨r1, r2, _⟩ := readRawVarint32_ok N true s0 size s1 hread hi
    exact readStringKV_sizeChecked kv s0 s1 size N r2 r1 hread

/-- Witness for C7: over the plaintext `03 01 02` the declared size 3 exceeds the 2 bytes left
after the prefix, and `readData()` throws TruncatedMessage. -/
theorem length_delimited_size_checks_witness :
    SizeChecked (readData (readerOf [3, 1, 2])).err? 3
        (readRawVarint32 false (readerOf [3, 1, 2])).state ∧
    (readData (readerOf [3, 1, 2])).err? = some Error.truncatedMessage :=
  ⟨((length_delimited_size_checks 32 emptyHolder (readerOf [3, 1, 2]) 3
      (by unfold InSource; decide)).1 3 _ (eq_ok_of_val _ _ (by decide))).1,
    by decide⟩

/-- C8: `readRawByte` throws EndOfStream exactly when the logical position equals the source
size, and then leaves the reader as it was; otherwise it returns the staging-buffer byte at
the read position (as an `int8_t`) and the new state differs from the old one only in the
logical position and the read position, each incremented by one (`x++` on a `size_t`, which
is `x + 1` whenever the cursor is below its bound: the source size, resp. the buffer size). -/
theorem readRawByte_endOfStream (s : CodedInputDataCrypt) :
    ((readRawByte s).err? = some Error.endOfStream ↔ s.m_position = s.m_size) ∧
    (s.m_position = s.m_size → readRawByte s = .fail .endOfStream s) ∧
    (s.m_position ≠ s.m_size →
      readRawByte s = .ok (toInt8 (s.m_decryptBuffer s.m_decryptBufferPosition))
        { s with
          m_position := szAdd s.m_position 1
          m_decryptBufferPosition := szAdd s.m_decryptBufferPosition 1 }) ∧
    (s.m_position < s.m_size → s.m_size < SIZE_MOD → szAdd s.m_position 1 = s.m_position + 1) ∧
    (s.m_decryptBufferPosition < s.m_decryptBufferSize → s.m_decryptBufferSize < SIZE_MOD →
      szAdd s.m_decryptBufferPosition 1 = s.m_decryptBufferPosition + 1) := by
  refine ⟨?_, ?_, ?_, ?_, ?_⟩
  · unfold readRawByte
    split <;> simp [Outcome.err?, *]
  · intro h
    simp only [readRawByte, if_pos h]
  · intro h
    simp only [readRawByte, if_neg h]
  · intro h1 h2
    simp only [szAdd, SIZE_MOD] at h2 ⊢
    omega
  · intro h1 h2
    simp only [szAdd, SIZE_MOD] at h2 ⊢
    omega

/-- Witness for C8: a reader over the empty source throws EndOfStream and is unchanged; a
reader over the two bytes `C8 07`, after `consumeBytes(1)` has staged them, returns
`(int8_t) 0xC8 = -56` and moves the logical position and the read position from 0 to 1. -/
theorem readRawByte_endOfStream_witness :
    readRawByte (readerOf []) = .fail .endOfStream (readerOf []) ∧
    (readRawByte (consumeBytes 1 false (readerOf [200, 7]))).val? = some (-56) ∧
    szAdd (consumeBytes 1 false (readerOf [200, 7])).m_position 1 = 0 + 1 ∧
    szAdd (consumeBytes 1 false (readerOf [200, 7])).m_decryptBufferPosition 1 = 0 + 1 :=
  ⟨(readRawByte_endOfStream (readerOf [])).2.1 rfl,
    congrArg Outcome.val?
      ((readRawByte_endOfStream (consumeBytes 1 false (readerOf [200, 7]))).2.2.1 (by decide)),
    (readRawByte_endOfStream (consumeBytes 1 false (readerOf [200, 7]))).2.2.2.1
      (by decide) (by decide),
    (readRawByte_endOfStream (consumeBytes 1 false (readerOf [200, 7]))).2.2.2.2
      (by decide) (by decide)⟩

/-- C9: with `K = sizeof(KeyValueHolderCrypt)`, when the value size decodes successfully to
`size ≥ 0` and fits in the source bytes left after the length prefix, `readData(kvHolder)`
succeeds and stores the entry as Direct if and only if `size ≤ 2*K` and as Offset if and only
if `size > 2*K` (so `2*K` gives Direct and `2*K + 1` gives Offset); in the Offset case the
recorded `valueSize` equals `size`. -/
theorem readDataKV_threshold (K : Nat) (kv : KeyValueHolderCrypt) (s0 s1 : CodedInputDataCrypt)
    (size : Int) (N : Nat) (hi : InSource N s0) (hK : 2 * K < 18446744073709551616)
    (hread : readRawVarint32 false s0 = .ok size s1) (h0 : 0 ≤ size)
    (hfit : size ≤ (s1.m_size : Int) - (s1.m_position : Int)) :
    (readDataKV K kv s0).2.err? = none ∧
    ((readDataKV K kv s0).1.type = KeyValueHolderType.Direct ↔ size ≤ 2 * (K : Int)) ∧
    ((readDataKV K kv s0).1.type = KeyValueHolderType.Offset ↔ size > 2 * (K : Int)) ∧
    (size = 2 * (K : Int) → (readDataKV K kv s0).1.type = KeyValueHolderType.Direct) ∧
    (size = 2 * (K : Int) + 1 → (readDataKV K kv s0).1.type = KeyValueHolderType.Offset) ∧
    (size > 2 * (K : Int) → ((readDataKV K kv s0).1.valueSize : Int) = size) := by
  obtain ⟨r1, r2, _⟩ := readRawVarint32_ok N false s0 size s1 hread hi
  have hf := (fits_iff size s1 N r2 h0 r1.2).mpr hfit
  have hu := toU64_nonneg size h0 r1.2
  have hm : szMul K 2 = 2 * K := by
    simp only [szMul, SIZE_MOD]
    omega
  have key : (readDataKV K kv s0).2.err? = none ∧
      ((readDataKV K kv s0).1.type = KeyValueHolderType.Direct ↔ size ≤ 2 * (K : Int)) ∧
      ((readDataKV K kv s0).1.type = KeyValueHolderType.Offset ↔ size > 2 * (K : Int)) ∧
      (size > 2 * (K : Int) → ((readDataKV K kv s0).1.valueSize : Int) = size) := by
    unfold readDataKV
    simp only [hread, if_neg (show ¬ size < 0 by omega), if_pos hf, hm]
    by_cases hbig : toU64 size > 2 * K
    · simp only [if_pos hbig, Outcome.err?]
      have hlt : size > 2 * (K : Int) := by omega
      refine ⟨trivial, ?_, ?_, ?_⟩
      · constructor
        · intro h; simp at h
        · intro h; omega
      · simp only [true_iff]
        exact hlt
      · intro _
        omega
    · simp only [if_neg hbig, Outcome.err?, KeyValueHolderCrypt.ofBytes]
      have hle : size ≤ 2 * (K : Int) := by omega
      refine ⟨trivial, ?_, ?_, ?_⟩
      · simp only [true_iff]
        exact hle
      · constructor
        · intro h; simp at h
        · intro h; omega
      · intro h
        omega
  obtain ⟨k1, k2, k3, k4⟩ := key
  exact ⟨k1, k2, k3, fun h => k2.mpr (by omega), fun h => k3.mpr (by omega), k4⟩

/-- Witness for C9: with `K = 2`, a value of size 4 is stored Direct and a value of size 5 is
stored Offset with `valueSize = 5`. -/
theorem readDataKV_threshold_witness :
    (readDataKV 2 emptyHolder (readerOf [4, 1, 2, 3, 4])).1.type = KeyValueHolderType.Direct ∧
    (readDataKV 2 emptyHolder (readerOf [5, 1, 2, 3, 4, 5])).1.type
      = KeyValueHolderType.Offset ∧
    (((readDataKV 2 emptyHolder (readerOf [5, 1, 2, 3, 4, 5])).1.valueSize : Nat) : Int) = 5 :=
  ⟨(readDataKV_threshold 2 emptyHolder (readerOf [4, 1, 2, 3, 4]) _ 4 5
      (by unfold InSource; decide) (by decide) (eq_ok_of_val _ _ (by decide)) (by decide)
      (by decide)).2.2.2.1 (by decide),
    (readDataKV_threshold 2 emptyHolder (readerOf [5, 1, 2, 3, 4, 5]) _ 5 6
      (by unfold InSource; decide) (by decide) (eq_ok_of_val _ _ (by decide)) (by decide)
      (by decide)).2.2.2.2.1 (by decide),
    (readDataKV_threshold 2 emptyHolder (readerOf [5, 1, 2, 3, 4, 5]) _ 5 6
      (by unfold InSource; decide) (by decide) (eq_ok_of_val _ _ (by decide)) (by decide)
      (by decide)).2.2.2.2.2 (by decide)⟩

set_option maxRecDepth 1000000 in
/-- C10 (the code at the failing input): over `offsetRecord`, `readData(kvHolder)` reads the
two-byte length prefix 158 with 14 staged bytes left, so `skipBytes(158)` decrypts
`158 - 14 = 144 = 9 * 16` bytes and leaves the read position 0 and the decrypted end 16. The
logical position is then 160, where the plaintext byte is 2, but the next `readRawByte`
returns 1, the plaintext byte at 144, from the last skipped block. -/
theorem skipBytes_block_multiple_stale :
    (readRawVarint32 false (readerOf offsetRecord)).val? = some 158 ∧
    staged (readRawVarint32 false (readerOf offsetRecord)).state = 14 ∧
    (readDataKV 32 emptyHolder (readerOf offsetRecord)).1.type = KeyValueHolderType.Offset ∧
    (readDataKV 32 emptyHolder (readerOf offsetRecord)).2.err? = none ∧
    afterOffsetValue.m_position = 2 + 158 ∧
    afterOffsetValue.m_decryptBufferPosition = 0 ∧
    afterOffsetValue.m_decryptBufferDecryptPosition = 16 ∧
    toInt8 (afterOffsetValue.m_plain 160) = 2 ∧
    toInt8 (afterOffsetValue.m_plain 144) = 1 ∧
    (readRawByte afterOffsetValue).val? = some 1 := by
  decide

set_option maxRecDepth 1000000 in
/-- C11 (as stated, refuted): over `longKeySource`, a record at position 0 whose key has 65536
bytes, both reads succeed and the value takes the Offset branch; the holder's `keySize` is
`(uint16_t) 65536 = 0` and `pbKeyValueSize` is `2 + 1`, so the rollback is `3 + 0 + 11` against
the cipher cursor 65552: the captured status points at 65538, not at the offset 0 where the
key-length prefix began. -/
theorem longKey_status_counterexample :
    (readStringKV emptyHolder (construct longKeySource 65741)).2.err? = none ∧
    (readKeyThenValue 32 emptyHolder (construct longKeySource 65741)).2.err? = none ∧
    (readKeyThenValue 32 emptyHolder (construct longKeySource 65741)).1.type
      = KeyValueHolderType.Offset ∧
    (readKeyThenValue 32 emptyHolder (construct longKeySource 65741)).1.keySize = 0 ∧
    (readKeyThenValue 32 emptyHolder (construct longKeySource 65741)).1.pbKeyValueSize = 3 ∧
    (readKeyThenValue 32 emptyHolder (construct longKeySource 65741)).1.offset = 0 ∧
    (readKeyThenValue 32 emptyHolder (construct longKeySource 65741)).1.cryptStatus.cursor
      = 65552 ∧
    (readKeyThenValue 32 emptyHolder (construct longKeySource 65741)).1.cryptStatus.rollbackSize
      = 14 ∧
    (readKeyThenValue 32 emptyHolder (construct longKeySource 65741)).1.cryptStatus.cursor
      - (readKeyThenValue 32 emptyHolder (construct longKeySource 65741)).1.cryptStatus.rollbackSize
      ≠ (readKeyThenValue 32 emptyHolder (construct longKeySource 65741)).1.offset := by
  decide
/-- C11 (amended): for every coherent reader state standing at a record written by a canonical
encoder whose key is shorter than 65536 bytes (the holder's `keySize` is a `uint16_t`) and
whose value (shorter than `2^31` bytes, inside the source) is longer than
`2 * sizeof(KeyValueHolderCrypt)`, reading the key with `readString(kvHolder)` and the value
with `readData(kvHolder)` succeeds and takes the Offset branch; the holder records the key
size, the value size and `pbKeyValueSize`, the sum of the varint sizes of the two; the rollback
captured is `pbKeyValueSize + keySize` plus the staged unread bytes, and the cipher cursor
minus this rollback is the logical position at which the key-length prefix began, which
`kvHolder.offset` holds as a `uint32_t`. -/
theorem offset_status_points_at_record_start (K : Nat) (kv : KeyValueHolderCrypt)
    (s : CodedInputDataCrypt) (key : List UByte) (vlen : Nat) (hs : Coherent s)
    (hk : key.length < 65536) (hv : vlen < 2147483648) (hK : szMul K 2 < vlen)
    (henc : PlainAt s (encodeData key ++ encodeVarint32 vlen))
    (hfit : s.m_position + (encodeData key).length + (encodeVarint32 vlen).length + vlen
      ≤ s.m_size) :
    (readStringKV kv s).2.val? = some key ∧
    (readKeyThenValue K kv s).2.err? = none ∧
    (readKeyThenValue K kv s).1.type = KeyValueHolderType.Offset ∧
    (readKeyThenValue K kv s).1.keySize = key.length ∧
    (readKeyThenValue K kv s).1.valueSize = vlen ∧
    (readKeyThenValue K kv s).1.pbKeyValueSize
      = (encodeVarint32 vlen).length + (encodeVarint32 key.length).length ∧
    (readKeyThenValue K kv s).1.cryptStatus.cursor = (atValueBody kv s).m_decryptPosition ∧
    (readKeyThenValue K kv s).1.cryptStatus.rollbackSize
      = (readKeyThenValue K kv s).1.pbKeyValueSize + (readKeyThenValue K kv s).1.keySize
        + staged (atValueBody kv s) ∧
    (readKeyThenValue K kv s).1.cryptStatus.rollbackSize
      ≤ (readKeyThenValue K kv s).1.cryptStatus.cursor ∧
    (readKeyThenValue K kv s).1.cryptStatus.cursor
      - (readKeyThenValue K kv s).1.cryptStatus.rollbackSize = s.m_position ∧
    (readKeyThenValue K kv s).1.offset = s.m_position % 4294967296 := by
  obtain ⟨r1, r2, r3, r4, r5⟩ := readStringKV_spec kv s hs key (by omega)
    (plainAt_append_left s _ _ henc) (by omega)
  have hh := readStringKV_holder kv s hs key (by omega) (plainAt_append_left s _ _ henc)
    (by omega)
  have hpl : PlainAt (readStringKV kv s).2.state (encodeVarint32 vlen) :=
    plainAt_append_right s _ _ _ henc r3 r5
  have hread := readRawVarint32_canonical_eq (readStringKV kv s).2.state false vlen r2
    (by omega) hpl (by rw [r5, r4]; omega)
  obtain ⟨_, e2, _⟩ := encodeVarint_spec 5 vlen (by norm_num; omega) (by norm_num)
  obtain ⟨f1, f2, _⟩ := encodeVarint_spec 5 key.length (by norm_num; omega) (by norm_num)
  obtain ⟨a1, a2, a3, a4⟩ := consume_advance 10 false (readStringKV kv s).2.state r2
    (by norm_num) (encodeVarint32 vlen).length (by unfold encodeVarint32; omega)
    (by rw [r5, r4]; omega)
  have hpv := pbRawVarint32Size_eq vlen (by omega)
  have hpk := pbRawVarint32Size_eq key.length (by omega)
  refine ⟨r1, ?_⟩
  simp only [readKeyThenValue, atValueBody, staged, hh]
  generalize (readStringKV kv s).2.state = s1 at r2 r3 r4 r5 hpl hread a1 a2 a3 a4
  generalize advance (encodeVarint32 vlen).length (consumeBytes 10 false s1) = s2
    at hread a1 a2 a3 a4
  have hi := toInt32_small vlen hv
  have hu : toU64 (vlen : Int) = vlen := by
    rw [toU64_nonneg _ (by omega) (by omega)]
    omega
  have hp := hs.pos_le
  have hz := hs.size_lt
  have hfit2 : vlen ≤ szSub s2.m_size s2.m_position := by
    rw [a3, a4, r4, r5]
    simp only [szSub, SIZE_MOD]
    omega
  obtain ⟨b1, b2, b3, b4, b5, b6, b7, b8, b9⟩ := a1
  rw [a4, r5] at b3
  unfold encodeVarint32 at hpv hpk hfit b3 ⊢
  unfold encodeData at hfit b3
  rw [List.length_append] at hfit b3
  unfold encodeVarint32 at hfit b3
  have hst : szSub s2.m_decryptBufferDecryptPosition s2.m_decryptBufferPosition
      = s2.m_decryptBufferDecryptPosition - s2.m_decryptBufferPosition := by
    simp only [szSub, SIZE_MOD]
    omega
  simp only [readDataKV, hread, hi, hu, if_pos hfit2, if_pos hK, Outcome.state,
    statusBeforeDecrypt, hst]
  rw [if_neg (by omega)]
  simp only [Outcome.err?, szAdd, SIZE_MOD]
  rw [Nat.mod_eq_of_lt (show vlen < 4294967296 by omega),
    Nat.mod_eq_of_lt (show key.length < 65536 by omega), hpv, hpk]
  refine ⟨?_, ?_, ?_, ?_, ?_, ?_, ?_, ?_, ?_, ?_⟩
  all_goals first | rfl | trivial | omega

set_option maxRecDepth 1000000 in
/-- Witness for C11: over `staleMarkRecords`, after the first record, the record at position
16 has a 1-byte key and a 159-byte value; with `sizeof(KeyValueHolderCrypt) = 32` it is read
through the Offset branch and the captured status points at position 16. -/
theorem offset_status_points_at_record_start_witness :
    (readKeyThenValue 32 emptyHolder
      (readKeyThenValue 32 emptyHolder (readerOf staleMarkRecords)).2.state).1.cryptStatus.cursor
      - (readKeyThenValue 32 emptyHolder
        (readKeyThenValue 32 emptyHolder
          (readerOf staleMarkRecords)).2.state).1.cryptStatus.rollbackSize
      = (readKeyThenValue 32 emptyHolder (readerOf staleMarkRecords)).2.state.m_position :=
  (offset_status_points_at_record_start 32 emptyHolder
    (readKeyThenValue 32 emptyHolder (readerOf staleMarkRecords)).2.state [ubyte 67] 159
    (reached_coherent _
      (Reached.dataKVDirect 32 _ _ 7 _ _
        (Reached.stringKV emptyHolder _ [ubyte 65, ubyte 65, ubyte 65, ubyte 65, ubyte 65,
          ubyte 65, ubyte 65] _ (Reached.fresh _ _ (by decide)) (eq_ok_of_val _ _ (by decide)))
        (eq_ok_of_val _ _ (by decide)) (by decide) (eq_ok_of_val _ _ (by decide))))
    (by decide) (by decide) (by decide) (by unfold PlainAt; decide) (by decide)).2.2.2.2.2.2.2.2.2.1

/-- C12: with `__crc32b/h/w/d` the bitwise reflected CRC-32 update (polynomial `0xEDB88320`)
over 1/2/4/8 little-endian bytes, for every seed, every byte sequence and every start address
at which the memory holds the sequence, `armv8_crc32(seed, buf, len)` is the byte-at-a-time
CRC-32 of the same bytes with the same seed and the all-ones complement before and after; so
the result is the same at every other address and alignment that holds the same bytes. -/
theorem armv8_crc32_reference (mem : Nat → UByte) (seed a : Nat) (bytes : List UByte)
    (h : HoldsAt mem a bytes) :
    armv8_crc32 mem seed a bytes.length = crc32Reference seed bytes ∧
    ∀ (mem' : Nat → UByte) (a' : Nat), HoldsAt mem' a' bytes →
      armv8_crc32 mem' seed a' bytes.length = armv8_crc32 mem seed a bytes.length := by
  refine ⟨?_, ?_⟩
  · rw [armv8_crc32_bytes, bytesAt_of_holds mem bytes a h]
  · intro mem' a' h'
    rw [armv8_crc32_bytes, armv8_crc32_bytes, bytesAt_of_holds mem bytes a h,
      bytesAt_of_holds mem' bytes a' h']

set_option maxRecDepth 1000000 in
/-- Witness for C12: the nine bytes `"123456789"` stored at address 3, with seed 0; the
reference value is the CRC-32 check value `0xCBF43926`. -/
theorem armv8_crc32_reference_witness :
    armv8_crc32 (memoryOf 3 [49, 50, 51, 52, 53, 54, 55, 56, 57]) 0 3
        ([49, 50, 51, 52, 53, 54, 55, 56, 57].map ubyte).length
      = crc32Reference 0 ([49, 50, 51, 52, 53, 54, 55, 56, 57].map ubyte) ∧
    crc32Reference 0 ([49, 50, 51, 52, 53, 54, 55, 56, 57].map ubyte) = 0xCBF43926 :=
  ⟨(armv8_crc32_reference (memoryOf 3 [49, 50, 51, 52, 53, 54, 55, 56, 57]) 0 3
      ([49, 50, 51, 52, 53, 54, 55, 56, 57].map ubyte) (by unfold HoldsAt; decide)).1,
    by decide⟩

/-- C13: for every seed `c`, all byte sequences `A` and `B` and all start addresses at which
memories hold `A`, `B` and `A ++ B`, `armv8_crc32(armv8_crc32(c, A), B)` equals
`armv8_crc32(c, A ++ B)`; and over the empty sequence `armv8_crc32(c, buf, 0)` is `c`, for
every 32-bit seed `c` and every address. -/
theorem armv8_crc32_chaining (c : Nat) (A B : List UByte) (memA memB memAB : Nat → UByte)
    (aA aB aAB : Nat) (hA : HoldsAt memA aA A) (hB : HoldsAt memB aB B)
    (hAB : HoldsAt memAB aAB (A ++ B)) :
    armv8_crc32 memB (armv8_crc32 memA c aA A.length) aB B.length
      = armv8_crc32 memAB c aAB (A ++ B).length ∧
    (c < 4294967296 → ∀ (mem : Nat → UByte) (buf : Nat), armv8_crc32 mem c buf 0 = c) := by
  refine ⟨?_, ?_⟩
  · rw [armv8_crc32_bytes, armv8_crc32_bytes, armv8_crc32_bytes, bytesAt_of_holds memA A aA hA,
      bytesAt_of_holds memB B aB hB, bytesAt_of_holds memAB (A ++ B) aAB hAB,
      crc32Reference_append]
  · intro hc mem buf
    rw [armv8_crc32_bytes]
    exact crc32Reference_nil c hc

set_option maxRecDepth 1000000 in
/-- Witness for C13: `"1234"` at address 1 and `"56789"` at address 6 chained with seed 0
against `"123456789"` at address 3, and the empty sequence with seed 7. -/
theorem armv8_crc32_chaining_witness :
    armv8_crc32 (memoryOf 6 [53, 54, 55, 56, 57])
        (armv8_crc32 (memoryOf 1 [49, 50, 51, 52]) 0 1 ([49, 50, 51, 52].map ubyte).length) 6
        ([53, 54, 55, 56, 57].map ubyte).length
      = armv8_crc32 (memoryOf 3 [49, 50, 51, 52, 53, 54, 55, 56, 57]) 0 3
        ([49, 50, 51, 52].map ubyte ++ [53, 54, 55, 56, 57].map ubyte).length ∧
    armv8_crc32 (memoryOf 1 [49, 50, 51, 52]) 7 1 0 = 7 :=
  ⟨(armv8_crc32_chaining 0 ([49, 50, 51, 52].map ubyte) ([53, 54, 55, 56, 57].map ubyte)
      (memoryOf 1 [49, 50, 51, 52]) (memoryOf 6 [53, 54, 55, 56, 57])
      (memoryOf 3 [49, 50, 51, 52, 53, 54, 55, 56, 57]) 1 6 3
      (by unfold HoldsAt; decide) (by unfold HoldsAt; decide) (by unfold HoldsAt; decide)).1,
    (armv8_crc32_chaining 7 ([49, 50, 51, 52].map ubyte) ([53, 54, 55, 56, 57].map ubyte)
      (memoryOf 1 [49, 50, 51, 52]) (memoryOf 6 [53, 54, 55, 56, 57])
      (memoryOf 3 [49, 50, 51, 52, 53, 54, 55, 56, 57]) 1 6 3
      (by unfold HoldsAt; decide) (by unfold HoldsAt; decide) (by unfold HoldsAt; decide)).2
      (by decide) _ _⟩

/-- C14 (as stated, refuted): the three-byte source `01 02 03` is read successfully by
`readRawVarint32` (it returns 1 and leaves two bytes), and from the state reached
`consumeBytes(10, false)` returns with only the two bytes that the source still holds staged
from the read position, not ten. The request is clamped to the bytes left in the source. -/
theorem consumeBytes_short_source_counterexample :
    (readRawVarint32 false (readerOf [1, 2, 3])).val? = some 1 ∧
    (consumeBytes 10 false (readRawVarint32 false (readerOf [1, 2, 3])).state).m_decryptBufferDecryptPosition
      - (consumeBytes 10 false (readRawVarint32 false (readerOf [1, 2, 3])).state).m_decryptBufferPosition
      = 2 ∧
    ¬ ((consumeBytes 10 false (readRawVarint32 false (readerOf [1, 2, 3])).state).m_decryptBufferDecryptPosition
      - (consumeBytes 10 false (readRawVarint32 false (readerOf [1, 2, 3])).state).m_decryptBufferPosition
      ≥ 10) := by
  decide

/-- C14 (amended): for every coherent reader state, every length below `2^62` and either value
of `markDiscard`, after `consumeBytes(length, markDiscard)` the decrypted bytes available from
the read position number at least `length` or, when the source holds fewer, at least all the
bytes left in the source: `decryptedEnd - readPosition >= min(length, size - position)`. The
state stays coherent, so these bytes are the plaintext at the logical position. -/
theorem consumeBytes_available (length : Nat) (markDiscard : Bool) (s : CodedInputDataCrypt)
    (h : Coherent s) (hn : length < 4611686018427387904) :
    (consumeBytes length markDiscard s).m_decryptBufferDecryptPosition
        - (consumeBytes length markDiscard s).m_decryptBufferPosition
      ≥ min length (s.m_size - s.m_position) ∧
    Coherent (consumeBytes length markDiscard s) ∧
    (s.m_position + length ≤ s.m_size →
      (consumeBytes length markDiscard s).m_decryptBufferDecryptPosition
        - (consumeBytes length markDiscard s).m_decryptBufferPosition ≥ length) := by
  obtain ⟨c1, _, c3⟩ := consumeBytes_spec length markDiscard s h hn
  refine ⟨c3, c1, ?_⟩
  intro hfit
  omega

/-- Witness for C14: on a fresh reader over the 20-byte source `1, 2, ..., 20`,
`consumeBytes(10, true)` leaves at least ten bytes staged. -/
theorem consumeBytes_available_witness :
    (readerOf [1, 2, 3, 4, 5, 6, 7, 8, 9, 10, 11, 12, 13, 14, 15, 16, 17, 18, 19, 20]).m_position + 10
      ≤ (readerOf [1, 2, 3, 4, 5, 6, 7, 8, 9, 10, 11, 12, 13, 14, 15, 16, 17, 18, 19, 20]).m_size ∧
    (consumeBytes 10 true
        (readerOf [1, 2, 3, 4, 5, 6, 7, 8, 9, 10, 11, 12, 13, 14, 15, 16, 17, 18, 19, 20])).m_decryptBufferDecryptPosition
      - (consumeBytes 10 true
        (readerOf [1, 2, 3, 4, 5, 6, 7, 8, 9, 10, 11, 12, 13, 14, 15, 16, 17, 18, 19, 20])).m_decryptBufferPosition
      ≥ 10 :=
  ⟨by decide,
    (consumeBytes_available 10 true
      (readerOf [1, 2, 3, 4, 5, 6, 7, 8, 9, 10, 11, 12, 13, 14, 15, 16, 17, 18, 19, 20])
      (construct_coherent _ _ (by decide)) (by decide)).2.2 (by decide)⟩

set_option maxRecDepth 1000000 in
/-- C15 (the code at the failing input): over `staleMarkRecords` the second
`readString(kvHolder)` sets the discard mark to 16, and the ordering of the cursors holds
before the value is read. `readData(kvHolder)` then takes the Offset branch, and `skipBytes`
rebases the read position to 3 and the decrypted end to 16 without resetting the mark: the
discard mark 16 is above the read position 3. The following `readData()` decodes the length
40 and its `consumeBytes(40)` compacts by 16, which takes the read position from 4 to
`2^64 - 12`. -/
theorem skipBytes_keeps_discard_mark :
    (readStringKV emptyHolder (readerOf staleMarkRecords)).2.err? = none ∧
    (readDataKV 32 emptyHolder
      (readStringKV emptyHolder (readerOf staleMarkRecords)).2.state).2.err? = none ∧
    (readStringKV emptyHolder
      (readDataKV 32 emptyHolder
        (readStringKV emptyHolder (readerOf staleMarkRecords)).2.state).2.state).2.err? = none ∧
    beforeStaleMark.m_decryptBufferDiscardPosition = 16 ∧
    beforeStaleMark.m_decryptBufferPosition = 18 ∧
    beforeStaleMark.m_decryptBufferDecryptPosition = 32 ∧
    beforeStaleMark.m_decryptBufferSize = 32 ∧
    (readDataKV 32 emptyHolder beforeStaleMark).2.err? = none ∧
    (readDataKV 32 emptyHolder beforeStaleMark).1.type = KeyValueHolderType.Offset ∧
    afterStaleMark.m_decryptBufferDiscardPosition = 16 ∧
    afterStaleMark.m_decryptBufferPosition = 3 ∧
    afterStaleMark.m_decryptBufferDecryptPosition = 16 ∧
    ¬ (afterStaleMark.m_decryptBufferDiscardPosition ≤ afterStaleMark.m_decryptBufferPosition) ∧
    (readRawVarint32 false afterStaleMark).val? = some 40 ∧
    (readRawVarint32 false afterStaleMark).state.m_decryptBufferPosition = 4 ∧
    (consumeBytes 40 false
      (readRawVarint32 false afterStaleMark).state).m_decryptBufferPosition
      = 18446744073709551604 ∧
    (readData afterStaleMark).err? = none := by
  decide

set_option maxRecDepth 1000000 in
/-- C16 (the code at the failing input): over `tailValue`, a source of 161 bytes, the
`readData(kvHolder)` call succeeds through the Offset branch; `skipBytes(159)` decrypts
`ceil((159 - 14) / 16) = 10` whole blocks, so the logical position ends at 161, the size of
the source, and the cipher cursor at `16 + 160 = 176`, beyond it. -/
theorem skipBytes_passes_source_end :
    (readerOf tailValue).m_size = 161 ∧
    (readRawVarint32 false (readerOf tailValue)).val? = some 159 ∧
    (readRawVarint32 false (readerOf tailValue)).state.m_decryptPosition = 16 ∧
    staged (readRawVarint32 false (readerOf tailValue)).state = 14 ∧
    (readDataKV 32 emptyHolder (readerOf tailValue)).2.err? = none ∧
    (readDataKV 32 emptyHolder (readerOf tailValue)).1.type = KeyValueHolderType.Offset ∧
    (readDataKV 32 emptyHolder (readerOf tailValue)).2.state.m_position = 161 ∧
    (readDataKV 32 emptyHolder (readerOf tailValue)).2.state.m_decryptPosition = 176 ∧
    ¬ ((readDataKV 32 emptyHolder (readerOf tailValue)).2.state.m_decryptPosition
      ≤ (readDataKV 32 emptyHolder (readerOf tailValue)).2.state.m_size) := by
  decide

/-- C17 (as stated, refuted): the state reached by a successful `readRawVarint32` over the
source `01 02 03` satisfies the lockstep relation (position 1, two staged bytes, cipher cursor
3); `seek(1)` succeeds from it and moves only the logical position, so afterwards
`2 + 2 ≠ 3`. -/
theorem seek_breaks_lockstep_counterexample :
    (readRawVarint32 false (readerOf [1, 2, 3])).err? = none ∧
    Lockstep (readRawVarint32 false (readerOf [1, 2, 3])).state ∧
    (seek 1 (readRawVarint32 false (readerOf [1, 2, 3])).state).err? = none ∧
    ¬ Lockstep (seek 1 (readRawVarint32 false (readerOf [1, 2, 3])).state).state := by
  unfold Lockstep
  decide

/-- C17 (amended): every state reached from construction by successful typed reads,
`readString`, `readData`, `readString(kvHolder)` and Direct-branch `readData(kvHolder)` satisfies
`logicalPosition + (decryptedEnd - readPosition) = cipherDecryptCursor`; from such a state a
successful `readData(kvHolder)` that takes the Offset branch leaves a state satisfying it
whenever the value is already staged or the part of it that is not staged is not a multiple of
16 bytes; and a successful `seek(a)` from such a state leaves a state satisfying it only for
`a = 0`, since `seek` moves the logical position alone. -/
theorem lockstep_preserved (s : CodedInputDataCrypt) (h : Reached s) :
    Lockstep s ∧
    (∀ (K : Nat) (kv : KeyValueHolderCrypt) (size : Int) (s1 s' : CodedInputDataCrypt),
      readRawVarint32 false s = .ok size s1 → toU64 size > szMul K 2 →
      (readDataKV K kv s).2 = .ok () s' →
      (toU64 size ≤ staged s1 ∨ (toU64 size - staged s1) % 16 ≠ 0) → Lockstep s') ∧
    (∀ (a : Nat) (s' : CodedInputDataCrypt), a < 18446744073709551616 →
      seek a s = .ok () s' → (Lockstep s' ↔ a = 0)) := by
  have hs := reached_coherent s h
  refine ⟨hs.lockstep, ?_, ?_⟩
  · intro K kv size s1 s' h1 hK hok hcase
    have hr := varint32_range false s hs size s1 h1
    have st := (readRawVarint32_stepped false s hs size s1 h1).1
    have h0 : 0 ≤ size := by
      by_contra hneg
      simp only [readDataKV, h1, if_pos (not_le.mp hneg)] at hok
      cases hok
    have hfit : toU64 size ≤ szSub s1.m_size s1.m_position := by
      by_contra hnf
      simp only [readDataKV, h1, if_neg (not_lt.mpr h0), if_neg hnf] at hok
      cases hok
    rw [readDataKV_offset K kv s s1 size h1 h0 hfit hK] at hok
    simp only [Outcome.ok.injEq, true_and] at hok
    rw [← hok]
    have hu := toU64_nonneg size h0 hr.2
    exact skipBytes_lockstep (toU64 size) s1 st.1 (by omega) hcase
  · intro a s' ha hok
    obtain ⟨e, hle⟩ := seek_ok a s s' hok
    have h1 := hs.lockstep
    have h2 := hs.pos_le
    have h3 := hs.size_lt
    subst e
    simp only [Lockstep, szAdd, SIZE_MOD] at hle ⊢
    omega

/-- Witness for C17: the state after a successful `readRawVarint32` over the source
`01 02 03` is reached, and its cursors are in lockstep. -/
theorem lockstep_preserved_witness :
    Reached (readRawVarint32 false (readerOf [1, 2, 3])).state ∧
    Lockstep (readRawVarint32 false (readerOf [1, 2, 3])).state :=
  ⟨Reached.rawVarint32 false (readerOf [1, 2, 3]) 1 _ (Reached.fresh _ _ (by decide))
      (eq_ok_of_val _ 1 (by decide)),
    (lockstep_preserved (readRawVarint32 false (readerOf [1, 2, 3])).state
      (Reached.rawVarint32 false (readerOf [1, 2, 3]) 1 _ (Reached.fresh _ _ (by decide))
        (eq_ok_of_val _ 1 (by decide)))).1⟩

/-- C18 (the code at the failing input): for a buffer of 16 bytes at the address 4097, which
is 1 modulo 8, the prologue folds `offset = min(16, 4097 & 7) = 1` byte and leaves the pointer
4098 for the 64-bit loads, which is 2 modulo 8; it is the same for every address that is 1
modulo 8 and every length of at least 2. -/
theorem prologue_pointer_unaligned (mem : Nat → UByte) (crc : Nat) :
    (armv8_crc32_prologue mem crc 4097 16).2.1 = 4098 ∧
    (armv8_crc32_prologue mem crc 4097 16).2.2 = 15 ∧
    (armv8_crc32_prologue mem crc 4097 16).2.1 % 8 = 2 ∧
    ∀ (k len : Nat), (armv8_crc32_prologue mem crc (8 * k + 1) (len + 2)).2.1 % 8 = 2 := by
  refine ⟨?_, ?_, ?_, ?_⟩
  · rw [armv8_crc32_prologue_spec]
    show 4097 + min 16 (4097 % 8) = 4098
    decide
  · rw [armv8_crc32_prologue_spec]
    show 16 - min 16 (4097 % 8) = 15
    decide
  · rw [armv8_crc32_prologue_spec]
    show (4097 + min 16 (4097 % 8)) % 8 = 2
    decide
  · intro k len
    rw [armv8_crc32_prologue_spec]
    simp only
    omega

/-- C19: with `B(R) = 2 * R + 64`, which depends on the maximum encoded record size `R` alone,
at every point of a scan of any number of records of at most `R` encoded bytes, each read as
`readString(kvHolder)` followed by a Direct-sized `readData(kvHolder)`, the staging capacity
`m_decryptBufferSize` is at most `B(R)`. The capacity never shrinks, so the bound at the end
of each read covers the states inside it. -/
theorem compaction_bounds_capacity (K R : Nat) (s : CodedInputDataCrypt)
    (h : ScanPoint K R s) : s.m_decryptBufferSize ≤ 2 * R + 64 := by
  cases h with
  | start s h => exact (recordStart_bounded K R s h).2
  | afterKey kv kv' s0 s1 t s2 key size h0 h1 h2 hK h3 hR =>
    obtain ⟨i1, i2⟩ := recordStart_bounded K R s0 h0
    obtain ⟨_, _, r3, r4, r5⟩ := record_capacity K R kv kv' s0 s t s2 key size i1 h1 h2 hK h3
      hR i2
    omega
  | afterValueLength kv kv' s0 s1 t s2 key size h0 h1 h2 hK h3 hR =>
    obtain ⟨i1, i2⟩ := recordStart_bounded K R s0 h0
    obtain ⟨_, _, r3, r4, r5⟩ := record_capacity K R kv kv' s0 s1 s s2 key size i1 h1 h2 hK h3
      hR i2
    omega

set_option maxRecDepth 1000000 in
/-- Witness for C19: over `twoRecords`, whose records have 21 and 13 encoded bytes, the state
after the second key is a point of the scan with `R = 21`, and the capacity there is at most
`2 * 21 + 64`. -/
theorem compaction_bounds_capacity_witness :
    (readStringKV emptyHolder
      (readKeyThenValue 32 emptyHolder (readerOf twoRecords)).2.state).2.state.m_decryptBufferSize
      ≤ 2 * 21 + 64 :=
  compaction_bounds_capacity 32 21 _
    (ScanPoint.afterKey emptyHolder (readStringKV emptyHolder
        (readKeyThenValue 32 emptyHolder (readerOf twoRecords)).2.state).1
      (readKeyThenValue 32 emptyHolder (readerOf twoRecords)).2.state _ _ _
      [ubyte 50, ubyte 51, ubyte 52, ubyte 53, ubyte 54, ubyte 55, ubyte 56, ubyte 57] 3
      (RecordStart.next emptyHolder (readStringKV emptyHolder (readerOf twoRecords)).1
        (readerOf twoRecords) _ _ _
        [ubyte 100, ubyte 101, ubyte 102, ubyte 103, ubyte 104, ubyte 105, ubyte 106, ubyte 107,
          ubyte 108, ubyte 109, ubyte 110, ubyte 111, ubyte 112, ubyte 113] 5
        (RecordStart.fresh _ _ (by decide))
        (eq_ok_of_val _ _ (by decide)) (eq_ok_of_val _ _ (by decide)) (by decide)
        (eq_ok_of_val _ _ (by decide)) (by decide))
      (eq_ok_of_val _ _ (by decide)) (eq_ok_of_val _ _ (by decide)) (by decide)
      (eq_ok_of_val _ _ (by decide)) (by decide))

/-- C20: for every state with ordered staging cursors (whose cipher cursor is a `size_t` and
whose buffer size and requested length are below `2^62`), after `consumeBytes(length, markDiscard)` the staged
bytes from the read position to the decrypted end start with the unread bytes of the state
before the call, the `filled` bytes appended after them are the output of the decrypt engine
for the next `filled` ciphertext bytes at the cipher cursor, which moves on by `filled`, and
the logical position is unchanged. -/
theorem consumeBytes_keeps_unread (n : Nat) (d : Bool) (s : CodedInputDataCrypt)
    (h : CursorsOrdered s) (hc : s.m_decryptBufferSize < 4611686018427387904)
    (hn : n < 4611686018427387904) (hw : s.m_decryptPosition < 18446744073709551616) :
    ∃ filled,
      (consumeBytes n d s).m_position = s.m_position ∧
      (consumeBytes n d s).m_decryptBufferPosition
        ≤ (consumeBytes n d s).m_decryptBufferDecryptPosition ∧
      staged (consumeBytes n d s) = staged s + filled ∧
      (∀ i, i < staged s →
        (consumeBytes n d s).m_decryptBuffer ((consumeBytes n d s).m_decryptBufferPosition + i)
          = s.m_decryptBuffer (s.m_decryptBufferPosition + i)) ∧
      (∀ j, j < filled →
        (consumeBytes n d s).m_decryptBuffer
            ((consumeBytes n d s).m_decryptBufferPosition + staged s + j)
          = s.m_plain (s.m_decryptPosition + j)) ∧
      (consumeBytes n d s).m_decryptPosition = szAdd s.m_decryptPosition filled ∧
      (consumeBytes n d s).m_plain = s.m_plain := by
  obtain ⟨m0, m1, m2, m3, m4, m5, m6, m7, m8⟩ := markDiscard_frame d s h
  simp only [consumeBytes, staged]
  generalize markDiscard d s = m at m0 m1 m2 m3 m4 m5 m6 m7 m8 ⊢
  have hm := m0
  obtain ⟨h1, h2, h3⟩ := hm
  rw [← m6] at hc
  rw [← m1, ← m3, ← m4, ← m5, ← m7, ← m8]
  split_ifs with hfast
  · refine ⟨0, rfl, h2, rfl, fun i _ => rfl, fun j hj => by omega, ?_, rfl⟩
    simp only [szAdd, SIZE_MOD]
    omega
  · have hslow : m.m_decryptBufferDecryptPosition - m.m_decryptBufferPosition < n := by
      simp only [szSub, SIZE_MOD] at hfast
      omega
    have hL := fillLength_le n m hn h2 (by omega) hslow
    generalize fillLength n m = L at hL
    obtain ⟨c0, c1, c2, c3, c4, c5, c6, c7⟩ :=
      compact_frame L (szSub m.m_decryptBufferSize m.m_decryptBufferDecryptPosition) m m0 hc
    generalize compact L (szSub m.m_decryptBufferSize m.m_decryptBufferDecryptPosition) m = r
      at c0 c1 c2 c3 c4 c5 c6 c7
    obtain ⟨k1, k2, k3⟩ := c0
    obtain ⟨g1, g2, g3, g4, g5, g6, g7, g8, g9⟩ :=
      grow_fill_frame L r.2 r.1 k2 (by omega)
    refine ⟨L, by rw [g3, c4], by rw [g5, g6]; omega, by rw [g5, g6]; omega, ?_, ?_,
      by rw [g4, c5], by rw [g1, c2]⟩
    · intro i hi
      rw [g5, g8 i (by omega), c7 i hi]
    · intro j hj
      rw [g5]
      have e : r.1.m_decryptBufferPosition
          + (m.m_decryptBufferDecryptPosition - m.m_decryptBufferPosition) + j
          = r.1.m_decryptBufferDecryptPosition + j := by omega
      rw [e, g9 j hj, c2, c5]

/-- Witness for C20: on the compacting state `afterSecondKey` (read position 30, two unread
bytes) `consumeBytes(10)` keeps the two unread bytes and appends decrypted bytes. -/
theorem consumeBytes_keeps_unread_witness :
    ∃ filled,
      (consumeBytes 10 false afterSecondKey).m_position = afterSecondKey.m_position ∧
      (consumeBytes 10 false afterSecondKey).m_decryptBufferPosition
        ≤ (consumeBytes 10 false afterSecondKey).m_decryptBufferDecryptPosition ∧
      staged (consumeBytes 10 false afterSecondKey) = staged afterSecondKey + filled ∧
      (∀ i, i < staged afterSecondKey →
        (consumeBytes 10 false afterSecondKey).m_decryptBuffer
            ((consumeBytes 10 false afterSecondKey).m_decryptBufferPosition + i)
          = afterSecondKey.m_decryptBuffer (afterSecondKey.m_decryptBufferPosition + i)) ∧
      (∀ j, j < filled →
        (consumeBytes 10 false afterSecondKey).m_decryptBuffer
            ((consumeBytes 10 false afterSecondKey).m_decryptBufferPosition
              + staged afterSecondKey + j)
          = afterSecondKey.m_plain (afterSecondKey.m_decryptPosition + j)) ∧
      (consumeBytes 10 false afterSecondKey).m_decryptPosition
        = szAdd afterSecondKey.m_decryptPosition filled ∧
      (consumeBytes 10 false afterSecondKey).m_plain = afterSecondKey.m_plain :=
  consumeBytes_keeps_unread 10 false afterSecondKey (by unfold CursorsOrdered; decide)
    (by decide) (by decide) (by decide)


end mmkv
